import Mathlib

/-!
# MCLinker: name pools, dynamic symbols, the symbol pool and program headers

A shallow embedding of parts of `lib/Target/GNULDBackend.cpp`,
`lib/LD/StrSymPool.cpp`, `lib/LD/LDContext.cpp` and
`include/mcld/Script/TernaryOp.h`, followed by the properties proved about
them. Sizes and counters (`size_t`, `unsigned int`) are natural numbers; a
nullable pointer into a table is an `Option` of an index.
-/

namespace mcld

/-! ## GNULDBackend.cpp: `hash_bucket_count` -/

/-- The table `buckets[]` of `hash_bucket_count`. -/
def buckets : List Nat :=
  [1, 3, 17, 37, 67, 97, 131, 197, 263, 521, 1031, 2053, 4099, 8209,
   16411, 32771, 65537, 131101, 262147]

/-- The `for` loop of `hash_bucket_count` over the remaining table entries:
it stops at the first entry above `pNumOfSymbols` and otherwise records the
entry in `result`. -/
def hash_bucket_count.loop (pNumOfSymbols : Nat) : List Nat → Nat → Nat
  | [], result => result
  | b :: rest, result =>
    if pNumOfSymbols < b then result
    else hash_bucket_count.loop pNumOfSymbols rest b

/-- The function `hash_bucket_count(pNumOfSymbols, pIsGNUStyle)`. -/
def hash_bucket_count (pNumOfSymbols : Nat) (pIsGNUStyle : Bool) : Nat :=
  let result := hash_bucket_count.loop pNumOfSymbols buckets 1
  if pIsGNUStyle && decide (result < 2) then 2 else result

/-! ## Data model

`ResolveInfo.h`, `LDSymbol.h`, `MCLDOutput.h`, `MCLDAttribute.h` and
`MCLDInputTree.h` are not among the sources; the types below carry the fields
and accessors that the embedded functions use. -/

/-- Modelled from the spec: `ResolveInfo::Desc`, "desc in Undefined, Define,
Common, IndirectWeak". -/
inductive ResolveInfo.Desc where
  | Undefined | Define | Common | IndirectWeak
  deriving DecidableEq, Repr

/-- Modelled from the spec: `ResolveInfo::Binding`, "binding in Local, Global,
Weak, Absolute". -/
inductive ResolveInfo.Binding where
  | Local | Global | Weak | Absolute
  deriving DecidableEq, Repr

/-- Modelled from the spec: `ResolveInfo::Visibility`, "visibility in Default,
Internal, Hidden, Protected". -/
inductive ResolveInfo.Visibility where
  | Default | Internal | Hidden | Protected
  deriving DecidableEq, Repr

/-- The numeric value of a visibility, as stored in `st_other`; the order of
the spec is the order of ELF's `STV_` constants. -/
def ResolveInfo.Visibility.toNat : ResolveInfo.Visibility → Nat
  | .Default => 0
  | .Internal => 1
  | .Hidden => 2
  | .Protected => 3

/-- Modelled from the spec: the `ResolveInfo` record of section 3. `isDyn` is
the source (false: Regular, true: Dynamic), `isSymbol` tells a symbol from a
plain string entry of the pool, `type` is the symbol type code that
`getSymbolInfo` packs into `st_info`. -/
structure ResolveInfo where
  name : String
  isSymbol : Bool
  isDyn : Bool
  desc : ResolveInfo.Desc
  binding : ResolveInfo.Binding
  visibility : ResolveInfo.Visibility
  value : Nat
  size : Nat
  type : Nat
  reserved : Nat
  deriving DecidableEq, Repr

namespace ResolveInfo

def isLocal (r : ResolveInfo) : Bool := decide (r.binding = Binding.Local)
def isGlobal (r : ResolveInfo) : Bool := decide (r.binding = Binding.Global)
def isWeak (r : ResolveInfo) : Bool := decide (r.binding = Binding.Weak)
def isAbsolute (r : ResolveInfo) : Bool := decide (r.binding = Binding.Absolute)
def isCommon (r : ResolveInfo) : Bool := decide (r.desc = Desc.Common)
def isUndef (r : ResolveInfo) : Bool := decide (r.desc = Desc.Undefined)

/-- The type codes `ResolveInfo::NoType` and `ResolveInfo::File`, numbered as
ELF's `STT_NOTYPE` and `STT_FILE` (the type code goes unchanged into
`st_info`). -/
def NoType : Nat := 0
def File : Nat := 4

end ResolveInfo

/-- Modelled from the spec: an `LDSymbol`, the instance of a `ResolveInfo` in an
output context, with its own value; the other accessors read the
`ResolveInfo`. -/
structure LDSymbol where
  resolveInfo : ResolveInfo
  value : Nat
  deriving DecidableEq, Repr

namespace LDSymbol

def name (s : LDSymbol) : String := s.resolveInfo.name
/-- The accessor `nameSize()`: the number of characters of the name. -/
def nameSize (s : LDSymbol) : Nat := s.resolveInfo.name.length
def size (s : LDSymbol) : Nat := s.resolveInfo.size
def binding (s : LDSymbol) : ResolveInfo.Binding := s.resolveInfo.binding
def visibility (s : LDSymbol) : ResolveInfo.Visibility := s.resolveInfo.visibility
def type (s : LDSymbol) : Nat := s.resolveInfo.type

end LDSymbol

/-- Modelled from the spec: `Output::Type`, "output type in Exec, DynObj,
Object, Unknown". -/
inductive Output.Type where
  | Object | DynObj | Exec | Unknown
  deriving DecidableEq, Repr

/-- The output file: its type, its name and the symbol list of its
`LDContext` (`symBegin()` to `symEnd()`). -/
structure Output where
  type : Output.Type
  name : String
  symbols : List LDSymbol
  deriving Repr

/-- The enumeration `Input::Type` of `MCLDInput.h`. -/
inductive Input.Type where
  | Archive | Object | DynObj | Script | Unknown
  deriving DecidableEq, Repr

/-- Modelled from the spec: an `Attribute`, "a record of boolean flags". -/
structure MCLDAttribute where
  isWholeArchive : Bool
  isAsNeeded : Bool
  isAddNeeded : Bool
  isStatic : Bool
  deriving DecidableEq, Repr

/-- An `Input`: type, name, the attribute record (`attribute()`) and the
needed mark. -/
structure Input where
  type : Input.Type
  name : String
  attr : MCLDAttribute
  isNeeded : Bool
  deriving DecidableEq, Repr

/-- The part of `MCLDInfo` that the name pools read: the inputs in the order in
which `bfs_begin()` to `bfs_end()` yields them. -/
structure MCLDInfo where
  inputs : List Input
  deriving Repr

/-! ## GNULDBackend.cpp: `isDynamicSymbol` -/

/-- The function `isDynamicSymbol(pSymbol, pOutput)`. -/
def isDynamicSymbol (pSymbol : LDSymbol) (pOutput : Output) : Bool :=
  if 0 ≠ pSymbol.resolveInfo.reserved then true
  else if pSymbol.binding = ResolveInfo.Binding.Local then false
  else if Output.Type.DynObj = pOutput.type then
    if pSymbol.resolveInfo.visibility = ResolveInfo.Visibility.Default ∨
        pSymbol.resolveInfo.visibility = ResolveInfo.Visibility.Protected then true
    else false
  else false

/-! ## GNULDBackend.cpp: `getSymbolInfo`, `getSymbolShndx` -/

namespace ELF

def STB_LOCAL : Nat := 0
def STB_GLOBAL : Nat := 1
def STB_WEAK : Nat := 2
def SHN_UNDEF : Nat := 0
def SHN_ABS : Nat := 0xfff1
def SHN_COMMON : Nat := 0xfff2
/-- The sizes `sizeof(Elf32_Sym)`, `sizeof(Elf64_Sym)` and `sizeof(Elf32_Word)`. -/
def sizeof_Elf32_Sym : Nat := 16
def sizeof_Elf64_Sym : Nat := 24
def sizeof_Elf32_Word : Nat := 4

end ELF

/-- The method `GNULDBackend::getSymbolInfo`. -/
def getSymbolInfo (pSymbol : LDSymbol) : Nat :=
  let bind : Nat :=
    if pSymbol.resolveInfo.isLocal then ELF.STB_LOCAL
    else if pSymbol.resolveInfo.isGlobal then ELF.STB_GLOBAL
    else if pSymbol.resolveInfo.isWeak then ELF.STB_WEAK
    else 0
  pSymbol.resolveInfo.type ||| (bind <<< 4)

/-- The method `GNULDBackend::getSymbolShndx`; `pLayout` stands for the lookup
`pLayout.getOutputLDSection(*pSymbol.fragRef()->frag())->index()`. -/
def getSymbolShndx (pSymbol : LDSymbol) (pLayout : LDSymbol → Nat) : Nat :=
  if pSymbol.resolveInfo.isAbsolute then ELF.SHN_ABS
  else if pSymbol.resolveInfo.isCommon then ELF.SHN_COMMON
  else if pSymbol.resolveInfo.isUndef then ELF.SHN_UNDEF
  else if pSymbol.resolveInfo.isLocal &&
      (decide (pSymbol.type = ResolveInfo.NoType) || decide (pSymbol.type = ResolveInfo.File)) then
    ELF.SHN_ABS
  else pLayout pSymbol

/-! ## GNULDBackend.cpp: `sizeNamePools` -/

/-- The section sizes that `sizeNamePools` sets, in bytes, and the number of
`reserveNeedEntry()` calls made on the `.dynamic` section. The fixed entries
of `.dynamic` (`ELFDynamic::reserveEntries`, not among the sources) are left
out. -/
structure NamePoolSizes where
  symtab : Nat
  strtab : Nat
  dynsym : Nat
  dynstr : Nat
  hash : Nat
  needEntries : Nat
  deriving DecidableEq, Repr

/-- The local counters `symtab`, `dynsym`, `strtab`, `dynstr` of
`sizeNamePools`. -/
structure sizeNamePools.Counters where
  symtab : Nat
  dynsym : Nat
  strtab : Nat
  dynstr : Nat
  deriving DecidableEq, Repr

/-- One iteration of the symbol loop of `sizeNamePools`. -/
def sizeNamePools.countSymbol (pOutput : Output) (c : sizeNamePools.Counters)
    (symbol : LDSymbol) : sizeNamePools.Counters :=
  let str_size := symbol.nameSize + 1
  let c1 : sizeNamePools.Counters :=
    if isDynamicSymbol symbol pOutput then
      { c with dynsym := c.dynsym + 1, dynstr := c.dynstr + str_size }
    else c
  { c1 with symtab := c1.symtab + 1, strtab := c1.strtab + str_size }

/-- The symbol loop of `sizeNamePools`, from the initial counters
`symtab = 0, dynsym = 1, strtab = 0, dynstr = 1`. -/
def sizeNamePools.countSymbols (pOutput : Output) : sizeNamePools.Counters :=
  pOutput.symbols.foldl (sizeNamePools.countSymbol pOutput)
    { symtab := 0, dynsym := 1, strtab := 0, dynstr := 1 }

/-- One iteration of the input loop of `sizeNamePools`; the state is `dynstr`
and the number of reserved `DT_NEEDED` entries. -/
def sizeNamePools.countInput (st : Nat × Nat) (input : Input) : Nat × Nat :=
  if input.type = Input.Type.DynObj then
    if input.attr.isAddNeeded then
      if !input.attr.isAsNeeded then (st.1 + (input.name.length + 1), st.2 + 1)
      else if input.isNeeded then (st.1 + (input.name.length + 1), st.2 + 1)
      else st
    else st
  else st

/-- The method `GNULDBackend::sizeNamePools`; `none` is the early `return`
taken for `Output::Object` and every other unsupported output type, which
sets no size. -/
def sizeNamePools (bitclass : Nat) (pOutput : Output) (pLDInfo : MCLDInfo) :
    Option NamePoolSizes :=
  let c := sizeNamePools.countSymbols pOutput
  match pOutput.type with
  | Output.Type.DynObj | Output.Type.Exec =>
    let st := pLDInfo.inputs.foldl sizeNamePools.countInput (c.dynstr, 0)
    let hash := (2 + hash_bucket_count ((c.dynsym - 1) % 2 ^ 32) false + (c.dynsym - 1))
      * ELF.sizeof_Elf32_Word
    let dynstr := st.1 + (pOutput.name.length + 1)
    let symsize := if 32 = bitclass then ELF.sizeof_Elf32_Sym else ELF.sizeof_Elf64_Sym
    some { symtab := c.symtab * symsize, strtab := c.strtab,
           dynsym := c.dynsym * symsize, dynstr := dynstr,
           hash := hash, needEntries := st.2 }
  | _ => none

/-! ## GNULDBackend.cpp: `emitDynNamePools`

A memory region is a function from an index to its content: `.dynsym` by
entry index, `.dynstr` by byte offset, `.hash` by 32-bit word index. The
contents a region has before the function writes to it are a parameter, and
so is the size in bytes of the `.hash` region: a store of the hash emission
outside that region has no defined behaviour. -/

/-- The terminating NUL character. -/
def NUL : Char := Char.ofNat 0

/-- The call `strcpy(mem + dst, src)`: the characters of `src` up to its first
NUL, then a NUL. -/
def strcpy (mem : Nat → Char) (dst : Nat) : List Char → (Nat → Char)
  | [] => Function.update mem dst NUL
  | c :: cs =>
    if c = NUL then Function.update mem dst NUL
    else strcpy (Function.update mem dst c) (dst + 1) cs

/-- A symbol-table entry, `Elf32_Sym` or `Elf64_Sym`. -/
structure ElfSym where
  st_name : Nat
  st_value : Nat
  st_size : Nat
  st_info : Nat
  st_other : Nat
  st_shndx : Nat
  deriving DecidableEq, Repr

/-- The six stores that fill one entry for `symbol` with name offset
`strtabsize`; every store truncates to the width of its field (`st_name` 32,
`st_info` and `st_other` 8, `st_shndx` 16, `st_value` and `st_size` 32 bits in
an `Elf32_Sym` and 64 bits in an `Elf64_Sym`). -/
def symbolEntry (bitclass : Nat) (pLayout : LDSymbol → Nat) (strtabsize : Nat)
    (symbol : LDSymbol) : ElfSym :=
  let w := if 32 = bitclass then 32 else 64
  { st_name := strtabsize % 2 ^ 32,
    st_value := symbol.value % 2 ^ w,
    st_size := symbol.size % 2 ^ w,
    st_info := getSymbolInfo symbol % 2 ^ 8,
    st_other := symbol.visibility.toNat % 2 ^ 8,
    st_shndx := getSymbolShndx symbol pLayout % 2 ^ 16 }

/-- The state of the two emission loops: the `.dynsym` and `.dynstr` regions,
the counters `symtabIdx` and `strtabsize`, and the values given so far to the
reserved `DT_NEEDED` entries, in the order of the iterator `dt_need`. -/
structure emitDynNamePools.State where
  symtab : Nat → ElfSym
  strtab : Nat → Char
  symtabIdx : Nat
  strtabsize : Nat
  needs : List Nat

/-- One iteration of the symbol loop of `emitDynNamePools`. -/
def emitDynNamePools.emitSymbol (bitclass : Nat) (pLayout : LDSymbol → Nat)
    (pOutput : Output) (st : emitDynNamePools.State) (symbol : LDSymbol) :
    emitDynNamePools.State :=
  if !isDynamicSymbol symbol pOutput then st
  else
    { st with
      symtab := Function.update st.symtab st.symtabIdx
        (symbolEntry bitclass pLayout st.strtabsize symbol),
      strtab := strcpy st.strtab st.strtabsize symbol.name.toList,
      symtabIdx := st.symtabIdx + 1,
      strtabsize := st.strtabsize + (symbol.nameSize + 1) }

/-- The writes of one `DT_NEEDED` name: the string, the entry value and the
counter. -/
def emitDynNamePools.writeNeeded (st : emitDynNamePools.State) (input : Input) :
    emitDynNamePools.State :=
  { st with
    strtab := strcpy st.strtab st.strtabsize input.name.toList,
    needs := st.needs ++ [st.strtabsize],
    strtabsize := st.strtabsize + (input.name.length + 1) }

/-- One iteration of the input loop of `emitDynNamePools`. -/
def emitDynNamePools.emitNeeded (st : emitDynNamePools.State) (input : Input) :
    emitDynNamePools.State :=
  if input.type = Input.Type.DynObj then
    if input.attr.isAddNeeded then
      if !input.attr.isAsNeeded then emitDynNamePools.writeNeeded st input
      else if input.isNeeded then emitDynNamePools.writeNeeded st input
      else st
    else st
  else st

/-- The construction `llvm::StringRef(mem + off)`: the characters from `off` up
to the next NUL. `fuel` bounds the scan by the number of bytes of the string
table written so far, whose last byte is a NUL. -/
def readCStr (mem : Nat → Char) : Nat → Nat → List Char
  | _, 0 => []
  | off, fuel + 1 =>
    if mem off = NUL then [] else mem off :: readCStr mem (off + 1) fuel

/-- The call `bzero(base, nbytes)` seen on the 32-bit words of the region:
`nbytes` bytes are cleared, so `nbytes / 4` whole words, and the `nbytes % 4`
bytes of lowest address (the low-order bytes, the layout being LSB) of the
word that follows. `base` is a word index. -/
def bzero (mem : Nat → Nat) (base : Nat) (nbytes : Nat) : Nat → Nat :=
  fun w =>
    if w < base then mem w
    else if 4 * (w - base + 1) ≤ nbytes then 0
    else if 4 * (w - base) < nbytes then
      mem w / 2 ^ (8 * (nbytes - 4 * (w - base))) * 2 ^ (8 * (nbytes - 4 * (w - base)))
    else mem w

/-- One iteration of the hash loop: link `sym_idx` in front of the chain of
its bucket. `bucket` starts at word 2 and `chain` at word `2 + nbucket`. -/
def emitDynNamePools.hashSymbol (hash_func : String → Nat) (symtab : Nat → ElfSym)
    (strtab : Nat → Char) (strtabsize : Nat) (nbucket : Nat)
    (word_array : Nat → Nat) (sym_idx : Nat) : Nat → Nat :=
  let st_name := (symtab sym_idx).st_name
  let name := String.mk (readCStr strtab st_name (strtabsize - st_name))
  let bucket_pos := hash_func name % nbucket
  let linked := Function.update word_array (2 + nbucket + sym_idx)
    (word_array (2 + bucket_pos))
  Function.update linked (2 + bucket_pos) (sym_idx % 2 ^ 32)

/-- The 32-bit word `w` of a region of `size` bytes lies inside the region. -/
def emitDynNamePools.inRegion (size w : Nat) : Bool := decide (4 * (w + 1) ≤ size)

/-- One iteration of the hash loop in a region of `hash_size` bytes: the
stores of `hashSymbol`; `none` when the bucket word that is read and written,
or the chain word that is written, lies outside the region, where the
behaviour of the code is undefined. -/
def emitDynNamePools.hashSymbolIn (hash_func : String → Nat) (symtab : Nat → ElfSym)
    (strtab : Nat → Char) (strtabsize : Nat) (nbucket : Nat) (hash_size : Nat)
    (word_array : Nat → Nat) (sym_idx : Nat) : Option (Nat → Nat) :=
  let st_name := (symtab sym_idx).st_name
  let name := String.mk (readCStr strtab st_name (strtabsize - st_name))
  let bucket_pos := hash_func name % nbucket
  if emitDynNamePools.inRegion hash_size (2 + bucket_pos) &&
      emitDynNamePools.inRegion hash_size (2 + nbucket + sym_idx) then
    some (emitDynNamePools.hashSymbol hash_func symtab strtab strtabsize nbucket
      word_array sym_idx)
  else none

/-- The start of the emission of `.hash` in a region of `hash_size` bytes: the
header words `nbucket` and `nchain`, then `bzero(bucket, nbucket)`. The
argument of `hash_bucket_count` is an `unsigned int`: `symtabIdx` is converted
modulo `2 ^ 32`. The result is `none` when the header or the cleared bytes do
not lie inside the region. -/
def emitDynNamePools.clearBuckets (symtabIdx : Nat) (hash_size : Nat)
    (word_array : Nat → Nat) : Option (Nat → Nat) :=
  let nbucket := hash_bucket_count (symtabIdx % 2 ^ 32) false
  if 8 ≤ hash_size ∧ 8 + nbucket ≤ hash_size then
    let header := Function.update (Function.update word_array 0 nbucket) 1
      (symtabIdx % 2 ^ 32)
    some (bzero header 2 nbucket)
  else none

/-- The emission of `.hash` in a region of `hash_size` bytes: header, `bzero`
of the bucket array, then the hash loop over the indices below `symtabIdx`.
The result is `none` when a store falls outside the region. -/
def emitDynNamePools.emitHash (hash_func : String → Nat) (symtab : Nat → ElfSym)
    (strtab : Nat → Char) (strtabsize : Nat) (symtabIdx : Nat) (hash_size : Nat)
    (word_array : Nat → Nat) : Option (Nat → Nat) :=
  match emitDynNamePools.clearBuckets symtabIdx hash_size word_array with
  | none => none
  | some cleared =>
    (List.range symtabIdx).foldlM
      (emitDynNamePools.hashSymbolIn hash_func symtab strtab strtabsize
        (hash_bucket_count (symtabIdx % 2 ^ 32) false) hash_size) cleared

/-- What `emitDynNamePools` leaves behind: the three regions, the final
counters, the values of the `DT_NEEDED` entries and the argument of
`applySoname`. The `.hash` region is emitted last; it is `none` when its
emission stores outside the region. -/
structure DynNamePools where
  symtab : Nat → ElfSym
  strtab : Nat → Char
  hash : Option (Nat → Nat)
  symtabIdx : Nat
  strtabsize : Nat
  needs : List Nat
  soname : Nat

/-- The method `GNULDBackend::emitDynNamePools`. `.ok none` is the early
`return` for `Output::Object` and the other unsupported output types,
`.error` is `report_fatal_error`. `symtab0`, `strtab0` and `hash0` are the
requested regions as they are found, `hash_size` is the size in bytes of the
requested `.hash` region, `hash_sect.size()`; `hash_func` is
`StringHash<ELF>`. -/
def emitDynNamePools (bitclass : Nat) (pLayout : LDSymbol → Nat)
    (hash_func : String → Nat) (pOutput : Output) (pLDInfo : MCLDInfo)
    (symtab0 : Nat → ElfSym) (strtab0 : Nat → Char) (hash0 : Nat → Nat)
    (hash_size : Nat) : Except String (Option DynNamePools) :=
  match pOutput.type with
  | Output.Type.DynObj | Output.Type.Exec =>
    if 32 = bitclass ∨ 64 = bitclass then
      let st0 : emitDynNamePools.State :=
        { symtab := Function.update symtab0 0 ⟨0, 0, 0, 0, 0, 0⟩,
          strtab := Function.update strtab0 0 NUL,
          symtabIdx := 1, strtabsize := 1, needs := [] }
      let st1 := pOutput.symbols.foldl
        (emitDynNamePools.emitSymbol bitclass pLayout pOutput) st0
      let st2 := pLDInfo.inputs.foldl emitDynNamePools.emitNeeded st1
      let strtab := strcpy st2.strtab st2.strtabsize pOutput.name.toList
      let strtabsize := st2.strtabsize + (pOutput.name.length + 1)
      .ok (some
        { symtab := st2.symtab, strtab := strtab,
          hash := emitDynNamePools.emitHash hash_func st2.symtab strtab strtabsize
            st2.symtabIdx hash_size hash0,
          symtabIdx := st2.symtabIdx, strtabsize := strtabsize,
          needs := st2.needs, soname := st2.strtabsize })
    else .error ("unsupported bitclass " ++ toString bitclass ++ ".\n")
  | _ => .ok none

/-! ## StrSymPool.cpp

`Resolver.h` and the hash table of `StrSymPool.h` are not among the sources.
A `ResolveInfo*` into the table is the index of the entry; a `ResolveInfo`
that the entry factory produces without inserting it is a value outside the
table. -/

/-- Modelled from the spec: the actions of a Resolver, "Success, Warning(msg),
Abort(msg), Again(tag)". `Again tag` is every value that `insertSymbol` meets
in the `default:` branch of its `switch`; the message is read from the
resolver by `mesg()`. -/
inductive Resolver.Action where
  | Success
  | Warning
  | Abort
  | Again (tag : Nat)
  deriving DecidableEq, Repr

/-- The state that `insertSymbol` reads and writes: the entries of `m_Table`
in the order of their insertion, the state of the resolver `m_pResolver`, the
lines written to `llvm::errs()`, and a record of the calls of `resolve`, one
pair (old, new) per call. -/
structure StrSymPool (σ : Type) where
  m_Table : List ResolveInfo
  resolver : σ
  errs : List String
  resolved : List (ResolveInfo × ResolveInfo)
  deriving DecidableEq, Repr

/-- What a call `resolve(old, new, override)` leaves: the action, the resolver
after the call, the entry `old` after the call (it is passed by reference)
and the flag `override`. -/
structure ResolveResult (σ : Type) where
  action : Resolver.Action
  resolver : σ
  old : ResolveInfo
  override : Bool

/-- Modelled from the spec: a Resolver, "a stateful strategy invoked as
resolve(old, new, &override)", with the members that `insertSymbol` uses.
`resolve` may rewrite `old` but not its name, the key under which the table
holds it. `resolveAgain` receives the pool, an action tag, the index of `old`
and `new`, and returns its pair and the pool as it leaves it. -/
structure Resolver (σ : Type) where
  LastAction : Nat
  resolve : σ → ResolveInfo → ResolveInfo → ResolveResult σ
  resolve_name : ∀ s old new, (resolve s old new).old.name = old.name
  mesg : σ → String
  clearMesg : σ → σ
  resolveAgain : StrSymPool σ → Nat → Nat → ResolveInfo →
    (Option Nat × Bool) × StrSymPool σ

/-- Modelled from the spec: the entry factory's `produce(pName)`, a fresh
entry that carries the name and is not a symbol yet; the other fields are
placeholders until a setter writes them. -/
def ResolveInfo.produce (pName : String) : ResolveInfo :=
  { name := pName, isSymbol := false, isDyn := false, desc := .Undefined,
    binding := .Global, visibility := .Default, value := 0, size := 0,
    type := 0, reserved := 0 }

/-- The seven setter calls that `createSymbol` and `insertSymbol` make. -/
def ResolveInfo.populate (r : ResolveInfo) (pIsDyn : Bool) (pDesc : ResolveInfo.Desc)
    (pBinding : ResolveInfo.Binding) (pValue pSize : Nat)
    (pVisibility : ResolveInfo.Visibility) : ResolveInfo :=
  { r with isSymbol := true, isDyn := pIsDyn, desc := pDesc, binding := pBinding,
           visibility := pVisibility, value := pValue, size := pSize }

/-- The entry of the table with the given name, with its index. -/
def HashTable.find (pName : String) : List ResolveInfo → Option (Nat × ResolveInfo)
  | [] => none
  | e :: rest =>
    if e.name = pName then some (0, e)
    else (HashTable.find pName rest).map (fun p => (p.1 + 1, p.2))

/-- The outcome of `m_Table.insert(pName, exist)`: the table, the index and the
content of the returned entry, and `exist`. -/
structure HashTable.Inserted where
  table : List ResolveInfo
  index : Nat
  entry : ResolveInfo
  exist : Bool

/-- Modelled from the spec: `m_Table.insert(pName, exist)` of the "hash table
from byte-string to ResolveInfo": the entry of that name if there is one
(`exist = true`), else a freshly produced entry added to the table
(`exist = false`). -/
def HashTable.insert (table : List ResolveInfo) (pName : String) : HashTable.Inserted :=
  match HashTable.find pName table with
  | some (i, e) => { table := table, index := i, entry := e, exist := true }
  | none =>
    { table := table ++ [ResolveInfo.produce pName], index := table.length,
      entry := ResolveInfo.produce pName, exist := false }

namespace StrSymPool

/-- The method `StrSymPool::createSymbol`: the produced symbol is returned and
not inserted. -/
def createSymbol (pName : String) (pIsDyn : Bool) (pDesc : ResolveInfo.Desc)
    (pBinding : ResolveInfo.Binding) (pValue pSize : Nat)
    (pVisibility : ResolveInfo.Visibility) : ResolveInfo :=
  (ResolveInfo.produce pName).populate pIsDyn pDesc pBinding pValue pSize pVisibility

/-- The method `StrSymPool::insertSymbol`. The result is the returned pair
(pointer, existent) and the pool after the call; `.error` is
`llvm::report_fatal_error`, which does not return. -/
def insertSymbol {σ : Type} (R : Resolver σ) (pool : StrSymPool σ) (pName : String)
    (pIsDyn : Bool) (pDesc : ResolveInfo.Desc) (pBinding : ResolveInfo.Binding)
    (pValue pSize : Nat) (pVisibility : ResolveInfo.Visibility) :
    Except String ((Option Nat × Bool) × StrSymPool σ) :=
  if ResolveInfo.Binding.Local = pBinding then .ok ((none, false), pool)
  else
    let ins := HashTable.insert pool.m_Table pName
    if ins.exist && ins.entry.isSymbol then
      -- exist and is a symbol: the new symbol is produced apart from the table
      let new_symbol :=
        (ResolveInfo.produce pName).populate pIsDyn pDesc pBinding pValue pSize pVisibility
      let r := R.resolve pool.resolver ins.entry new_symbol
      let resolvedPool : StrSymPool σ :=
        { m_Table := ins.table.set ins.index r.old,
          resolver := r.resolver,
          errs := pool.errs,
          resolved := pool.resolved ++ [(ins.entry, new_symbol)] }
      match r.action with
      | .Success => .ok ((some ins.index, true), resolvedPool)
      | .Warning =>
        .ok ((some ins.index, true),
          { resolvedPool with
            errs := resolvedPool.errs ++ ["WARNING: " ++ R.mesg r.resolver ++ "\n"],
            resolver := R.clearMesg r.resolver })
      | .Abort => .error (R.mesg r.resolver)
      | .Again _ => .ok (R.resolveAgain resolvedPool R.LastAction ins.index new_symbol)
    else
      -- not existent or not a symbol: the entry itself is set up
      .ok ((some ins.index, false),
        { pool with
          m_Table := ins.table.set ins.index
            (ins.entry.populate pIsDyn pDesc pBinding pValue pSize pVisibility) })

/-- The method `StrSymPool::insertString`: the string is entered in the table
and the stored name is returned. -/
def insertString {σ : Type} (pool : StrSymPool σ) (pString : String) :
    String × StrSymPool σ :=
  let ins := HashTable.insert pool.m_Table pString
  (ins.entry.name, { pool with m_Table := ins.table })

end StrSymPool

/-! ## GNULDBackend.cpp: `emitRegNamePools` -/

/-- The state of the loop of `emitRegNamePools`: the `.symtab` and `.strtab`
regions and the counters `symtabIdx` and `strtabsize`. -/
structure emitRegNamePools.State where
  symtab : Nat → ElfSym
  strtab : Nat → Char
  symtabIdx : Nat
  strtabsize : Nat

/-- One iteration of the symbol loop of `emitRegNamePools`. -/
def emitRegNamePools.emitSymbol (bitclass : Nat) (pLayout : LDSymbol → Nat)
    (st : emitRegNamePools.State) (symbol : LDSymbol) : emitRegNamePools.State :=
  { symtab := Function.update st.symtab st.symtabIdx
      (symbolEntry bitclass pLayout st.strtabsize symbol),
    strtab := strcpy st.strtab st.strtabsize symbol.name.toList,
    symtabIdx := st.symtabIdx + 1,
    strtabsize := st.strtabsize + (symbol.nameSize + 1) }

/-- What `emitRegNamePools` leaves behind: the two regions and the final
counters. -/
structure RegNamePools where
  symtab : Nat → ElfSym
  strtab : Nat → Char
  symtabIdx : Nat
  strtabsize : Nat

/-- The method `GNULDBackend::emitRegNamePools`. `.ok none` is the early
`return` for the unsupported output types, `.error` is `report_fatal_error`.
The store `strtab[0] = 0` comes first; both counters start at 0. -/
def emitRegNamePools (bitclass : Nat) (pLayout : LDSymbol → Nat) (pOutput : Output)
    (symtab0 : Nat → ElfSym) (strtab0 : Nat → Char) :
    Except String (Option RegNamePools) :=
  match pOutput.type with
  | Output.Type.DynObj | Output.Type.Exec =>
    if 32 = bitclass ∨ 64 = bitclass then
      let st0 : emitRegNamePools.State :=
        { symtab := symtab0, strtab := Function.update strtab0 0 NUL,
          symtabIdx := 0, strtabsize := 0 }
      let st1 := pOutput.symbols.foldl (emitRegNamePools.emitSymbol bitclass pLayout) st0
      .ok (some
        { symtab := st1.symtab, strtab := st1.strtab,
          symtabIdx := st1.symtabIdx, strtabsize := st1.strtabsize })
    else .error ("unsupported bitclass " ++ toString bitclass ++ ".\n")
  | _ => .ok none

/-! ## GNULDBackend.cpp: `createProgramHdrs`

`LDSection.h`, `LDFileFormat.h`, `ELFSegment.h`, the segment factory and the
declaration of the backend are not among the sources. A pointer to a section
is the position of the section in the section table of the context; a
pointer to a segment is its position in the segment factory. Addresses,
offsets and sizes are 64-bit unsigned integers: sums and differences are
taken modulo `2 ^ 64`. -/

namespace ELF

def SHF_WRITE : Nat := 1
def SHF_ALLOC : Nat := 2
def SHF_EXECINSTR : Nat := 4
def PT_LOAD : Nat := 1
def PT_DYNAMIC : Nat := 2
def PT_INTERP : Nat := 3
def PT_PHDR : Nat := 6
def PF_X : Nat := 1
def PF_W : Nat := 2
def PF_R : Nat := 4
/-- The sizes `sizeof(Elf32_Ehdr)`, `sizeof(Elf64_Ehdr)`, `sizeof(Elf32_Phdr)`
and `sizeof(Elf64_Phdr)`. -/
def sizeof_Elf32_Ehdr : Nat := 52
def sizeof_Elf64_Ehdr : Nat := 64
def sizeof_Elf32_Phdr : Nat := 32
def sizeof_Elf64_Phdr : Nat := 56

end ELF

/-- Modelled from the spec: `LDFileFormat::Kind`, "Kinds: Null, Regular, BSS,
NamePool, Relocation, Target, Debug, Note, MetaData". -/
inductive LDFileFormat.Kind where
  | Null | Regular | BSS | NamePool | Relocation | Target | Debug | Note | MetaData
  deriving DecidableEq, Repr

/-- Modelled from the spec: an `LDSection`, "fields name, kind, type, flags,
addr, offset, size, align, index". -/
structure LDSection where
  name : String
  kind : LDFileFormat.Kind
  type : Nat
  flag : Nat
  addr : Nat
  offset : Nat
  size : Nat
  align : Nat
  index : Nat
  deriving DecidableEq, Repr

/-- Modelled from the spec: an `ELFSegment`, "type, flags, vaddr, paddr,
offset, filesz, memsz, align, sections"; the sections are pointers into the
section table. -/
structure ELFSegment where
  type : Nat
  flag : Nat
  offset : Nat
  vaddr : Nat
  paddr : Nat
  filesz : Nat
  memsz : Nat
  align : Nat
  sections : List Nat
  deriving DecidableEq, Repr

namespace ELFSegment

/-- Modelled from the spec: the constructor `ELFSegment(type, flag)`: a
segment of the given type and flags, without sections, every other field 0. -/
def new (pType pFlag : Nat) : ELFSegment :=
  { type := pType, flag := pFlag, offset := 0, vaddr := 0, paddr := 0, filesz := 0,
    memsz := 0, align := 0, sections := [] }

/-- The flag of a segment constructed as `ELFSegment(type)`: the default
argument of the constructor, taken to be `PF_R`. -/
def defaultFlag : Nat := ELF.PF_R

def addSection (seg : ELFSegment) (pSection : Nat) : ELFSegment :=
  { seg with sections := seg.sections ++ [pSection] }

def updateFlag (seg : ELFSegment) (pFlag : Nat) : ELFSegment :=
  { seg with flag := seg.flag ||| pFlag }

/-- The accessors `getFirstSection()` and `getLastSection()`, read through the
section table; `none` is the null pointer. -/
def getFirstSection (seg : ELFSegment) (sections : List LDSection) : Option LDSection :=
  match seg.sections.head? with
  | some i => sections[i]?
  | none => none

def getLastSection (seg : ELFSegment) (sections : List LDSection) : Option LDSection :=
  match seg.sections.getLast? with
  | some i => sections[i]?
  | none => none

end ELFSegment

/-- The segment at position `k` of the factory rewritten by `f` (a write
through a pointer to that segment). -/
def ELFSegmentFactory.modify (f : ELFSegment → ELFSegment) :
    List ELFSegment → Nat → List ELFSegment
  | [], _ => []
  | seg :: rest, 0 => f seg :: rest
  | seg :: rest, k + 1 => seg :: ELFSegmentFactory.modify f rest k

/-- Modelled from the spec: the part of the TargetBackend contract that
`createProgramHdrs` consumes, "bitclass(), pagesize(), numOfSegments(),
getSegmentFlag(section_flag)". -/
structure GNULDBackend where
  bitclass : Nat
  pagesize : Nat
  numOfSegments : Nat
  getSegmentFlag : Nat → Nat

/-- The method `LDContext::getSection(pName)` of `LDContext.cpp`: the first
section of that name, `none` for `NULL`. -/
def LDContext.getSection (pName : String) : List LDSection → Option Nat
  | [] => none
  | sect :: rest =>
    if sect.name = pName then some 0
    else (LDContext.getSection pName rest).map (fun i => i + 1)

/-- The difference `a - b` of 64-bit unsigned integers. -/
def sub64 (a b : Nat) : Nat := (a % 2 ^ 64 + 2 ^ 64 - b % 2 ^ 64) % 2 ^ 64

/-- The state of the section loop of `createProgramHdrs`: the section table,
the segment factory, and the locals `prev_seg_flag`, `padding` and `load_seg`.
`load_seg` is declared without a value: `none` until the first `PT_LOAD` is
allocated. -/
structure createProgramHdrs.State where
  sections : List LDSection
  factory : List ELFSegment
  prev_seg_flag : Nat
  padding : Nat
  load_seg : Option Nat
  deriving DecidableEq, Repr

/-- One iteration of the section loop of `createProgramHdrs` for the section
`sect` at position `i`. The result is `none` when `load_seg` is used before it
was given a value, where the behaviour of the code is undefined. -/
def createProgramHdrs.placeSection (B : GNULDBackend) (st : createProgramHdrs.State)
    (i : Nat) (sect : LDSection) : Option createProgramHdrs.State :=
  if (sect.flag &&& ELF.SHF_ALLOC) = 0 ∧ LDFileFormat.Kind.Null ≠ sect.kind then some st
  else
    let cur_seg_flag := B.getSegmentFlag sect.flag
    let st1 : createProgramHdrs.State :=
      if ((st.prev_seg_flag &&& ELF.PF_W) ^^^ (cur_seg_flag &&& ELF.PF_W)) ≠ 0 ∨
          LDFileFormat.Kind.Null = sect.kind then
        { st with
          factory := st.factory ++
            [{ ELFSegment.new ELF.PT_LOAD ELFSegment.defaultFlag with align := B.pagesize }],
          load_seg := some st.factory.length,
          padding :=
            if (sect.offset &&& ((B.pagesize + 2 ^ 64 - 1) % 2 ^ 64)) ≠ 0 then B.pagesize
            else 0 }
      else st
    match st1.load_seg with
    | none => none
    | some k =>
      some { st1 with
        factory := ELFSegmentFactory.modify
          (fun seg => (seg.addSection i).updateFlag cur_seg_flag) st1.factory k,
        sections := st1.sections.set i
          { sect with addr := (sect.offset + st1.padding) % 2 ^ 64 },
        prev_seg_flag := cur_seg_flag }

/-- The section loop of `createProgramHdrs` over the sections from position
`i` on. -/
def createProgramHdrs.loadLoop (B : GNULDBackend) :
    Nat → List LDSection → createProgramHdrs.State → Option createProgramHdrs.State
  | _, [], st => some st
  | i, sect :: rest, st =>
    match createProgramHdrs.placeSection B st i sect with
    | none => none
    | some st' => createProgramHdrs.loadLoop B (i + 1) rest st'

/-- The inner loop of the update pass: the sizes of the sections of a segment
that are not of BSS kind, added up. -/
def createProgramHdrs.fileSize (sections : List LDSection) (segSections : List Nat) : Nat :=
  segSections.foldl
    (fun file_size i =>
      match sections[i]? with
      | some sect =>
        if LDFileFormat.Kind.BSS ≠ sect.kind then (file_size + sect.size) % 2 ^ 64
        else file_size
      | none => file_size) 0

/-- One iteration of the update pass of `createProgramHdrs`: the segment
after the update and the flag `is_first_pt_load` after it. The result is
`none` when a segment other than `PT_PHDR` has no first or last section (the
assertions of the code). -/
def createProgramHdrs.updateSegment (B : GNULDBackend) (sections : List LDSection)
    (is_first_pt_load : Bool) (segment : ELFSegment) : Option (ELFSegment × Bool) :=
  if ELF.PT_PHDR = segment.type then
    let offset := if 32 = B.bitclass then ELF.sizeof_Elf32_Ehdr else ELF.sizeof_Elf64_Ehdr
    let phdr_size := if 32 = B.bitclass then ELF.sizeof_Elf32_Phdr else ELF.sizeof_Elf64_Phdr
    some ({ segment with
            offset := offset, vaddr := offset, paddr := offset,
            filesz := (B.numOfSegments * phdr_size) % 2 ^ 64,
            memsz := (B.numOfSegments * phdr_size) % 2 ^ 64,
            align := B.bitclass / 8 }, is_first_pt_load)
  else
    match segment.getFirstSection sections, segment.getLastSection sections with
    | some first, some last =>
      let file_size :=
        if ELF.PT_LOAD = segment.type ∧ is_first_pt_load = true then
          sub64 (last.addr + last.size) first.addr
        else createProgramHdrs.fileSize sections segment.sections
      some ({ segment with
              offset := first.offset, vaddr := first.addr, paddr := first.addr,
              filesz := file_size,
              memsz := sub64 (last.addr + last.size) first.addr },
            if ELF.PT_LOAD = segment.type ∧ is_first_pt_load = true then false
            else is_first_pt_load)
    | _, _ => none

/-- The update pass of `createProgramHdrs` over the segments of the factory. -/
def createProgramHdrs.updateLoop (B : GNULDBackend) (sections : List LDSection) :
    Bool → List ELFSegment → Option (List ELFSegment)
  | _, [] => some []
  | is_first_pt_load, segment :: rest =>
    match createProgramHdrs.updateSegment B sections is_first_pt_load segment with
    | none => none
    | some (segment', is_first') =>
      (createProgramHdrs.updateLoop B sections is_first' rest).map (fun l => segment' :: l)

/-- What `createProgramHdrs` leaves behind: the section table, with the
addresses it has set, and the segment factory. -/
structure ProgramHdrs where
  sections : List LDSection
  factory : List ELFSegment
  deriving DecidableEq, Repr

/-- The method `GNULDBackend::createProgramHdrs` on the section table
`sections` of the context and the segment factory `factory0`. The result is
`none` where the behaviour of the code is undefined (see `placeSection` and
`updateSegment`). -/
def createProgramHdrs (B : GNULDBackend) (sections : List LDSection)
    (factory0 : List ELFSegment) : Option ProgramHdrs :=
  -- make PT_PHDR
  let f1 := factory0 ++ [ELFSegment.new ELF.PT_PHDR ELF.PF_R]
  -- make PT_INTERP
  let f2 :=
    match LDContext.getSection ".interp" sections with
    | some interp =>
      f1 ++ [{ (ELFSegment.new ELF.PT_INTERP ELF.PF_R).addSection interp with
               align := B.bitclass / 8 }]
    | none => f1
  -- make possible PT_LOAD segments
  match createProgramHdrs.loadLoop B 0 sections
      { sections := sections, factory := f2, prev_seg_flag := B.getSegmentFlag 0,
        padding := 0, load_seg := none } with
  | none => none
  | some st =>
    -- make PT_DYNAMIC
    let f3 :=
      match LDContext.getSection ".dynamic" st.sections with
      | some dynamic =>
        st.factory ++
          [{ (ELFSegment.new ELF.PT_DYNAMIC (ELF.PF_R ||| ELF.PF_W)).addSection dynamic with
             align := B.bitclass / 8 }]
      | none => st.factory
    -- update segment info
    match createProgramHdrs.updateLoop B st.sections true f3 with
    | none => none
    | some f4 => some { sections := st.sections, factory := f4 }

/-! ## GNULDBackend.cpp: `sectionStartOffset`, `getSectionOrder`

The enumeration `SectionOrder` is declared in `GNULDBackend.h`, which is not
among the sources: the values of its enumerators are a parameter. -/

/-- The method `GNULDBackend::sectionStartOffset`: the sum
`sizeof(Elf64_Ehdr) + 10 * sizeof(Elf64_Phdr)`, whatever the backend. -/
def sectionStartOffset (_ : GNULDBackend) : Nat :=
  ELF.sizeof_Elf64_Ehdr + 10 * ELF.sizeof_Elf64_Phdr

namespace ELF

def SHT_INIT_ARRAY : Nat := 14
def SHT_FINI_ARRAY : Nat := 15
def SHT_PREINIT_ARRAY : Nat := 16

end ELF

/-- The values of the enumerators `SHO_...` that `getSectionOrder` returns. -/
structure SectionOrder where
  SHO_INTERP : Nat
  SHO_INIT : Nat
  SHO_TEXT : Nat
  SHO_FINI : Nat
  SHO_RO : Nat
  SHO_RELRO : Nat
  SHO_DATA : Nat
  SHO_BSS : Nat
  SHO_NAMEPOOL : Nat
  SHO_REL_PLT : Nat
  SHO_RELOCATION : Nat
  SHO_UNDEFINED : Nat
  deriving DecidableEq, Repr

/-- The test `std::string::npos != name.find(pat)`: `pat` occurs in `name`. -/
def hasSubstring (name pat : String) : Bool :=
  name.toList.tails.any (fun t => pat.toList.isPrefixOf t)

/-- The method `GNULDBackend::getSectionOrder`; `getTargetSectionOrder` is the
virtual method of the target backend. -/
def getSectionOrder (SHO : SectionOrder) (getTargetSectionOrder : LDSection → Nat)
    (pSectHdr : LDSection) : Nat :=
  if LDFileFormat.Kind.Null = pSectHdr.kind then 0
  else if 0 = (pSectHdr.flag &&& ELF.SHF_ALLOC) then SHO.SHO_UNDEFINED
  else
    let is_write := decide ((pSectHdr.flag &&& ELF.SHF_WRITE) ≠ 0)
    let is_exec := decide ((pSectHdr.flag &&& ELF.SHF_EXECINSTR) ≠ 0)
    match pSectHdr.kind with
    | LDFileFormat.Kind.Regular =>
      if is_exec then
        if pSectHdr.name = ".init" then SHO.SHO_INIT
        else if pSectHdr.name = ".fini" then SHO.SHO_FINI
        else SHO.SHO_TEXT
      else if !is_write then SHO.SHO_RO
      else
        if pSectHdr.type = ELF.SHT_PREINIT_ARRAY ∨
            pSectHdr.type = ELF.SHT_INIT_ARRAY ∨
            pSectHdr.type = ELF.SHT_FINI_ARRAY ∨
            pSectHdr.name = ".ctors" ∨
            pSectHdr.name = ".dtors" then SHO.SHO_RELRO
        else SHO.SHO_DATA
    | LDFileFormat.Kind.BSS => SHO.SHO_BSS
    | LDFileFormat.Kind.NamePool =>
      if pSectHdr.name = ".dynamic" then SHO.SHO_RELRO else SHO.SHO_NAMEPOOL
    | LDFileFormat.Kind.Relocation =>
      if hasSubstring pSectHdr.name "plt" then SHO.SHO_REL_PLT else SHO.SHO_RELOCATION
    | LDFileFormat.Kind.Target => getTargetSectionOrder pSectHdr
    | LDFileFormat.Kind.Note => SHO.SHO_INTERP
    | _ => SHO.SHO_UNDEFINED

/-! ## TernaryOp.h

An operand pointer is a number, `none` being `NULL`. The member `m_Size` has
no initializer in the constructor: its value is indeterminate until it is
assigned, which `none` stands for. -/

/-- The data members of `TernaryOp`: `m_Size` and the array `m_pOperand[3]`. -/
structure TernaryOp where
  m_Size : Option Nat
  m_pOperand : List (Option Nat)
  deriving DecidableEq, Repr

namespace TernaryOp

/-- The constructor `TernaryOp::TernaryOp`: the three slots are set to `NULL`;
`m_Size` is not written. -/
def new : TernaryOp :=
  { m_Size := none, m_pOperand := [none, none, none] }

/-- The method `TernaryOp::appendOperand`. The result is `none` when the
behaviour is undefined: `m_Size` is read while indeterminate, or the store
falls outside the three slots. `m_Size` is a `size_t`: the increment is taken
modulo `2 ^ 64`. -/
def appendOperand (op : TernaryOp) (pOperand : Nat) : Option TernaryOp :=
  match op.m_Size with
  | none => none
  | some size =>
    if size < 3 then
      let m_Size := (size + 1) % 2 ^ 64
      some { m_pOperand := op.m_pOperand.set size (some pOperand),
             m_Size := some (if m_Size = 3 then 0 else m_Size) }
    else none

/-- A sequence of calls `appendOperand`, in order. -/
def appendOperands (op : TernaryOp) : List Nat → Option TernaryOp
  | [] => some op
  | p :: ps => (op.appendOperand p).bind (fun op1 => appendOperands op1 ps)

end TernaryOp

/-! ## Vocabulary of the statements -/

/-- The symbols of `l` that `isDynamicSymbol` accepts for `pOutput`, in
order. -/
def dynamicSymbols (pOutput : Output) (l : List LDSymbol) : List LDSymbol :=
  l.filter (fun x => isDynamicSymbol x pOutput)

/-- The bytes that the names of `l` take in a string table, each with its
terminating NUL. -/
def nameBytes (l : List LDSymbol) : Nat :=
  (l.map (fun x => x.nameSize + 1)).sum

/-- The rule of the spec for a `DT_NEEDED` entry: the input is a DynObj, its
attribute has add-needed set, and as-needed is not set or the input is marked
needed. -/
def needsEntry (input : Input) : Bool :=
  decide (input.type = Input.Type.DynObj) && input.attr.isAddNeeded &&
    (!input.attr.isAsNeeded || input.isNeeded)

/-- The index reached from `start` by following `n` times the chain array of
the hash table `H`, which begins at word `2 + nbucket`. -/
def hashWalk (H : Nat → Nat) (nbucket : Nat) (start : Nat) : Nat → Nat
  | 0 => start
  | n + 1 => H (2 + nbucket + hashWalk H nbucket start n)

namespace DynNamePools

/-- The name of entry `i` as the table stores it: the characters of `.dynstr`
from the offset `st_name` of the entry up to the next NUL. -/
def name (p : DynNamePools) (i : Nat) : String :=
  String.mk (readCStr p.strtab (p.symtab i).st_name (p.strtabsize - (p.symtab i).st_name))

end DynNamePools

namespace ElfHash

/-- The words `nbucket` and `nchain` of a `.hash` table `H`, and the arrays
`bucket[]` and `chain[]` that follow them. -/
def nbucket (H : Nat → Nat) : Nat := H 0
def nchain (H : Nat → Nat) : Nat := H 1
def bucket (H : Nat → Nat) (pos : Nat) : Nat := H (2 + pos)
def chain (H : Nat → Nat) (i : Nat) : Nat := H (2 + H 0 + i)

/-- The index reached from `start` by following `chain[]` `n` times. -/
def walk (H : Nat → Nat) (start : Nat) (n : Nat) : Nat :=
  hashWalk H (nbucket H) start n

/-- The bytes that a table with the header of `H` takes: header, bucket array
and chain array. -/
def tableSize (H : Nat → Nat) : Nat := (2 + nbucket H + nchain H) * 4

end ElfHash

namespace createProgramHdrs

/-- A section that the section loop places: it has `SHF_ALLOC` or is of Null
kind (the loop skips every other section). -/
def isPlaced (sect : LDSection) : Bool :=
  !(decide ((sect.flag &&& ELF.SHF_ALLOC) = 0) && decide (LDFileFormat.Kind.Null ≠ sect.kind))

/-- A placed section starts a new `PT_LOAD`: its segment write flag differs
from `prev_seg_flag`, or it is of Null kind. -/
def opensSegment (B : GNULDBackend) (prev_seg_flag : Nat) (sect : LDSection) : Bool :=
  decide (((prev_seg_flag &&& ELF.PF_W) ^^^ (B.getSegmentFlag sect.flag &&& ELF.PF_W)) ≠ 0)
    || decide (LDFileFormat.Kind.Null = sect.kind)

/-- No section of the list is placed into a `PT_LOAD` before one exists, when
the loop starts without a current segment and with `prev_seg_flag`: the
first placed section, if there is one, opens a segment. -/
def isDefinedFrom (B : GNULDBackend) (prev_seg_flag : Nat) (sections : List LDSection) :
    Bool :=
  match sections.find? isPlaced with
  | none => true
  | some sect => opensSegment B prev_seg_flag sect

/-- The section loop of `createProgramHdrs` has a defined behaviour on the
section table. -/
def isDefined (B : GNULDBackend) (sections : List LDSection) : Bool :=
  isDefinedFrom B (B.getSegmentFlag 0) sections

/-- The positions, counted from `i`, of the placed sections of a list. -/
def placedFrom : Nat → List LDSection → List Nat
  | _, [] => []
  | i, sect :: rest =>
    if isPlaced sect then i :: placedFrom (i + 1) rest else placedFrom (i + 1) rest

/-- The sections of the `PT_LOAD` segments of a factory, segment after
segment. -/
def loadSections : List ELFSegment → List Nat
  | [] => []
  | seg :: rest =>
    if seg.type = ELF.PT_LOAD then seg.sections ++ loadSections rest else loadSections rest

/-- The invariant of the section loop, for the segments `base` that the
factory held before the loop and the `PT_LOAD` segments `loads` made since:
each of these has sections, all of them positions of the table of `n`
sections, and `load_seg` points to the last of them. -/
structure LoadInv (base : List ELFSegment) (n : Nat) (st : createProgramHdrs.State)
    (loads : List ELFSegment) : Prop where
  factory_eq : st.factory = base ++ loads
  all_load : ∀ seg ∈ loads, seg.type = ELF.PT_LOAD
  nonempty : ∀ seg ∈ loads, seg.sections ≠ []
  valid : ∀ seg ∈ loads, ∀ idx ∈ seg.sections, idx < n
  current : (st.load_seg = none ∧ loads = []) ∨
    ∃ init seg, loads = init ++ [seg] ∧ st.load_seg = some (base.length + init.length)
  length_eq : st.sections.length = n

end createProgramHdrs

namespace createProgramHdrs

/-- The `PT_INTERP` segment that `createProgramHdrs` makes: the section named
`.interp`, if the context has one. -/
def interpSegment (B : GNULDBackend) (sections : List LDSection) : List ELFSegment :=
  match LDContext.getSection ".interp" sections with
  | some interp =>
    [{ (ELFSegment.new ELF.PT_INTERP ELF.PF_R).addSection interp with
       align := B.bitclass / 8 }]
  | none => []

/-- The `PT_DYNAMIC` segment that `createProgramHdrs` makes: the section named
`.dynamic`, if the context has one. -/
def dynamicSegment (B : GNULDBackend) (sections : List LDSection) : List ELFSegment :=
  match LDContext.getSection ".dynamic" sections with
  | some dynamic =>
    [{ (ELFSegment.new ELF.PT_DYNAMIC (ELF.PF_R ||| ELF.PF_W)).addSection dynamic with
       align := B.bitclass / 8 }]
  | none => []

/-- A segment that the update pass can update: a `PT_PHDR`, or a segment with
sections that are all positions of the table of `n` sections. -/
def Updatable (n : Nat) (seg : ELFSegment) : Prop :=
  seg.type = ELF.PT_PHDR ∨ (seg.sections ≠ [] ∧ ∀ idx ∈ seg.sections, idx < n)

end createProgramHdrs

/-- The enumerators of `SectionOrder` are pairwise different and none of them
is 0, the order that `getSectionOrder` gives to the Null section. -/
def SectionOrder.Distinct (o : SectionOrder) : Prop :=
  [0, o.SHO_INTERP, o.SHO_INIT, o.SHO_TEXT, o.SHO_FINI, o.SHO_RO, o.SHO_RELRO,
    o.SHO_DATA, o.SHO_BSS, o.SHO_NAMEPOOL, o.SHO_REL_PLT, o.SHO_RELOCATION,
    o.SHO_UNDEFINED].Nodup

instance (o : SectionOrder) : Decidable o.Distinct := by
  unfold SectionOrder.Distinct
  infer_instance

/-- The inputs that get a `DT_NEEDED` entry, in the order of the input tree. -/
def neededInputs (pLDInfo : MCLDInfo) : List Input :=
  pLDInfo.inputs.filter needsEntry

/-- The bytes that the names of the inputs `l` take in a string table, each
with its terminating NUL. -/
def inputNameBytes (l : List Input) : Nat :=
  (l.map (fun i => i.name.length + 1)).sum

/-- The bytes of `mem` from the offset `off` are the characters of `name`
followed by a NUL. -/
def cstringAt (mem : Nat → Char) (off : Nat) (name : String) : Prop :=
  (List.range (name.length + 1)).map (fun j => mem (off + j)) = name.toList ++ [NUL]

instance (mem : Nat → Char) (off : Nat) (name : String) :
    Decidable (cstringAt mem off name) := by
  unfold cstringAt
  infer_instance

/-- The state of `emitDynNamePools` after its symbol loop. -/
def emitDynNamePools.afterSymbols (bitclass : Nat) (pLayout : LDSymbol → Nat)
    (pOutput : Output) (symtab0 : Nat → ElfSym) (strtab0 : Nat → Char) :
    emitDynNamePools.State :=
  pOutput.symbols.foldl (emitDynNamePools.emitSymbol bitclass pLayout pOutput)
    { symtab := Function.update symtab0 0 ⟨0, 0, 0, 0, 0, 0⟩,
      strtab := Function.update strtab0 0 NUL,
      symtabIdx := 1, strtabsize := 1, needs := [] }

/-- The state of `emitDynNamePools` after its input loop. -/
def emitDynNamePools.afterNeeded (bitclass : Nat) (pLayout : LDSymbol → Nat)
    (pOutput : Output) (pLDInfo : MCLDInfo) (symtab0 : Nat → ElfSym)
    (strtab0 : Nat → Char) : emitDynNamePools.State :=
  pLDInfo.inputs.foldl emitDynNamePools.emitNeeded
    (emitDynNamePools.afterSymbols bitclass pLayout pOutput symtab0 strtab0)

namespace createProgramHdrs

/-- The padding that the section loop sets when the section `first` opens a
segment: the page size if the offset of `first` has a bit in common with the
page size minus 1, and 0 otherwise. -/
def segmentPadding (B : GNULDBackend) (first : LDSection) : Nat :=
  if (first.offset &&& ((B.pagesize + 2 ^ 64 - 1) % 2 ^ 64)) ≠ 0 then B.pagesize else 0

/-- The segment has a first section in the table, and every section of the
segment has the address `offset + padding`, for the padding that the first
section of the segment gives. -/
def HasSegmentAddrs (B : GNULDBackend) (sections : List LDSection) (seg : ELFSegment) :
    Prop :=
  ∃ first, seg.getFirstSection sections = some first ∧
    ∀ idx ∈ seg.sections, ∃ s, sections[idx]? = some s ∧
      s.addr = (s.offset + segmentPadding B first) % 2 ^ 64

/-- The invariant of the section loop on addresses, before the section at
position `i`: the sections of the `PT_LOAD` segments made so far are below
`i` and have their addresses, and the local `padding` is the padding of the
current segment. -/
structure AddrInv (B : GNULDBackend) (i : Nat) (st : createProgramHdrs.State)
    (loads : List ELFSegment) : Prop where
  below : ∀ seg ∈ loads, ∀ idx ∈ seg.sections, idx < i
  addrs : ∀ seg ∈ loads, HasSegmentAddrs B st.sections seg
  padding : ∀ init seg, loads = init ++ [seg] →
    ∃ first, seg.getFirstSection st.sections = some first ∧
      st.padding = segmentPadding B first

end createProgramHdrs

namespace createProgramHdrs

/-- The groups of positions `groups` with the position `i` added to the last
group, the current one. -/
def addToLast (groups : List (List Nat)) (i : Nat) : List (List Nat) :=
  match groups.getLast? with
  | some g => groups.dropLast ++ [g ++ [i]]
  | none => groups

/-- The rule of the spec for the `PT_LOAD` segments, on the sections from
position `i` on: a section that is not placed is passed over; a placed section
that is of Null kind, or whose segment write flag differs from the one of the
placed section before it (`prev_seg_flag`), starts a new group; every other
placed section goes into the current group. The result is the sections of the
segments, segment after segment. -/
def loadGroups (B : GNULDBackend) :
    Nat → Nat → List LDSection → List (List Nat) → List (List Nat)
  | _, _, [], groups => groups
  | prev_seg_flag, i, sect :: rest, groups =>
    if isPlaced sect then
      if opensSegment B prev_seg_flag sect then
        loadGroups B (B.getSegmentFlag sect.flag) (i + 1) rest (groups ++ [[i]])
      else loadGroups B (B.getSegmentFlag sect.flag) (i + 1) rest (addToLast groups i)
    else loadGroups B prev_seg_flag (i + 1) rest groups

/-- The sections of the `PT_LOAD` segments of a factory, one list for each
segment. -/
def loadSegments (factory : List ELFSegment) : List (List Nat) :=
  factory.filterMap (fun seg => if seg.type = ELF.PT_LOAD then some seg.sections else none)

end createProgramHdrs

/-! ## Example inputs -/

namespace Example

/-- An undefined global function symbol `sin` without reserved bits. -/
def sin : LDSymbol :=
  { resolveInfo :=
      { name := "sin", isSymbol := true, isDyn := false, desc := .Undefined,
        binding := .Global, visibility := .Default, value := 0, size := 0,
        type := 2, reserved := 0 },
    value := 0 }

/-- A defined global object symbol `environ` without reserved bits, the kind
of symbol of an executable that a shared library refers to. -/
def environ : LDSymbol :=
  { resolveInfo :=
      { name := "environ", isSymbol := true, isDyn := false, desc := .Define,
        binding := .Global, visibility := .Default, value := 4096, size := 8,
        type := 1, reserved := 0 },
    value := 4096 }

/-- A local hidden symbol that the backend has marked (`reserved = 1`). -/
def marked : LDSymbol :=
  { resolveInfo :=
      { name := "tmp", isSymbol := true, isDyn := false, desc := .Define,
        binding := .Local, visibility := .Hidden, value := 64, size := 4,
        type := 1, reserved := 1 },
    value := 64 }

def mainObj : Input :=
  { type := .Object, name := "main.o",
    attr := { isWholeArchive := false, isAsNeeded := false, isAddNeeded := true,
              isStatic := false },
    isNeeded := false }

/-- The input `libm.so`: as-needed, add-needed, marked needed. -/
def libm : Input :=
  { type := .DynObj, name := "libm.so",
    attr := { isWholeArchive := false, isAsNeeded := true, isAddNeeded := true,
              isStatic := false },
    isNeeded := true }

/-- The input `libunused.so`: as-needed, add-needed, not marked needed. -/
def libunused : Input :=
  { type := .DynObj, name := "libunused.so",
    attr := { isWholeArchive := false, isAsNeeded := true, isAddNeeded := true,
              isStatic := false },
    isNeeded := false }

def info : MCLDInfo := { inputs := [mainObj, libm, libunused] }

def exec : Output := { type := .Exec, name := "a.out", symbols := [sin, environ, marked] }

def lib : Output := { type := .DynObj, name := "libfoo.so", symbols := [sin, environ, marked] }

def obj : Output := { type := .Object, name := "foo.o", symbols := [sin, environ, marked] }

/-- The state of the example resolver: its message and the action tags with
which `resolveAgain` was called. -/
structure ResolverState where
  mesg : String
  again : List Nat
  deriving DecidableEq, Repr

/-- A resolver in the manner of the spec: a global definition overrides a weak
one, a second weak definition is ignored with a warning, two strong
definitions abort, a definition overrides an undefined symbol, and two common
symbols ask for another round with the action tag 7. `resolveAgain` records
the tag it is given. -/
def resolver : Resolver ResolverState :=
  { LastAction := 3,
    resolve := fun s old new =>
      if old.desc = .Define ∧ new.desc = .Define then
        if old.binding = .Weak then
          ⟨.Success, s, { old with binding := new.binding, value := new.value,
                                   size := new.size }, true⟩
        else if new.binding = .Weak then
          ⟨.Warning, { s with mesg := "weak definition of " ++ old.name ++ " ignored" },
            old, false⟩
        else
          ⟨.Abort, { s with mesg := "multiple definition of " ++ old.name }, old, false⟩
      else if old.desc = .Common ∧ new.desc = .Common then ⟨.Again 7, s, old, false⟩
      else if old.desc = .Undefined then
        ⟨.Success, s, { old with desc := new.desc, binding := new.binding,
                                 value := new.value, size := new.size }, true⟩
      else ⟨.Success, s, old, false⟩,
    resolve_name := by intro s old new; dsimp only; split_ifs <;> rfl,
    mesg := fun s => s.mesg,
    clearMesg := fun s => { s with mesg := "" },
    resolveAgain := fun pool pAction old _ =>
      ((some old, true),
        { pool with resolver := { pool.resolver with again := pool.resolver.again ++ [pAction] } }) }

/-- The empty pool. -/
def emptyPool : StrSymPool ResolverState :=
  { m_Table := [], resolver := { mesg := "", again := [] }, errs := [], resolved := [] }

/-- A pool that holds the string `main` (entered by `insertString`) and no
symbol. -/
def stringPool : StrSymPool ResolverState := (StrSymPool.insertString emptyPool "main").2

/-- A pool that holds a weak definition of `main` and a common symbol `buf`. -/
def symbolPool : StrSymPool ResolverState :=
  { emptyPool with
    m_Table :=
      [StrSymPool.createSymbol "main" false .Define .Weak 16 4 .Default,
       StrSymPool.createSymbol "buf" false .Common .Global 8 64 .Default] }

/-- The defined global function symbols `foo` and `bar` of two objects. -/
def foo : LDSymbol :=
  { resolveInfo :=
      { name := "foo", isSymbol := true, isDyn := false, desc := .Define,
        binding := .Global, visibility := .Default, value := 256, size := 16,
        type := 2, reserved := 0 },
    value := 256 }

def bar : LDSymbol :=
  { resolveInfo :=
      { name := "bar", isSymbol := true, isDyn := false, desc := .Define,
        binding := .Global, visibility := .Default, value := 512, size := 32,
        type := 2, reserved := 0 },
    value := 512 }

/-- The executable made of the two objects that define `foo` and `bar`. -/
def fooBar : Output := { type := .Exec, name := "a.out", symbols := [foo, bar] }

/-- A backend of bit class 32 with pages of 4096 bytes; a segment is readable,
writable when the section is and executable when the section is. -/
def backend : GNULDBackend :=
  { bitclass := 32, pagesize := 4096, numOfSegments := 4,
    getSegmentFlag := fun pSectionFlag =>
      ELF.PF_R |||
        (if pSectionFlag &&& ELF.SHF_WRITE ≠ 0 then ELF.PF_W else 0) |||
        (if pSectionFlag &&& ELF.SHF_EXECINSTR ≠ 0 then ELF.PF_X else 0) }

/-- The null section that heads a section table. -/
def nullSection : LDSection :=
  { name := "", kind := .Null, type := 0, flag := 0, addr := 0, offset := 0, size := 0,
    align := 0, index := 0 }

/-- The sections `.text` (AX), `.rodata` (A), `.data` (AW) and `.bss` (AW, of
BSS kind). -/
def text : LDSection :=
  { name := ".text", kind := .Regular, type := 1, flag := 6, addr := 0, offset := 372,
    size := 100, align := 4, index := 1 }

def rodata : LDSection :=
  { name := ".rodata", kind := .Regular, type := 1, flag := 2, addr := 0, offset := 472,
    size := 40, align := 4, index := 2 }

def data : LDSection :=
  { name := ".data", kind := .Regular, type := 1, flag := 3, addr := 0, offset := 4096,
    size := 24, align := 4, index := 3 }

def bss : LDSection :=
  { name := ".bss", kind := .BSS, type := 8, flag := 3, addr := 0, offset := 4120,
    size := 64, align := 4, index := 4 }

/-- A symbol table section, not allocated. -/
def symtabSection : LDSection :=
  { name := ".symtab", kind := .NamePool, type := 2, flag := 0, addr := 0, offset := 4120,
    size := 32, align := 4, index := 5 }

/-- The sections `.interp` (A, a note) and `.dynamic` (AW, a name pool). -/
def interp : LDSection :=
  { name := ".interp", kind := .Note, type := 1, flag := 2, addr := 0, offset := 372,
    size := 19, align := 1, index := 1 }

def dynamic : LDSection :=
  { name := ".dynamic", kind := .NamePool, type := 6, flag := 3, addr := 0, offset := 4096,
    size := 72, align := 4, index := 3 }

/-- Values for the enumerators of `SectionOrder`, in the order of the buckets
of the layout; `SHO_UNDEFINED` is the largest 32-bit value. -/
def orders : SectionOrder :=
  { SHO_INTERP := 1, SHO_INIT := 2, SHO_TEXT := 3, SHO_FINI := 4, SHO_RO := 5,
    SHO_RELRO := 6, SHO_DATA := 7, SHO_BSS := 8, SHO_NAMEPOOL := 9, SHO_REL_PLT := 10,
    SHO_RELOCATION := 11, SHO_UNDEFINED := 4294967295 }

/-- A target that puts its own sections between the relocations and the
sections without order. -/
def targetOrder : LDSection → Nat := fun _ => 12

/-- The sections `.init_array` (AW) and `.ctors` (AW). -/
def initArray : LDSection :=
  { name := ".init_array", kind := .Regular, type := 14, flag := 3, addr := 0,
    offset := 4120, size := 8, align := 4, index := 4 }

def ctors : LDSection :=
  { name := ".ctors", kind := .Regular, type := 1, flag := 3, addr := 0,
    offset := 4128, size := 8, align := 4, index := 5 }

/-- A symbol of type code 2 (a function) for each binding. -/
def localFunc : LDSymbol :=
  { resolveInfo :=
      { name := "helper", isSymbol := true, isDyn := false, desc := .Define,
        binding := .Local, visibility := .Default, value := 0, size := 8, type := 2,
        reserved := 0 },
    value := 16 }

def weakFunc : LDSymbol :=
  { resolveInfo :=
      { name := "hook", isSymbol := true, isDyn := false, desc := .Define,
        binding := .Weak, visibility := .Default, value := 0, size := 8, type := 2,
        reserved := 0 },
    value := 32 }

end Example

/-! ## Properties -/

/-- On an increasing table whose entries all exceed the start value, the loop
returns the start value or a table entry, never exceeds the symbol count
unless it returns the start value, and dominates every entry that is at most
the symbol count. -/
theorem hash_bucket_count.loop_spec (n : Nat) :
    ∀ (l : List Nat) (r : Nat), l.Pairwise (· < ·) → (∀ b ∈ l, r ≤ b) →
      (hash_bucket_count.loop n l r = r ∨
        (hash_bucket_count.loop n l r ∈ l ∧ hash_bucket_count.loop n l r ≤ n)) ∧
      (∀ b ∈ l, b ≤ n → b ≤ hash_bucket_count.loop n l r) ∧
      r ≤ hash_bucket_count.loop n l r := by
  intro l
  induction l with
  | nil => intro r _ _; simp [hash_bucket_count.loop]
  | cons b rest ih =>
    intro r hs hr
    rw [List.pairwise_cons] at hs
    by_cases hnb : n < b
    · have hloop : hash_bucket_count.loop n (b :: rest) r = r := by
        simp [hash_bucket_count.loop, hnb]
      rw [hloop]
      refine ⟨Or.inl rfl, ?_, le_refl _⟩
      intro x hx hxn
      rcases List.mem_cons.mp hx with rfl | hx
      · omega
      · have := hs.1 x hx
        omega
    · have hloop : hash_bucket_count.loop n (b :: rest) r
          = hash_bucket_count.loop n rest b := by
        simp [hash_bucket_count.loop, hnb]
      rw [hloop]
      obtain ⟨h1, h2, h3⟩ := ih b hs.2 (fun x hx => Nat.le_of_lt (hs.1 x hx))
      have hrb : r ≤ b := hr b (List.mem_cons_self _ _)
      refine ⟨Or.inr ⟨?_, ?_⟩, ?_, le_trans hrb h3⟩
      · rcases h1 with h | h
        · rw [h]; exact List.mem_cons_self _ _
        · exact List.mem_cons_of_mem _ h.1
      · rcases h1 with h | h
        · rw [h]; omega
        · exact h.2
      · intro x hx hxn
        rcases List.mem_cons.mp hx with rfl | hx
        · exact h3
        · exact h2 x hx hxn

/-- C1: for every symbol count `n`, `hash_bucket_count n false` is the largest
ladder entry that is at most `n` (it is a ladder entry, it is at most `n`, and
every ladder entry at most `n` is at most it), and it is 1 when no ladder entry
is at most `n`, which happens exactly for `n = 0`; 100 gives 97, 263 gives 263
and 0 gives 1. -/
theorem hash_bucket_count_largest_ladder_entry (n : Nat) :
    buckets = [1, 3, 17, 37, 67, 97, 131, 197, 263, 521, 1031, 2053, 4099, 8209,
      16411, 32771, 65537, 131101, 262147] ∧
    ((∃ b ∈ buckets, b ≤ n) →
      hash_bucket_count n false ∈ buckets ∧ hash_bucket_count n false ≤ n ∧
      ∀ b ∈ buckets, b ≤ n → b ≤ hash_bucket_count n false) ∧
    ((¬ ∃ b ∈ buckets, b ≤ n) → hash_bucket_count n false = 1) ∧
    ((¬ ∃ b ∈ buckets, b ≤ n) ↔ n = 0) ∧
    hash_bucket_count 100 false = 97 ∧
    hash_bucket_count 263 false = 263 ∧
    hash_bucket_count 0 false = 1 := by
  have hsorted : buckets.Pairwise (· < ·) := by decide
  have hlow : ∀ b ∈ buckets, 1 ≤ b := by decide
  obtain ⟨h1, h2, _⟩ := hash_bucket_count.loop_spec n buckets 1 hsorted hlow
  have hdef : hash_bucket_count n false = hash_bucket_count.loop n buckets 1 := by
    simp [hash_bucket_count]
  have hone : (1 : Nat) ∈ buckets := by decide
  refine ⟨rfl, ?_, ?_, ?_, by decide, by decide, by decide⟩
  · rintro ⟨b, hb, hbn⟩
    rw [hdef]
    have hpos : 1 ≤ n := le_trans (hlow b hb) hbn
    refine ⟨?_, ?_, h2⟩
    · rcases h1 with h | h
      · rw [h]; exact hone
      · exact h.1
    · rcases h1 with h | h
      · rw [h]; exact hpos
      · exact h.2
  · intro hnone
    rw [hdef]
    rcases h1 with h | h
    · exact h
    · exact absurd ⟨_, h.1, h.2⟩ hnone
  · constructor
    · intro hnone
      by_contra hn
      exact hnone ⟨1, hone, by omega⟩
    · rintro rfl ⟨b, hb, hb0⟩
      have := hlow b hb
      omega

/-! ### The loops of `sizeNamePools` and `emitDynNamePools` -/

theorem dynamicSymbols_append (out : Output) (l₁ l₂ : List LDSymbol) :
    dynamicSymbols out (l₁ ++ l₂) = dynamicSymbols out l₁ ++ dynamicSymbols out l₂ := by
  simp [dynamicSymbols]

theorem nameBytes_append (l₁ l₂ : List LDSymbol) :
    nameBytes (l₁ ++ l₂) = nameBytes l₁ + nameBytes l₂ := by
  simp [nameBytes]

theorem nameBytes_cons (x : LDSymbol) (l : List LDSymbol) :
    nameBytes (x :: l) = (x.nameSize + 1) + nameBytes l := by
  simp [nameBytes]

/-- The symbol loop of `sizeNamePools` adds to each counter what the list
holds. -/
theorem sizeNamePools.foldl_countSymbol (out : Output) (l : List LDSymbol) :
    ∀ c : sizeNamePools.Counters,
      l.foldl (sizeNamePools.countSymbol out) c =
        { symtab := c.symtab + l.length,
          dynsym := c.dynsym + (dynamicSymbols out l).length,
          strtab := c.strtab + nameBytes l,
          dynstr := c.dynstr + nameBytes (dynamicSymbols out l) } := by
  induction l with
  | nil => intro c; simp [dynamicSymbols, nameBytes]
  | cons x l ih =>
    intro c
    rw [List.foldl_cons, ih]
    by_cases hx : isDynamicSymbol x out = true
    · simp [sizeNamePools.countSymbol, hx, dynamicSymbols, nameBytes]
      omega
    · simp [sizeNamePools.countSymbol, hx, dynamicSymbols, nameBytes]
      omega

/-- The input loop of `sizeNamePools` follows the rule `needsEntry`. -/
theorem sizeNamePools.countInput_eq (st : Nat × Nat) (input : Input) :
    sizeNamePools.countInput st input =
      if needsEntry input then (st.1 + (input.name.length + 1), st.2 + 1) else st := by
  unfold sizeNamePools.countInput needsEntry
  by_cases h1 : input.type = Input.Type.DynObj <;>
    cases h2 : input.attr.isAddNeeded <;>
    cases h3 : input.attr.isAsNeeded <;>
    cases h4 : input.isNeeded <;> simp [h1]

theorem sizeNamePools.foldl_countInput (l : List Input) :
    ∀ st : Nat × Nat,
      l.foldl sizeNamePools.countInput st =
        (st.1 + ((l.filter needsEntry).map (fun i => i.name.length + 1)).sum,
         st.2 + (l.filter needsEntry).length) := by
  induction l with
  | nil => intro st; simp
  | cons x l ih =>
    intro st
    rw [List.foldl_cons, ih, sizeNamePools.countInput_eq]
    by_cases hx : needsEntry x = true
    · simp [hx]; omega
    · simp [hx]

/-- The symbol loop of `emitDynNamePools` advances the counters by what the
dynamic symbols of the list take and leaves alone every entry below the
index it started from. -/
theorem emitDynNamePools.foldl_emitSymbol (bitclass : Nat) (pLayout : LDSymbol → Nat)
    (out : Output) (l : List LDSymbol) :
    ∀ st : emitDynNamePools.State,
      (l.foldl (emitDynNamePools.emitSymbol bitclass pLayout out) st).symtabIdx
          = st.symtabIdx + (dynamicSymbols out l).length ∧
      (l.foldl (emitDynNamePools.emitSymbol bitclass pLayout out) st).strtabsize
          = st.strtabsize + nameBytes (dynamicSymbols out l) ∧
      (l.foldl (emitDynNamePools.emitSymbol bitclass pLayout out) st).needs = st.needs ∧
      ∀ i, i < st.symtabIdx →
        (l.foldl (emitDynNamePools.emitSymbol bitclass pLayout out) st).symtab i
          = st.symtab i := by
  induction l with
  | nil => intro st; simp [dynamicSymbols, nameBytes]
  | cons x l ih =>
    intro st
    rw [List.foldl_cons]
    obtain ⟨h1, h2, h3, h4⟩ := ih (emitDynNamePools.emitSymbol bitclass pLayout out st x)
    by_cases hx : isDynamicSymbol x out = true
    · have hd : dynamicSymbols out (x :: l) = x :: dynamicSymbols out l := by
        simp [dynamicSymbols, hx]
      have hst : emitDynNamePools.emitSymbol bitclass pLayout out st x =
          { st with
            symtab := Function.update st.symtab st.symtabIdx
              (symbolEntry bitclass pLayout st.strtabsize x),
            strtab := strcpy st.strtab st.strtabsize x.name.toList,
            symtabIdx := st.symtabIdx + 1,
            strtabsize := st.strtabsize + (x.nameSize + 1) } := by
        simp [emitDynNamePools.emitSymbol, hx]
      rw [hst] at h1 h2 h3 h4 ⊢
      simp only at h1 h2 h3 h4
      rw [hd, nameBytes_cons, List.length_cons]
      refine ⟨by omega, by omega, h3, ?_⟩
      intro i hi
      rw [h4 i (by omega), Function.update_noteq (Nat.ne_of_lt hi)]
    · have hd : dynamicSymbols out (x :: l) = dynamicSymbols out l := by
        simp [dynamicSymbols, hx]
      have hst : emitDynNamePools.emitSymbol bitclass pLayout out st x = st := by
        simp [emitDynNamePools.emitSymbol, hx]
      rw [hst] at h1 h2 h3 h4 ⊢
      rw [hd]
      exact ⟨h1, h2, h3, h4⟩

/-- The input loop of `emitDynNamePools` does not touch `.dynsym`. -/
theorem emitDynNamePools.foldl_emitNeeded_symtab (l : List Input) :
    ∀ st : emitDynNamePools.State,
      (l.foldl emitDynNamePools.emitNeeded st).symtab = st.symtab ∧
      (l.foldl emitDynNamePools.emitNeeded st).symtabIdx = st.symtabIdx := by
  induction l with
  | nil => intro st; simp
  | cons x l ih =>
    intro st
    rw [List.foldl_cons]
    obtain ⟨h1, h2⟩ := ih (emitDynNamePools.emitNeeded st x)
    rw [h1, h2]
    unfold emitDynNamePools.emitNeeded emitDynNamePools.writeNeeded
    split_ifs <;> simp

/-! ### `isDynamicSymbol` -/

/-- C2: for a symbol whose reserved bits are 0 and a DynObj output,
`isDynamicSymbol` returns true if and only if the binding of the symbol is not
Local and its visibility is Default or Protected. -/
theorem isDynamicSymbol_dynobj_iff (pSymbol : LDSymbol) (pOutput : Output)
    (hres : pSymbol.resolveInfo.reserved = 0)
    (hty : pOutput.type = Output.Type.DynObj) :
    isDynamicSymbol pSymbol pOutput = true ↔
      (pSymbol.binding ≠ ResolveInfo.Binding.Local ∧
        (pSymbol.resolveInfo.visibility = ResolveInfo.Visibility.Default ∨
          pSymbol.resolveInfo.visibility = ResolveInfo.Visibility.Protected)) := by
  unfold isDynamicSymbol
  simp only [hres, hty, ne_eq, not_true_eq_false, if_false, if_true]
  by_cases hb : pSymbol.binding = ResolveInfo.Binding.Local
  · simp [hb]
  · by_cases hv : pSymbol.resolveInfo.visibility = ResolveInfo.Visibility.Default ∨
        pSymbol.resolveInfo.visibility = ResolveInfo.Visibility.Protected
    · simp [hb, hv]
    · simp [hb, hv]

/-- The symbol `sin` (Global, Default, reserved 0) in the DynObj output. -/
theorem isDynamicSymbol_dynobj_iff_witness :
    Example.sin.resolveInfo.reserved = 0 ∧ Example.lib.type = Output.Type.DynObj ∧
    (isDynamicSymbol Example.sin Example.lib = true ↔
      (Example.sin.binding ≠ ResolveInfo.Binding.Local ∧
        (Example.sin.resolveInfo.visibility = ResolveInfo.Visibility.Default ∨
          Example.sin.resolveInfo.visibility = ResolveInfo.Visibility.Protected))) :=
  ⟨rfl, rfl, isDynamicSymbol_dynobj_iff Example.sin Example.lib rfl rfl⟩

/-- A symbol with reserved bits is dynamic for every output. -/
theorem isDynamicSymbol_of_reserved (pSymbol : LDSymbol) (pOutput : Output)
    (hres : pSymbol.resolveInfo.reserved ≠ 0) :
    isDynamicSymbol pSymbol pOutput = true := by
  unfold isDynamicSymbol
  rw [if_pos (Ne.symm hres)]

/-- C3: a symbol `s` of the output symbol list whose `ResolveInfo` has
`reserved ≠ 0` is dynamic for every output, whatever its binding and
visibility; the counting loop of `sizeNamePools` counts it in `dynsym` and
`dynstr`; for an Exec or DynObj output the `.dynsym` and `.dynstr` sizes that
`sizeNamePools` sets include it, and `emitDynNamePools` writes its entry at
the index that follows the zero entry and the dynamic symbols before it. -/
theorem reserved_symbol_retained_in_dynsym (bitclass : Nat) (pLayout : LDSymbol → Nat)
    (hash_func : String → Nat) (out : Output) (ldinfo : MCLDInfo)
    (symtab0 : Nat → ElfSym) (strtab0 : Nat → Char) (hash0 : Nat → Nat)
    (hash_size : Nat)
    (before after : List LDSymbol) (s : LDSymbol)
    (hres : s.resolveInfo.reserved ≠ 0)
    (hsyms : out.symbols = before ++ s :: after)
    (hty : out.type = Output.Type.Exec ∨ out.type = Output.Type.DynObj)
    (hbit : bitclass = 32 ∨ bitclass = 64) :
    (∀ o : Output, isDynamicSymbol s o = true) ∧
    (sizeNamePools.countSymbols out).dynsym =
      1 + (dynamicSymbols out before).length + 1 + (dynamicSymbols out after).length ∧
    (sizeNamePools.countSymbols out).dynstr =
      1 + nameBytes (dynamicSymbols out before) + (s.nameSize + 1)
        + nameBytes (dynamicSymbols out after) ∧
    (∃ sizes, sizeNamePools bitclass out ldinfo = some sizes ∧
      sizes.dynsym =
        (1 + (dynamicSymbols out before).length + 1 + (dynamicSymbols out after).length)
          * (if 32 = bitclass then 16 else 24) ∧
      sizes.dynstr =
        1 + nameBytes (dynamicSymbols out before) + (s.nameSize + 1)
          + nameBytes (dynamicSymbols out after)
          + ((ldinfo.inputs.filter needsEntry).map (fun i => i.name.length + 1)).sum
          + (out.name.length + 1)) ∧
    (∃ pools,
      emitDynNamePools bitclass pLayout hash_func out ldinfo symtab0 strtab0 hash0 hash_size
        = .ok (some pools) ∧
      pools.symtab (1 + (dynamicSymbols out before).length) =
        symbolEntry bitclass pLayout (1 + nameBytes (dynamicSymbols out before)) s ∧
      1 + (dynamicSymbols out before).length < pools.symtabIdx) := by
  have hdyn : ∀ o : Output, isDynamicSymbol s o = true :=
    fun o => isDynamicSymbol_of_reserved s o hres
  have hfilter : dynamicSymbols out (before ++ s :: after) =
      dynamicSymbols out before ++ s :: dynamicSymbols out after := by
    simp [dynamicSymbols, hdyn out]
  have hcount : sizeNamePools.countSymbols out =
      { symtab := 0 + (before ++ s :: after).length,
        dynsym := 1 + (dynamicSymbols out (before ++ s :: after)).length,
        strtab := 0 + nameBytes (before ++ s :: after),
        dynstr := 1 + nameBytes (dynamicSymbols out (before ++ s :: after)) } := by
    unfold sizeNamePools.countSymbols
    rw [hsyms, sizeNamePools.foldl_countSymbol]
  have hlen : (dynamicSymbols out (before ++ s :: after)).length =
      (dynamicSymbols out before).length + 1 + (dynamicSymbols out after).length := by
    rw [hfilter]; simp; omega
  have hbytes : nameBytes (dynamicSymbols out (before ++ s :: after)) =
      nameBytes (dynamicSymbols out before) + (s.nameSize + 1)
        + nameBytes (dynamicSymbols out after) := by
    rw [hfilter, nameBytes_append, nameBytes_cons]; omega
  have hsize : ∃ sizes, sizeNamePools bitclass out ldinfo = some sizes ∧
      sizes.dynsym = (sizeNamePools.countSymbols out).dynsym
        * (if 32 = bitclass then 16 else 24) ∧
      sizes.dynstr = (sizeNamePools.countSymbols out).dynstr
        + ((ldinfo.inputs.filter needsEntry).map (fun i => i.name.length + 1)).sum
        + (out.name.length + 1) := by
    unfold sizeNamePools
    rcases hty with h | h <;>
      simp [h, sizeNamePools.foldl_countInput, ELF.sizeof_Elf32_Sym, ELF.sizeof_Elf64_Sym]
  refine ⟨hdyn, ?_, ?_, ?_, ?_⟩
  · rw [hcount]; simp only; omega
  · rw [hcount]; simp only; omega
  · obtain ⟨sizes, h1, h2, h3⟩ := hsize
    refine ⟨sizes, h1, ?_, ?_⟩
    · rw [h2, hcount]; simp only; rw [hlen]; congr 1; omega
    · rw [h3, hcount]; simp only; rw [hbytes]; omega
  · have hbit' : 32 = bitclass ∨ 64 = bitclass := by omega
    -- the state after the symbols before `s`
    obtain ⟨b1, b2, _, _⟩ := emitDynNamePools.foldl_emitSymbol bitclass pLayout out before
      { symtab := Function.update symtab0 0 ⟨0, 0, 0, 0, 0, 0⟩,
        strtab := Function.update strtab0 0 NUL,
        symtabIdx := 1, strtabsize := 1, needs := [] }
    generalize hst1 : before.foldl (emitDynNamePools.emitSymbol bitclass pLayout out)
      { symtab := Function.update symtab0 0 ⟨0, 0, 0, 0, 0, 0⟩,
        strtab := Function.update strtab0 0 NUL,
        symtabIdx := 1, strtabsize := 1, needs := [] } = st1 at b1 b2
    simp only at b1 b2
    -- the iteration for `s`
    have hs : emitDynNamePools.emitSymbol bitclass pLayout out st1 s =
        { st1 with
          symtab := Function.update st1.symtab st1.symtabIdx
            (symbolEntry bitclass pLayout st1.strtabsize s),
          strtab := strcpy st1.strtab st1.strtabsize s.name.toList,
          symtabIdx := st1.symtabIdx + 1,
          strtabsize := st1.strtabsize + (s.nameSize + 1) } := by
      simp [emitDynNamePools.emitSymbol, hdyn out]
    -- the symbols after `s`
    obtain ⟨a1, _, _, a4⟩ := emitDynNamePools.foldl_emitSymbol bitclass pLayout out after
      (emitDynNamePools.emitSymbol bitclass pLayout out st1 s)
    obtain ⟨n1, n2⟩ := emitDynNamePools.foldl_emitNeeded_symtab ldinfo.inputs
      (after.foldl (emitDynNamePools.emitSymbol bitclass pLayout out)
        (emitDynNamePools.emitSymbol bitclass pLayout out st1 s))
    have hfold : out.symbols.foldl (emitDynNamePools.emitSymbol bitclass pLayout out)
        { symtab := Function.update symtab0 0 ⟨0, 0, 0, 0, 0, 0⟩,
          strtab := Function.update strtab0 0 NUL,
          symtabIdx := 1, strtabsize := 1, needs := [] } =
        after.foldl (emitDynNamePools.emitSymbol bitclass pLayout out)
          (emitDynNamePools.emitSymbol bitclass pLayout out st1 s) := by
      rw [hsyms, List.foldl_append, List.foldl_cons, hst1]
    unfold emitDynNamePools
    rcases hty with h | h <;>
    · simp only [h, hbit', if_true]
      refine ⟨_, rfl, ?_, ?_⟩
      · simp only [hfold, n1]
        rw [a4 _ (by rw [hs]; simp only; omega), hs]
        simp only
        rw [← b1, ← b2, Function.update_same]
      · simp only [hfold, n2, a1]
        rw [hs]; simp only; omega

/-- The marked local symbol, last of three symbols of a 32-bit executable. -/
theorem reserved_symbol_retained_in_dynsym_witness :
    Example.marked.resolveInfo.reserved ≠ 0 ∧
    Example.marked.binding = ResolveInfo.Binding.Local ∧
    Example.exec.symbols = [Example.sin, Example.environ] ++ Example.marked :: [] ∧
    (∃ pools, emitDynNamePools 32 (fun _ => 1) (fun _ => 0) Example.exec Example.info
        (fun _ => ⟨7, 7, 7, 7, 7, 7⟩) (fun _ => Char.ofNat 120) (fun _ => 9) 32
        = .ok (some pools) ∧
      pools.symtab
          (1 + (dynamicSymbols Example.exec [Example.sin, Example.environ]).length) =
        symbolEntry 32 (fun _ => 1)
          (1 + nameBytes (dynamicSymbols Example.exec [Example.sin, Example.environ]))
          Example.marked ∧
      1 + (dynamicSymbols Example.exec [Example.sin, Example.environ]).length
        < pools.symtabIdx) :=
  ⟨by decide, rfl, rfl,
    (reserved_symbol_retained_in_dynsym 32 (fun _ => 1) (fun _ => 0) Example.exec
      Example.info (fun _ => ⟨7, 7, 7, 7, 7, 7⟩) (fun _ => Char.ofNat 120) (fun _ => 9) 32
      [Example.sin, Example.environ] [] Example.marked (by decide) rfl
      (Or.inl rfl) (Or.inl rfl)).2.2.2.2⟩

/-- C4, as the code has it: for an Exec output `isDynamicSymbol` returns true
if and only if the reserved bits of the symbol are not 0, so the dynamic
symbols are the symbols with reserved bits and `sizeNamePools` sizes `.dynsym`
for the zero entry and these symbols alone; a symbol with reserved bits 0 is
not dynamic and not counted, whatever its binding and whatever refers to it. -/
theorem isDynamicSymbol_exec_iff (bitclass : Nat) (out : Output) (ldinfo : MCLDInfo)
    (hty : out.type = Output.Type.Exec) :
    (∀ s : LDSymbol, isDynamicSymbol s out = true ↔ s.resolveInfo.reserved ≠ 0) ∧
    dynamicSymbols out out.symbols
      = out.symbols.filter (fun s => decide (s.resolveInfo.reserved ≠ 0)) ∧
    ∃ sizes, sizeNamePools bitclass out ldinfo = some sizes ∧
      sizes.dynsym =
        (1 + (out.symbols.filter (fun s => decide (s.resolveInfo.reserved ≠ 0))).length)
          * (if 32 = bitclass then 16 else 24) ∧
      sizes.dynstr =
        1 + nameBytes (out.symbols.filter (fun s => decide (s.resolveInfo.reserved ≠ 0)))
          + ((ldinfo.inputs.filter needsEntry).map (fun i => i.name.length + 1)).sum
          + (out.name.length + 1) := by
  have hiff : ∀ s : LDSymbol, isDynamicSymbol s out = true ↔ s.resolveInfo.reserved ≠ 0 := by
    intro s
    unfold isDynamicSymbol
    by_cases hres : s.resolveInfo.reserved = 0
    · simp [hres, hty]
    · simp [hres, Ne.symm hres]
  have hfilter : dynamicSymbols out out.symbols
      = out.symbols.filter (fun s => decide (s.resolveInfo.reserved ≠ 0)) := by
    unfold dynamicSymbols
    apply List.filter_congr
    intro x _
    by_cases hx : x.resolveInfo.reserved = 0
    · have : ¬ isDynamicSymbol x out = true := fun h => (hiff x).mp h hx
      simp [hx, this]
    · simp [hx, (hiff x).mpr hx]
  refine ⟨hiff, hfilter, ?_⟩
  rw [← hfilter]
  unfold sizeNamePools sizeNamePools.countSymbols
  simp [hty, sizeNamePools.foldl_countInput, sizeNamePools.foldl_countSymbol,
    ELF.sizeof_Elf32_Sym, ELF.sizeof_Elf64_Sym]

/-- The executable of the examples: only the marked symbol is dynamic. -/
theorem isDynamicSymbol_exec_iff_witness :
    Example.exec.type = Output.Type.Exec ∧
    (∀ s : LDSymbol, isDynamicSymbol s Example.exec = true ↔ s.resolveInfo.reserved ≠ 0) ∧
    dynamicSymbols Example.exec Example.exec.symbols = [Example.marked] :=
  ⟨rfl, (isDynamicSymbol_exec_iff 32 Example.exec Example.info rfl).1,
    (isDynamicSymbol_exec_iff 32 Example.exec Example.info rfl).2.1.trans (by decide)⟩

/-- C4 fails as stated: in the Exec output of the examples the symbol
`environ` is Global, not Local, and `isDynamicSymbol` has no input that could
tell whether a dynamic object such as `libm.so` refers to it; it returns false
for it, and `sizeNamePools` sizes `.dynsym` for the zero entry and the one
marked symbol only (2 entries of 16 bytes). -/
theorem isDynamicSymbol_exec_not_dynamic :
    Example.exec.type = Output.Type.Exec ∧
    Example.environ ∈ Example.exec.symbols ∧
    Example.environ.binding ≠ ResolveInfo.Binding.Local ∧
    Example.libm ∈ Example.info.inputs ∧
    isDynamicSymbol Example.environ Example.exec = false ∧
    (sizeNamePools 32 Example.exec Example.info).map (fun z => z.dynsym) = some 32 := by
  decide

/-! ### `DT_NEEDED` entries in `sizeNamePools` -/

/-- C5: for an Exec or DynObj output, the input loop of `sizeNamePools`
reserves one `DT_NEEDED` entry and `name.length + 1` bytes of `.dynstr` for an
input exactly when the input is a DynObj with add-needed set and either
as-needed not set or the needed mark, and nothing otherwise; the number of
reserved entries is the number of such inputs of the BFS sequence, and
`.dynstr` grows by their names. -/
theorem sizeNamePools_needed_entries (bitclass : Nat) (out : Output) (ldinfo : MCLDInfo)
    (hty : out.type = Output.Type.Exec ∨ out.type = Output.Type.DynObj) :
    (∀ (st : Nat × Nat) (input : Input),
      (needsEntry input = true →
        sizeNamePools.countInput st input = (st.1 + (input.name.length + 1), st.2 + 1)) ∧
      (needsEntry input = false → sizeNamePools.countInput st input = st)) ∧
    (∀ input : Input, needsEntry input = true ↔
      (input.type = Input.Type.DynObj ∧ input.attr.isAddNeeded = true ∧
        (input.attr.isAsNeeded = false ∨ input.isNeeded = true))) ∧
    ∃ sizes, sizeNamePools bitclass out ldinfo = some sizes ∧
      sizes.needEntries = (ldinfo.inputs.filter needsEntry).length ∧
      sizes.dynstr = (sizeNamePools.countSymbols out).dynstr
        + ((ldinfo.inputs.filter needsEntry).map (fun i => i.name.length + 1)).sum
        + (out.name.length + 1) := by
  refine ⟨?_, ?_, ?_⟩
  · intro st input
    rw [sizeNamePools.countInput_eq]
    constructor <;> intro h <;> simp [h]
  · intro input
    unfold needsEntry
    cases input.attr.isAddNeeded <;> cases input.attr.isAsNeeded <;>
      cases input.isNeeded <;> simp
  · unfold sizeNamePools
    rcases hty with h | h <;> simp [h, sizeNamePools.foldl_countInput]

/-- The inputs `main.o`, `libm.so` (as-needed, add-needed, needed) and
`libunused.so` (as-needed, add-needed, not needed): exactly one `DT_NEEDED` is
reserved, for `libm.so`. -/
theorem sizeNamePools_needed_entries_witness :
    Example.exec.type = Output.Type.Exec ∧
    Example.info.inputs = [Example.mainObj, Example.libm, Example.libunused] ∧
    Example.info.inputs.filter needsEntry = [Example.libm] ∧
    ∃ sizes, sizeNamePools 32 Example.exec Example.info = some sizes ∧
      sizes.needEntries = 1 := by
  obtain ⟨sizes, h1, h2, _⟩ :=
    (sizeNamePools_needed_entries 32 Example.exec Example.info (Or.inl rfl)).2.2
  exact ⟨rfl, rfl, by decide, sizes, h1, h2.trans (by decide)⟩

/-! ### The table of the symbol pool -/

theorem HashTable.find_some {pName : String} :
    ∀ {table : List ResolveInfo} {i : Nat} {e : ResolveInfo},
      HashTable.find pName table = some (i, e) →
        table[i]? = some e ∧ e.name = pName ∧ i < table.length := by
  intro table
  induction table with
  | nil => intro i e h; simp [HashTable.find] at h
  | cons x rest ih =>
    intro i e h
    unfold HashTable.find at h
    by_cases hx : x.name = pName
    · simp only [hx, if_true, Option.some.injEq, Prod.mk.injEq] at h
      obtain ⟨rfl, rfl⟩ := h
      simp [hx]
    · simp only [hx, if_false, Option.map_eq_some', Prod.mk.injEq] at h
      obtain ⟨⟨j, e'⟩, hj, rfl, rfl⟩ := h
      obtain ⟨h1, h2, h3⟩ := ih hj
      exact ⟨by simpa using h1, h2, by simp; omega⟩

theorem HashTable.find_none {pName : String} :
    ∀ {table : List ResolveInfo}, HashTable.find pName table = none →
      ∀ e ∈ table, e.name ≠ pName := by
  intro table
  induction table with
  | nil => intro _ e he; simp at he
  | cons x rest ih =>
    intro h e he
    unfold HashTable.find at h
    by_cases hx : x.name = pName
    · simp [hx] at h
    · simp only [hx, if_false, Option.map_eq_none'] at h
      rcases List.mem_cons.mp he with rfl | he
      · exact hx
      · exact ih h e he

/-- Looking a name up after an entry of that name was appended to a table
that had none. -/
theorem HashTable.find_append_new {pName : String} (e : ResolveInfo) (he : e.name = pName) :
    ∀ {table : List ResolveInfo}, HashTable.find pName table = none →
      HashTable.find pName (table ++ [e]) = some (table.length, e) := by
  intro table
  induction table with
  | nil => intro _; simp [HashTable.find, he]
  | cons x rest ih =>
    intro h
    unfold HashTable.find at h
    by_cases hx : x.name = pName
    · simp [hx] at h
    · simp only [hx, if_false, Option.map_eq_none'] at h
      simp [HashTable.find, hx, ih h]

/-- Appending an entry of another name does not change a lookup. -/
theorem HashTable.find_append_other {n : String} (e : ResolveInfo) (he : e.name ≠ n) :
    ∀ table : List ResolveInfo,
      HashTable.find n (table ++ [e]) = HashTable.find n table := by
  intro table
  induction table with
  | nil => simp [HashTable.find, he]
  | cons x rest ih =>
    by_cases hx : x.name = n
    · simp [HashTable.find, hx]
    · simp [HashTable.find, hx, ih]

/-- Rewriting the entry found for a name, keeping its name, leaves it the
entry found for that name. -/
theorem HashTable.find_set_same {pName : String} (e' : ResolveInfo) (he' : e'.name = pName) :
    ∀ {table : List ResolveInfo} {i : Nat} {e : ResolveInfo},
      HashTable.find pName table = some (i, e) →
        HashTable.find pName (table.set i e') = some (i, e') := by
  intro table
  induction table with
  | nil => intro i e h; simp [HashTable.find] at h
  | cons x rest ih =>
    intro i e h
    unfold HashTable.find at h
    by_cases hx : x.name = pName
    · simp only [hx, if_true, Option.some.injEq, Prod.mk.injEq] at h
      obtain ⟨rfl, rfl⟩ := h
      simp [HashTable.find, he']
    · simp only [hx, if_false, Option.map_eq_some', Prod.mk.injEq] at h
      obtain ⟨⟨j, e0⟩, hj, rfl, rfl⟩ := h
      simp [HashTable.find, hx, ih hj]

/-- Rewriting an entry, keeping its name, does not change the lookup of any
other name. -/
theorem HashTable.find_set_other {n : String} (e' : ResolveInfo) :
    ∀ (table : List ResolveInfo) (i : Nat) (e : ResolveInfo),
      table[i]? = some e → e.name = e'.name → e'.name ≠ n →
        HashTable.find n (table.set i e') = HashTable.find n table := by
  intro table
  induction table with
  | nil => intro i e h; simp at h
  | cons x rest ih =>
    intro i e h hname hn
    cases i with
    | zero =>
      simp only [List.getElem?_cons_zero, Option.some.injEq] at h
      subst h
      have hx : x.name ≠ n := by rw [hname]; exact hn
      simp [HashTable.find, hx, hn]
    | succ j =>
      simp only [List.getElem?_cons_succ] at h
      by_cases hx : x.name = n
      · simp [HashTable.find, hx]
      · simp [HashTable.find, hx, ih j e h hname hn]

/-- Rewriting an entry, keeping its name, keeps the list of names. -/
theorem HashTable.names_set (e' : ResolveInfo) :
    ∀ (table : List ResolveInfo) (i : Nat) (e : ResolveInfo),
      table[i]? = some e → e'.name = e.name →
        (table.set i e').map (fun x => x.name) = table.map (fun x => x.name) := by
  intro table
  induction table with
  | nil => intro i e h; simp at h
  | cons x rest ih =>
    intro i e h hname
    cases i with
    | zero =>
      simp only [List.getElem?_cons_zero, Option.some.injEq] at h
      subst h
      simp [hname]
    | succ j =>
      simp only [List.getElem?_cons_succ] at h
      simp [ih j e h hname]

/-! ### `insertSymbol` -/

/-- C6: with binding Local, for every name and all other arguments,
`insertSymbol` returns (null, false) and the pool after the call is the pool
before it: the table, the resolver, the error stream and the record of the
calls of `resolve` are unchanged. -/
theorem insertSymbol_local {σ : Type} (R : Resolver σ) (pool : StrSymPool σ)
    (pName : String) (pIsDyn : Bool) (pDesc : ResolveInfo.Desc) (pValue pSize : Nat)
    (pVisibility : ResolveInfo.Visibility) :
    StrSymPool.insertSymbol R pool pName pIsDyn pDesc ResolveInfo.Binding.Local
      pValue pSize pVisibility = .ok ((none, false), pool) := by
  simp [StrSymPool.insertSymbol]

/-- C7: for a binding other than Local, when the pool has no entry for the
name, or has an entry for it that is not a symbol (a string entered by
`insertString`), `insertSymbol` returns (entry, false); the entry is the one
the pool now holds for the name, it is marked as a symbol and carries the
arguments; the lookup of every other name is unchanged; the resolver is not
invoked (no call is recorded, its state and the error stream are unchanged). -/
theorem insertSymbol_fresh {σ : Type} (R : Resolver σ) (pool : StrSymPool σ)
    (pName : String) (pIsDyn : Bool) (pDesc : ResolveInfo.Desc)
    (pBinding : ResolveInfo.Binding) (pValue pSize : Nat)
    (pVisibility : ResolveInfo.Visibility)
    (hb : pBinding ≠ ResolveInfo.Binding.Local)
    (hfree : HashTable.find pName pool.m_Table = none ∨
      ∃ i e, HashTable.find pName pool.m_Table = some (i, e) ∧ e.isSymbol = false) :
    ∃ (idx : Nat) (entry : ResolveInfo) (pool' : StrSymPool σ),
      StrSymPool.insertSymbol R pool pName pIsDyn pDesc pBinding pValue pSize pVisibility
        = .ok ((some idx, false), pool') ∧
      HashTable.find pName pool'.m_Table = some (idx, entry) ∧
      entry.name = pName ∧ entry.isSymbol = true ∧ entry.isDyn = pIsDyn ∧
      entry.desc = pDesc ∧ entry.binding = pBinding ∧ entry.visibility = pVisibility ∧
      entry.value = pValue ∧ entry.size = pSize ∧
      (∀ n, n ≠ pName → HashTable.find n pool'.m_Table = HashTable.find n pool.m_Table) ∧
      pool'.resolved = pool.resolved ∧ pool'.resolver = pool.resolver ∧
      pool'.errs = pool.errs := by
  have hb' : ¬ ResolveInfo.Binding.Local = pBinding := fun h => hb h.symm
  rcases hfree with hnone | ⟨i, e, hfind, hsym⟩
  · refine ⟨pool.m_Table.length,
      (ResolveInfo.produce pName).populate pIsDyn pDesc pBinding pValue pSize pVisibility,
      ⟨pool.m_Table ++ [(ResolveInfo.produce pName).populate pIsDyn pDesc pBinding
        pValue pSize pVisibility], pool.resolver, pool.errs, pool.resolved⟩,
      ?_, ?_, rfl, rfl, rfl, rfl, rfl, rfl, rfl, rfl, ?_, rfl, rfl, rfl⟩
    · simp [StrSymPool.insertSymbol, HashTable.insert, hb', hnone, ResolveInfo.produce]
    · exact @HashTable.find_append_new pName _ rfl _ hnone
    · intro n hn
      exact HashTable.find_append_other _ (fun h => hn h.symm) _
  · obtain ⟨hget, hname, _⟩ := HashTable.find_some hfind
    refine ⟨i, e.populate pIsDyn pDesc pBinding pValue pSize pVisibility,
      ⟨pool.m_Table.set i (e.populate pIsDyn pDesc pBinding pValue pSize pVisibility),
        pool.resolver, pool.errs, pool.resolved⟩,
      ?_, ?_, hname, rfl, rfl, rfl, rfl, rfl, rfl, rfl, ?_, rfl, rfl, rfl⟩
    · simp [StrSymPool.insertSymbol, HashTable.insert, hb', hfind, hsym]
    · exact HashTable.find_set_same
        (e.populate pIsDyn pDesc pBinding pValue pSize pVisibility) hname hfind
    · intro n hn
      exact HashTable.find_set_other
        (e.populate pIsDyn pDesc pBinding pValue pSize pVisibility) _ i e hget rfl
        (fun h => hn (h.symm.trans hname))

/-- The name `main` inserted as a global definition into the pool that holds it
as a plain string. -/
theorem insertSymbol_fresh_witness :
    ResolveInfo.Binding.Global ≠ ResolveInfo.Binding.Local ∧
    HashTable.find "main" Example.stringPool.m_Table
      = some (0, ResolveInfo.produce "main") ∧
    ∃ (idx : Nat) (entry : ResolveInfo) (pool' : StrSymPool Example.ResolverState),
      StrSymPool.insertSymbol Example.resolver Example.stringPool "main" false
        .Define .Global 16 4 .Default = .ok ((some idx, false), pool') ∧
      HashTable.find "main" pool'.m_Table = some (idx, entry) ∧
      entry.name = "main" ∧ entry.isSymbol = true ∧ entry.isDyn = false ∧
      entry.desc = .Define ∧ entry.binding = .Global ∧ entry.visibility = .Default ∧
      entry.value = 16 ∧ entry.size = 4 ∧
      (∀ n, n ≠ "main" →
        HashTable.find n pool'.m_Table = HashTable.find n Example.stringPool.m_Table) ∧
      pool'.resolved = Example.stringPool.resolved ∧
      pool'.resolver = Example.stringPool.resolver ∧
      pool'.errs = Example.stringPool.errs :=
  ⟨by decide, by decide,
    insertSymbol_fresh Example.resolver Example.stringPool "main" false .Define .Global
      16 4 .Default (by decide) (Or.inr ⟨0, ResolveInfo.produce "main", by decide, rfl⟩)⟩

/-- C8: for a binding other than Local, when the pool holds a symbol `old`
for the name at index `i`, `insertSymbol` makes a new `ResolveInfo` from the
arguments, apart from the table, and calls the resolver on (old, new) (the call
is recorded); when the action is Success or Warning it returns (i, true). The
table after the call is the table before it with entry `i` as the resolver
left it: the new `ResolveInfo` is not in it, the length and the names are
unchanged, the name still leads to entry `i`, and in a table without
duplicate names the name occurs exactly once. -/
theorem insertSymbol_existing {σ : Type} (R : Resolver σ) (pool : StrSymPool σ)
    (pName : String) (pIsDyn : Bool) (pDesc : ResolveInfo.Desc)
    (pBinding : ResolveInfo.Binding) (pValue pSize : Nat)
    (pVisibility : ResolveInfo.Visibility) (i : Nat) (old new : ResolveInfo)
    (hb : pBinding ≠ ResolveInfo.Binding.Local)
    (hfind : HashTable.find pName pool.m_Table = some (i, old))
    (hsym : old.isSymbol = true)
    (hnew : new = { name := pName, isSymbol := true, isDyn := pIsDyn, desc := pDesc,
                    binding := pBinding, visibility := pVisibility, value := pValue,
                    size := pSize, type := 0, reserved := 0 })
    (hact : (R.resolve pool.resolver old new).action = Resolver.Action.Success ∨
      (R.resolve pool.resolver old new).action = Resolver.Action.Warning) :
    ∃ pool' : StrSymPool σ,
      StrSymPool.insertSymbol R pool pName pIsDyn pDesc pBinding pValue pSize pVisibility
        = .ok ((some i, true), pool') ∧
      pool'.resolved = pool.resolved ++ [(old, new)] ∧
      pool'.m_Table = pool.m_Table.set i (R.resolve pool.resolver old new).old ∧
      pool'.m_Table.length = pool.m_Table.length ∧
      pool'.m_Table.map (fun e => e.name) = pool.m_Table.map (fun e => e.name) ∧
      HashTable.find pName pool'.m_Table
        = some (i, (R.resolve pool.resolver old new).old) ∧
      ((pool.m_Table.map (fun e => e.name)).Nodup →
        (pool'.m_Table.map (fun e => e.name)).count pName = 1) := by
  have hb' : ¬ ResolveInfo.Binding.Local = pBinding := fun h => hb h.symm
  obtain ⟨hget, hname, hlt⟩ := HashTable.find_some hfind
  have hnew' : (ResolveInfo.produce pName).populate pIsDyn pDesc pBinding pValue pSize
      pVisibility = new := by rw [hnew]; rfl
  have hrname : (R.resolve pool.resolver old new).old.name = pName :=
    (R.resolve_name _ _ _).trans hname
  have hnames : (pool.m_Table.set i (R.resolve pool.resolver old new).old).map
      (fun e => e.name) = pool.m_Table.map (fun e => e.name) :=
    HashTable.names_set _ _ i old hget (R.resolve_name _ _ _)
  have hmem : pName ∈ pool.m_Table.map (fun e => e.name) := by
    rw [List.mem_map]
    exact ⟨old, List.getElem?_mem hget, hname⟩
  have hrest : ∀ pool' : StrSymPool σ,
      pool'.m_Table = pool.m_Table.set i (R.resolve pool.resolver old new).old →
      pool'.m_Table.length = pool.m_Table.length ∧
      pool'.m_Table.map (fun e => e.name) = pool.m_Table.map (fun e => e.name) ∧
      HashTable.find pName pool'.m_Table
        = some (i, (R.resolve pool.resolver old new).old) ∧
      ((pool.m_Table.map (fun e => e.name)).Nodup →
        (pool'.m_Table.map (fun e => e.name)).count pName = 1) := by
    intro pool' ht
    rw [ht]
    refine ⟨by simp, hnames, HashTable.find_set_same _ hrname hfind, ?_⟩
    intro hnodup
    rw [hnames]
    exact List.count_eq_one_of_mem hnodup hmem
  rcases hact with hact | hact
  · refine ⟨⟨pool.m_Table.set i (R.resolve pool.resolver old new).old,
      (R.resolve pool.resolver old new).resolver, pool.errs,
      pool.resolved ++ [(old, new)]⟩, ?_, rfl, rfl, hrest _ rfl⟩
    simp [StrSymPool.insertSymbol, HashTable.insert, hb', hfind, hsym, hnew', hact]
  · refine ⟨⟨pool.m_Table.set i (R.resolve pool.resolver old new).old,
      R.clearMesg (R.resolve pool.resolver old new).resolver,
      pool.errs ++ ["WARNING: " ++ R.mesg (R.resolve pool.resolver old new).resolver
        ++ "\n"],
      pool.resolved ++ [(old, new)]⟩, ?_, rfl, rfl, hrest _ rfl⟩
    simp [StrSymPool.insertSymbol, HashTable.insert, hb', hfind, hsym, hnew', hact]

/-- A global definition of `main` inserted into the pool that holds a weak
definition of it: the resolver answers Success and rewrites the old entry. -/
theorem insertSymbol_existing_witness :
    HashTable.find "main" Example.symbolPool.m_Table
      = some (0, StrSymPool.createSymbol "main" false .Define .Weak 16 4 .Default) ∧
    (Example.resolver.resolve Example.symbolPool.resolver
        (StrSymPool.createSymbol "main" false .Define .Weak 16 4 .Default)
        (StrSymPool.createSymbol "main" false .Define .Global 32 8 .Default)).action
      = Resolver.Action.Success ∧
    ∃ pool' : StrSymPool Example.ResolverState,
      StrSymPool.insertSymbol Example.resolver Example.symbolPool "main" false
        .Define .Global 32 8 .Default = .ok ((some 0, true), pool') ∧
      pool'.resolved = Example.symbolPool.resolved ++
        [(StrSymPool.createSymbol "main" false .Define .Weak 16 4 .Default,
          StrSymPool.createSymbol "main" false .Define .Global 32 8 .Default)] ∧
      pool'.m_Table.length = 2 ∧
      (pool'.m_Table.map (fun e => e.name)).count "main" = 1 := by
  obtain ⟨pool', h1, h2, -, h4, -, -, h7⟩ :=
    insertSymbol_existing Example.resolver Example.symbolPool "main" false .Define .Global
      32 8 .Default 0 (StrSymPool.createSymbol "main" false .Define .Weak 16 4 .Default)
      (StrSymPool.createSymbol "main" false .Define .Global 32 8 .Default)
      (by decide) (by decide) rfl rfl (Or.inl (by decide))
  exact ⟨by decide, by decide, pool', h1, h2, h4.trans (by decide), h7 (by decide)⟩

/-- C9: `insertSymbol` ends in the fatal error `msg`, returning nothing, if
and only if the binding is not Local, the pool holds a symbol `old` for the
name, the resolver called on (old, new) answers Abort, and `msg` is the
message of the resolver after that call. -/
theorem insertSymbol_fatal_iff {σ : Type} (R : Resolver σ) (pool : StrSymPool σ)
    (pName : String) (pIsDyn : Bool) (pDesc : ResolveInfo.Desc)
    (pBinding : ResolveInfo.Binding) (pValue pSize : Nat)
    (pVisibility : ResolveInfo.Visibility) (msg : String) :
    StrSymPool.insertSymbol R pool pName pIsDyn pDesc pBinding pValue pSize pVisibility
        = .error msg ↔
      (pBinding ≠ ResolveInfo.Binding.Local ∧
        ∃ (i : Nat) (old : ResolveInfo),
          HashTable.find pName pool.m_Table = some (i, old) ∧ old.isSymbol = true ∧
          (R.resolve pool.resolver old
            (StrSymPool.createSymbol pName pIsDyn pDesc pBinding pValue pSize
              pVisibility)).action = Resolver.Action.Abort ∧
          msg = R.mesg (R.resolve pool.resolver old
            (StrSymPool.createSymbol pName pIsDyn pDesc pBinding pValue pSize
              pVisibility)).resolver) := by
  by_cases hb : ResolveInfo.Binding.Local = pBinding
  · simp [StrSymPool.insertSymbol, hb.symm]
  · have hb2 : pBinding ≠ ResolveInfo.Binding.Local := fun h => hb h.symm
    cases hfind : HashTable.find pName pool.m_Table with
    | none => simp [StrSymPool.insertSymbol, HashTable.insert, hb, hfind]
    | some p =>
      obtain ⟨i, old⟩ := p
      cases hsym : old.isSymbol with
      | false => simp [StrSymPool.insertSymbol, HashTable.insert, hb, hfind, hsym]
      | true =>
        cases hact : (R.resolve pool.resolver old
            (StrSymPool.createSymbol pName pIsDyn pDesc pBinding pValue pSize
              pVisibility)).action with
        | Success =>
          simp [StrSymPool.insertSymbol, HashTable.insert, hb, hfind, hsym,
            StrSymPool.createSymbol] at hact ⊢
          simp [hact]
        | Warning =>
          simp [StrSymPool.insertSymbol, HashTable.insert, hb, hfind, hsym,
            StrSymPool.createSymbol] at hact ⊢
          simp [hact]
        | Again tag =>
          simp [StrSymPool.insertSymbol, HashTable.insert, hb, hfind, hsym,
            StrSymPool.createSymbol] at hact ⊢
          simp [hact]
        | Abort =>
          simp [StrSymPool.insertSymbol, HashTable.insert, hb, hfind, hsym,
            StrSymPool.createSymbol] at hact ⊢
          simp only [hact, hb2, ne_eq, not_false_eq_true, true_and]
          constructor
          · intro h
            exact ⟨i, old, ⟨rfl, rfl⟩, hsym, hact, (Except.error.inj h).symm⟩
          · rintro ⟨_, _, ⟨rfl, rfl⟩, -, -, h⟩
            rw [h]

/-- The `default:` branch of `insertSymbol`: when the resolver answers
`Again tag`, the result is that of `resolveAgain`, called on the pool as
`resolve` left it, with the constant `LastAction` in the place of the action,
the index of `old`, and `new`. -/
theorem insertSymbol_again_dispatch {σ : Type} (R : Resolver σ) (pool : StrSymPool σ)
    (pName : String) (pIsDyn : Bool) (pDesc : ResolveInfo.Desc)
    (pBinding : ResolveInfo.Binding) (pValue pSize : Nat)
    (pVisibility : ResolveInfo.Visibility) (i tag : Nat) (old : ResolveInfo)
    (hb : pBinding ≠ ResolveInfo.Binding.Local)
    (hfind : HashTable.find pName pool.m_Table = some (i, old))
    (hsym : old.isSymbol = true)
    (hact : (R.resolve pool.resolver old
      (StrSymPool.createSymbol pName pIsDyn pDesc pBinding pValue pSize pVisibility)).action
        = Resolver.Action.Again tag) :
    StrSymPool.insertSymbol R pool pName pIsDyn pDesc pBinding pValue pSize pVisibility
      = .ok (R.resolveAgain
          ⟨pool.m_Table.set i (R.resolve pool.resolver old
              (StrSymPool.createSymbol pName pIsDyn pDesc pBinding pValue pSize
                pVisibility)).old,
            (R.resolve pool.resolver old
              (StrSymPool.createSymbol pName pIsDyn pDesc pBinding pValue pSize
                pVisibility)).resolver,
            pool.errs,
            pool.resolved ++ [(old,
              StrSymPool.createSymbol pName pIsDyn pDesc pBinding pValue pSize pVisibility)]⟩
          R.LastAction i
          (StrSymPool.createSymbol pName pIsDyn pDesc pBinding pValue pSize pVisibility)) := by
  have hb' : ¬ ResolveInfo.Binding.Local = pBinding := fun h => hb h.symm
  simp only [StrSymPool.createSymbol] at hact ⊢
  simp [StrSymPool.insertSymbol, HashTable.insert, hb', hfind, hsym, hact]

/-- C10 at an input where the code departs from it: the pool holds the common
symbol `buf` at index 1; for a second common `buf` the example resolver
answers the action `Again 7`; `insertSymbol` returns the result of
`resolveAgain`, but calls it with `LastAction = 3`, not with the tag 7: the
resolver has recorded the tag 3. -/
theorem insertSymbol_again_passes_LastAction :
    HashTable.find "buf" Example.symbolPool.m_Table
      = some (1, StrSymPool.createSymbol "buf" false .Common .Global 8 64 .Default) ∧
    (Example.resolver.resolve Example.symbolPool.resolver
        (StrSymPool.createSymbol "buf" false .Common .Global 8 64 .Default)
        (StrSymPool.createSymbol "buf" false .Common .Global 8 128 .Default)).action
      = Resolver.Action.Again 7 ∧
    Example.resolver.LastAction = 3 ∧
    StrSymPool.insertSymbol Example.resolver Example.symbolPool "buf" false
        .Common .Global 8 128 .Default
      = .ok (Example.resolver.resolveAgain
          { Example.symbolPool with
            resolved := [(StrSymPool.createSymbol "buf" false .Common .Global 8 64 .Default,
              StrSymPool.createSymbol "buf" false .Common .Global 8 128 .Default)] }
          3 1 (StrSymPool.createSymbol "buf" false .Common .Global 8 128 .Default)) ∧
    (StrSymPool.insertSymbol Example.resolver Example.symbolPool "buf" false
        .Common .Global 8 128 .Default).toOption.map (fun r => r.2.resolver.again)
      = some [3] := by
  refine ⟨by decide, by decide, rfl, ?_, ?_⟩
  · rfl
  · rfl

/-! ### Regular name pools -/

/-- C11: for an Exec or DynObj output with the symbol list `s_1 .. s_n`,
`sizeNamePools` sets the size of `.strtab` to the sum of `nameSize(s_i) + 1`
over all symbols and the size of `.symtab` to `n` times the entry size, 16
bytes when the bitclass is 32 and 24 bytes otherwise; every symbol counts,
dynamic or not. -/
theorem sizeNamePools_symtab_strtab (bitclass : Nat) (out : Output) (ldinfo : MCLDInfo)
    (hty : out.type = Output.Type.Exec ∨ out.type = Output.Type.DynObj) :
    ∃ sizes, sizeNamePools bitclass out ldinfo = some sizes ∧
      sizes.strtab = (out.symbols.map (fun s => s.nameSize + 1)).sum ∧
      sizes.symtab = out.symbols.length * (if bitclass = 32 then 16 else 24) := by
  have hc := sizeNamePools.foldl_countSymbol out out.symbols
    { symtab := 0, dynsym := 1, strtab := 0, dynstr := 1 }
  unfold sizeNamePools sizeNamePools.countSymbols
  rw [hc]
  have hsz : (if 32 = bitclass then ELF.sizeof_Elf32_Sym else ELF.sizeof_Elf64_Sym)
      = (if bitclass = 32 then 16 else 24) := by
    by_cases h : bitclass = 32
    · simp [h, ELF.sizeof_Elf32_Sym]
    · have h' : ¬ 32 = bitclass := fun e => h e.symm
      simp [h, h', ELF.sizeof_Elf64_Sym]
  rcases hty with h | h <;> simp [h, hsz, nameBytes]

/-- The executable of `foo` and `bar` on a 32-bit backend: 8 bytes of
`.strtab` and 32 bytes of `.symtab`. -/
theorem sizeNamePools_symtab_strtab_witness :
    Example.fooBar.type = Output.Type.Exec ∧
    ∃ sizes, sizeNamePools 32 Example.fooBar Example.info = some sizes ∧
      sizes.strtab = 8 ∧ sizes.symtab = 32 := by
  obtain ⟨sizes, h1, h2, h3⟩ :=
    sizeNamePools_symtab_strtab 32 Example.fooBar Example.info (Or.inl rfl)
  exact ⟨rfl, sizes, h1, h2.trans (by decide), h3.trans (by decide)⟩

/-- C12 at an input where the code departs from it: for the symbols `foo` and
`bar` of an executable, `emitRegNamePools` stores NUL in byte 0 of `.strtab`
and then copies the first name to offset 0, over it. The 8 bytes written are
`foo`, NUL, `bar`, NUL; byte 0 is `f`, and the name offsets of the two entries
are 0 and 4. -/
theorem emitRegNamePools_first_byte :
    Example.fooBar.symbols = [Example.foo, Example.bar] ∧
    (emitRegNamePools 32 (fun _ => 1) Example.fooBar (fun _ => ⟨7, 7, 7, 7, 7, 7⟩)
        (fun _ => Char.ofNat 120)).toOption.join.map
      (fun p => ((List.range 9).map p.strtab, p.strtabsize,
        (p.symtab 0).st_name, (p.symtab 1).st_name))
      = some (['f', 'o', 'o', NUL, 'b', 'a', 'r', NUL, 'x'], 8, 0, 4) ∧
    (emitRegNamePools 64 (fun _ => 1) Example.fooBar (fun _ => ⟨7, 7, 7, 7, 7, 7⟩)
        (fun _ => Char.ofNat 120)).toOption.join.map
      (fun p => ((List.range 9).map p.strtab, p.strtabsize,
        (p.symtab 0).st_name, (p.symtab 1).st_name))
      = some (['f', 'o', 'o', NUL, 'b', 'a', 'r', NUL, 'x'], 8, 0, 4) := by
  refine ⟨rfl, ?_, ?_⟩ <;> decide

/-! ### The layout of `.dynsym` and `.dynstr` -/

/-- The call `strcpy` writes at the destination offset and above only. -/
theorem strcpy_below (src : List Char) :
    ∀ (mem : Nat → Char) (dst i : Nat), i < dst → strcpy mem dst src i = mem i := by
  induction src with
  | nil =>
    intro mem dst i hi
    simp [strcpy, Function.update_noteq (Nat.ne_of_lt hi)]
  | cons c cs ih =>
    intro mem dst i hi
    unfold strcpy
    split_ifs
    · exact Function.update_noteq (Nat.ne_of_lt hi) _ _
    · rw [ih _ _ _ (by omega)]
      exact Function.update_noteq (Nat.ne_of_lt hi) _ _

/-- The symbol loop of `emitDynNamePools` leaves alone every byte of `.dynstr`
below the offset it started from. -/
theorem emitDynNamePools.foldl_emitSymbol_strtab (bitclass : Nat)
    (pLayout : LDSymbol → Nat) (out : Output) (l : List LDSymbol) :
    ∀ (st : emitDynNamePools.State) (i : Nat), i < st.strtabsize →
      (l.foldl (emitDynNamePools.emitSymbol bitclass pLayout out) st).strtab i
        = st.strtab i := by
  induction l with
  | nil => intro st i _; rfl
  | cons x l ih =>
    intro st i hi
    rw [List.foldl_cons]
    by_cases hx : isDynamicSymbol x out = true
    · have hst : emitDynNamePools.emitSymbol bitclass pLayout out st x =
          { st with
            symtab := Function.update st.symtab st.symtabIdx
              (symbolEntry bitclass pLayout st.strtabsize x),
            strtab := strcpy st.strtab st.strtabsize x.name.toList,
            symtabIdx := st.symtabIdx + 1,
            strtabsize := st.strtabsize + (x.nameSize + 1) } := by
        simp [emitDynNamePools.emitSymbol, hx]
      rw [hst, ih _ i (by simp only; omega)]
      exact strcpy_below _ _ _ _ hi
    · have hst : emitDynNamePools.emitSymbol bitclass pLayout out st x = st := by
        simp [emitDynNamePools.emitSymbol, hx]
      rw [hst]
      exact ih st i hi

/-- The input loop of `emitDynNamePools` leaves alone every byte of `.dynstr`
below the offset it started from, and never lowers the offset. -/
theorem emitDynNamePools.foldl_emitNeeded_strtab (l : List Input) :
    ∀ (st : emitDynNamePools.State),
      st.strtabsize ≤ (l.foldl emitDynNamePools.emitNeeded st).strtabsize ∧
      ∀ i, i < st.strtabsize →
        (l.foldl emitDynNamePools.emitNeeded st).strtab i = st.strtab i := by
  induction l with
  | nil => intro st; exact ⟨le_refl _, fun _ _ => rfl⟩
  | cons x l ih =>
    intro st
    rw [List.foldl_cons]
    by_cases hx : needsEntry x = true
    · have hst : emitDynNamePools.emitNeeded st x = emitDynNamePools.writeNeeded st x := by
        unfold emitDynNamePools.emitNeeded
        unfold needsEntry at hx
        by_cases h1 : x.type = Input.Type.DynObj <;>
          cases h2 : x.attr.isAddNeeded <;>
          cases h3 : x.attr.isAsNeeded <;>
          cases h4 : x.isNeeded <;> simp [h1, h2, h3, h4] at hx ⊢
      obtain ⟨i1, i2⟩ := ih (emitDynNamePools.writeNeeded st x)
      rw [hst]
      refine ⟨le_trans (by simp [emitDynNamePools.writeNeeded]) i1, ?_⟩
      intro i hi
      rw [i2 i (by simp only [emitDynNamePools.writeNeeded]; omega)]
      exact strcpy_below _ _ _ _ hi
    · have hst : emitDynNamePools.emitNeeded st x = st := by
        unfold emitDynNamePools.emitNeeded
        unfold needsEntry at hx
        by_cases h1 : x.type = Input.Type.DynObj <;>
          cases h2 : x.attr.isAddNeeded <;>
          cases h3 : x.attr.isAsNeeded <;>
          cases h4 : x.isNeeded <;> simp [h1, h2, h3, h4] at hx ⊢
      rw [hst]
      exact ih st

/-- The symbol loop of `emitDynNamePools` writes the `k`-th dynamic symbol of
the list (from 0) at the index `k` above the one it started from, with the
name offset that the names of the dynamic symbols before it leave. -/
theorem emitDynNamePools.foldl_emitSymbol_entry (bitclass : Nat)
    (pLayout : LDSymbol → Nat) (out : Output) (l : List LDSymbol) :
    ∀ (st : emitDynNamePools.State) (k : Nat) (s : LDSymbol),
      (dynamicSymbols out l)[k]? = some s →
      (l.foldl (emitDynNamePools.emitSymbol bitclass pLayout out) st).symtab
          (st.symtabIdx + k)
        = symbolEntry bitclass pLayout
            (st.strtabsize + nameBytes ((dynamicSymbols out l).take k)) s := by
  induction l with
  | nil => intro st k s h; simp [dynamicSymbols] at h
  | cons x l ih =>
    intro st k s h
    rw [List.foldl_cons]
    by_cases hx : isDynamicSymbol x out = true
    · have hd : dynamicSymbols out (x :: l) = x :: dynamicSymbols out l := by
        simp [dynamicSymbols, hx]
      have hst : emitDynNamePools.emitSymbol bitclass pLayout out st x =
          { st with
            symtab := Function.update st.symtab st.symtabIdx
              (symbolEntry bitclass pLayout st.strtabsize x),
            strtab := strcpy st.strtab st.strtabsize x.name.toList,
            symtabIdx := st.symtabIdx + 1,
            strtabsize := st.strtabsize + (x.nameSize + 1) } := by
        simp [emitDynNamePools.emitSymbol, hx]
      rw [hd] at h ⊢
      rw [hst]
      cases k with
      | zero =>
        simp only [List.getElem?_cons_zero, Option.some.injEq] at h
        subst h
        obtain ⟨_, _, _, h4⟩ := emitDynNamePools.foldl_emitSymbol bitclass pLayout out l
          { st with
            symtab := Function.update st.symtab st.symtabIdx
              (symbolEntry bitclass pLayout st.strtabsize x),
            strtab := strcpy st.strtab st.strtabsize x.name.toList,
            symtabIdx := st.symtabIdx + 1,
            strtabsize := st.strtabsize + (x.nameSize + 1) }
        rw [Nat.add_zero, h4 _ (by simp only; omega)]
        simp [nameBytes]
      | succ j =>
        simp only [List.getElem?_cons_succ] at h
        have := ih
          { st with
            symtab := Function.update st.symtab st.symtabIdx
              (symbolEntry bitclass pLayout st.strtabsize x),
            strtab := strcpy st.strtab st.strtabsize x.name.toList,
            symtabIdx := st.symtabIdx + 1,
            strtabsize := st.strtabsize + (x.nameSize + 1) } j s h
        simp only at this
        rw [show st.symtabIdx + (j + 1) = st.symtabIdx + 1 + j by omega, this]
        rw [List.take_succ_cons, nameBytes_cons]
        congr 1
        omega
    · have hd : dynamicSymbols out (x :: l) = dynamicSymbols out l := by
        simp [dynamicSymbols, hx]
      have hst : emitDynNamePools.emitSymbol bitclass pLayout out st x = st := by
        simp [emitDynNamePools.emitSymbol, hx]
      rw [hd] at h ⊢
      rw [hst]
      exact ih st k s h

/-- C13: for an Exec or DynObj output and either bit class, `emitDynNamePools`
writes the zero entry at index 0 of `.dynsym` (`st_name`, `st_value`,
`st_size`, `st_info`, `st_other` and `st_shndx` all 0) and NUL at byte 0 of
`.dynstr`; the `k`-th dynamic symbol in output order, `k ≥ 1`, is written at
index `k`, with the name offset left by the names before it, and the first
one has `st_name = 1`. -/
theorem emitDynNamePools_dynsym_layout (bitclass : Nat) (pLayout : LDSymbol → Nat)
    (hash_func : String → Nat) (out : Output) (ldinfo : MCLDInfo)
    (symtab0 : Nat → ElfSym) (strtab0 : Nat → Char) (hash0 : Nat → Nat) (hash_size : Nat)
    (hty : out.type = Output.Type.Exec ∨ out.type = Output.Type.DynObj)
    (hbit : bitclass = 32 ∨ bitclass = 64) :
    ∃ pools,
      emitDynNamePools bitclass pLayout hash_func out ldinfo symtab0 strtab0 hash0 hash_size
        = .ok (some pools) ∧
      pools.symtab 0 = ⟨0, 0, 0, 0, 0, 0⟩ ∧
      pools.strtab 0 = NUL ∧
      pools.symtabIdx = 1 + (dynamicSymbols out out.symbols).length ∧
      (∀ (k : Nat) (s : LDSymbol), 1 ≤ k →
        (dynamicSymbols out out.symbols)[k - 1]? = some s →
        pools.symtab k = symbolEntry bitclass pLayout
          (1 + nameBytes ((dynamicSymbols out out.symbols).take (k - 1))) s) ∧
      (∀ s : LDSymbol, (dynamicSymbols out out.symbols)[0]? = some s →
        (pools.symtab 1).st_name = 1) := by
  have hbit' : 32 = bitclass ∨ 64 = bitclass := by omega
  obtain ⟨a1, a2, _, a4⟩ := emitDynNamePools.foldl_emitSymbol bitclass pLayout out
    out.symbols
    { symtab := Function.update symtab0 0 ⟨0, 0, 0, 0, 0, 0⟩,
      strtab := Function.update strtab0 0 NUL,
      symtabIdx := 1, strtabsize := 1, needs := [] }
  have a5 := emitDynNamePools.foldl_emitSymbol_strtab bitclass pLayout out out.symbols
    { symtab := Function.update symtab0 0 ⟨0, 0, 0, 0, 0, 0⟩,
      strtab := Function.update strtab0 0 NUL,
      symtabIdx := 1, strtabsize := 1, needs := [] } 0 (by simp)
  have a6 := emitDynNamePools.foldl_emitSymbol_entry bitclass pLayout out out.symbols
    { symtab := Function.update symtab0 0 ⟨0, 0, 0, 0, 0, 0⟩,
      strtab := Function.update strtab0 0 NUL,
      symtabIdx := 1, strtabsize := 1, needs := [] }
  generalize hst1 : out.symbols.foldl (emitDynNamePools.emitSymbol bitclass pLayout out)
    { symtab := Function.update symtab0 0 ⟨0, 0, 0, 0, 0, 0⟩,
      strtab := Function.update strtab0 0 NUL,
      symtabIdx := 1, strtabsize := 1, needs := [] } = st1 at a1 a2 a4 a5 a6
  simp only at a1 a2 a4 a5 a6
  obtain ⟨n1, n2⟩ := emitDynNamePools.foldl_emitNeeded_symtab ldinfo.inputs st1
  obtain ⟨n3, n4⟩ := emitDynNamePools.foldl_emitNeeded_strtab ldinfo.inputs st1
  have hentry : ∀ (k : Nat) (s : LDSymbol), 1 ≤ k →
      (dynamicSymbols out out.symbols)[k - 1]? = some s →
      st1.symtab k = symbolEntry bitclass pLayout
        (1 + nameBytes ((dynamicSymbols out out.symbols).take (k - 1))) s := by
    intro k s hk hs
    have := a6 (k - 1) s hs
    rwa [show 1 + (k - 1) = k by omega] at this
  have hpos : 0 < st1.strtabsize := by omega
  have hresult : ∃ pools,
      emitDynNamePools bitclass pLayout hash_func out ldinfo symtab0 strtab0 hash0 hash_size
        = .ok (some pools) ∧
      pools.symtab = (ldinfo.inputs.foldl emitDynNamePools.emitNeeded st1).symtab ∧
      pools.strtab = strcpy (ldinfo.inputs.foldl emitDynNamePools.emitNeeded st1).strtab
        (ldinfo.inputs.foldl emitDynNamePools.emitNeeded st1).strtabsize out.name.toList ∧
      pools.symtabIdx = (ldinfo.inputs.foldl emitDynNamePools.emitNeeded st1).symtabIdx := by
    subst hst1
    unfold emitDynNamePools
    rcases hty with h | h <;> simp only [h, hbit', if_true] <;> exact ⟨_, rfl, rfl, rfl, rfl⟩
  obtain ⟨pools, e1, e2, e3, e4⟩ := hresult
  refine ⟨pools, e1, ?_, ?_, ?_, ?_, ?_⟩
  · rw [e2, n1, a4 0 (by omega)]
    simp
  · rw [e3, strcpy_below _ _ _ _ (by omega), n4 0 hpos, a5]
    simp
  · rw [e4, n2, a1]
  · intro k s hk hs
    rw [e2, n1]
    exact hentry k s hk hs
  · intro s hs
    rw [e2, n1, hentry 1 s (le_refl 1) hs]
    simp [symbolEntry, nameBytes]

/-- The shared object of the examples on a 64-bit backend: `sin` at index 1
with name offset 1, `environ` at index 2 with name offset 5. -/
theorem emitDynNamePools_dynsym_layout_witness :
    Example.lib.type = Output.Type.DynObj ∧
    dynamicSymbols Example.lib Example.lib.symbols
      = [Example.sin, Example.environ, Example.marked] ∧
    ∃ pools, emitDynNamePools 64 (fun _ => 1) (fun _ => 0) Example.lib Example.info
        (fun _ => ⟨7, 7, 7, 7, 7, 7⟩) (fun _ => Char.ofNat 120) (fun _ => 9) 32
        = .ok (some pools) ∧
      pools.symtab 0 = ⟨0, 0, 0, 0, 0, 0⟩ ∧
      pools.strtab 0 = NUL ∧
      pools.symtabIdx = 4 ∧
      pools.symtab 2 = symbolEntry 64 (fun _ => 1) 5 Example.environ ∧
      (pools.symtab 1).st_name = 1 := by
  obtain ⟨pools, h1, h2, h3, h4, h5, h6⟩ :=
    emitDynNamePools_dynsym_layout 64 (fun _ => 1) (fun _ => 0) Example.lib Example.info
      (fun _ => ⟨7, 7, 7, 7, 7, 7⟩) (fun _ => Char.ofNat 120) (fun _ => 9) 32
      (Or.inr rfl) (Or.inr rfl)
  have hd : dynamicSymbols Example.lib Example.lib.symbols
      = [Example.sin, Example.environ, Example.marked] := by decide
  refine ⟨rfl, hd, pools, h1, h2, h3, ?_, ?_, ?_⟩
  · rw [h4, hd]; rfl
  · have := h5 2 Example.environ (by decide) (by rw [hd]; rfl)
    rw [this, hd]
    decide
  · exact h6 Example.sin (by rw [hd]; rfl)

/-! ### The hash table -/

/-- The count of buckets grows with the count of symbols. -/
theorem hash_bucket_count_mono (n : Nat) :
    hash_bucket_count n false ≤ hash_bucket_count (n + 1) false := by
  have hsorted : buckets.Pairwise (· < ·) := by decide
  have hlow : ∀ b ∈ buckets, 1 ≤ b := by decide
  obtain ⟨h1, _, _⟩ := hash_bucket_count.loop_spec n buckets 1 hsorted hlow
  obtain ⟨_, k2, k3⟩ := hash_bucket_count.loop_spec (n + 1) buckets 1 hsorted hlow
  have hd : ∀ m, hash_bucket_count m false = hash_bucket_count.loop m buckets 1 := by
    intro m; simp [hash_bucket_count]
  rw [hd, hd]
  rcases h1 with h | h
  · rw [h]; exact k3
  · exact k2 _ h.1 (by omega)

theorem hash_bucket_count_pos (n : Nat) : 1 ≤ hash_bucket_count n false := by
  have hsorted : buckets.Pairwise (· < ·) := by decide
  have hlow : ∀ b ∈ buckets, 1 ≤ b := by decide
  obtain ⟨_, _, h3⟩ := hash_bucket_count.loop_spec n buckets 1 hsorted hlow
  simpa [hash_bucket_count] using h3

/-- The hash loop writes to the bucket and chain arrays only: the header
words stay. -/
theorem emitDynNamePools.foldl_hashSymbol_header (hash_func : String → Nat)
    (symtab : Nat → ElfSym) (strtab : Nat → Char) (strtabsize nbucket : Nat)
    (l : List Nat) :
    ∀ (H : Nat → Nat) (w : Nat), w < 2 →
      (l.foldl (emitDynNamePools.hashSymbol hash_func symtab strtab strtabsize nbucket) H) w
        = H w := by
  induction l with
  | nil => intro H w _; rfl
  | cons j l ih =>
    intro H w hw
    rw [List.foldl_cons, ih _ w hw]
    unfold emitDynNamePools.hashSymbol
    rw [Function.update_noteq (by omega), Function.update_noteq (by omega)]

/-- The bucket position of an index is below `nbucket`, so the bucket word
lies before every chain word. When every chain word of the indices of `l`
lies inside the region, the hash loop over `l` is defined and makes the
stores of `hashSymbol`. -/
theorem emitDynNamePools.foldlM_hashSymbolIn_of_fit (hash_func : String → Nat)
    (symtab : Nat → ElfSym) (strtab : Nat → Char) (strtabsize nbucket hash_size : Nat)
    (hnb : 1 ≤ nbucket) (l : List Nat) :
    ∀ (H : Nat → Nat), (∀ j ∈ l, 4 * (2 + nbucket + j + 1) ≤ hash_size) →
      l.foldlM (emitDynNamePools.hashSymbolIn hash_func symtab strtab strtabsize nbucket
          hash_size) H
        = some (l.foldl
            (emitDynNamePools.hashSymbol hash_func symtab strtab strtabsize nbucket) H) := by
  induction l with
  | nil => intro H _; rfl
  | cons j l ih =>
    intro H hfit
    have hj : 4 * (2 + nbucket + j + 1) ≤ hash_size := hfit j (List.mem_cons_self _ _)
    have hpos : hash_func (String.mk (readCStr strtab (symtab j).st_name
        (strtabsize - (symtab j).st_name))) % nbucket < nbucket := Nat.mod_lt _ (by omega)
    have hstep : emitDynNamePools.hashSymbolIn hash_func symtab strtab strtabsize nbucket
        hash_size H j
        = some (emitDynNamePools.hashSymbol hash_func symtab strtab strtabsize nbucket H j) := by
      unfold emitDynNamePools.hashSymbolIn emitDynNamePools.inRegion
      simp only
      rw [if_pos]
      simp only [Bool.and_eq_true, decide_eq_true_eq]
      exact ⟨by omega, by omega⟩
    rw [List.foldlM_cons, hstep, List.foldl_cons]
    exact ih _ (fun k hk => hfit k (List.mem_cons_of_mem _ hk))

/-- When the chain word of an index of `l` lies outside the region, the hash
loop over `l` is not defined. -/
theorem emitDynNamePools.foldlM_hashSymbolIn_outside (hash_func : String → Nat)
    (symtab : Nat → ElfSym) (strtab : Nat → Char) (strtabsize nbucket hash_size : Nat)
    (l : List Nat) :
    ∀ (H : Nat → Nat), (∃ j ∈ l, hash_size < 4 * (2 + nbucket + j + 1)) →
      l.foldlM (emitDynNamePools.hashSymbolIn hash_func symtab strtab strtabsize nbucket
          hash_size) H = none := by
  induction l with
  | nil => intro H h; obtain ⟨j, hj, _⟩ := h; simp at hj
  | cons x l ih =>
    intro H h
    rw [List.foldlM_cons]
    cases hx : emitDynNamePools.hashSymbolIn hash_func symtab strtab strtabsize nbucket
        hash_size H x with
    | none => rfl
    | some H2 =>
      obtain ⟨j, hj, hout⟩ := h
      rcases List.mem_cons.mp hj with rfl | hjl
      · exfalso
        unfold emitDynNamePools.hashSymbolIn emitDynNamePools.inRegion at hx
        simp only at hx
        split_ifs at hx with hc
        simp only [Bool.and_eq_true, decide_eq_true_eq] at hc
        omega
      · exact ih H2 ⟨j, hjl, hout⟩

/-- In a region that holds the header, the bucket array and the chain array
for `symtabIdx` indices, the emission of `.hash` is defined: it is the hash
loop over the region with the header set and `nbucket` bytes cleared. -/
theorem emitDynNamePools.emitHash_of_fit (hash_func : String → Nat)
    (symtab : Nat → ElfSym) (strtab : Nat → Char)
    (strtabsize symtabIdx hash_size : Nat) (word_array : Nat → Nat)
    (hfit : (2 + hash_bucket_count (symtabIdx % 2 ^ 32) false + symtabIdx) * 4 ≤ hash_size) :
    emitDynNamePools.emitHash hash_func symtab strtab strtabsize symtabIdx hash_size
        word_array
      = some ((List.range symtabIdx).foldl
          (emitDynNamePools.hashSymbol hash_func symtab strtab strtabsize
            (hash_bucket_count (symtabIdx % 2 ^ 32) false))
          (bzero (Function.update (Function.update word_array 0
            (hash_bucket_count (symtabIdx % 2 ^ 32) false)) 1 (symtabIdx % 2 ^ 32)) 2
            (hash_bucket_count (symtabIdx % 2 ^ 32) false))) := by
  have hnb := hash_bucket_count_pos (symtabIdx % 2 ^ 32)
  have hclear : emitDynNamePools.clearBuckets symtabIdx hash_size word_array
      = some (bzero (Function.update (Function.update word_array 0
          (hash_bucket_count (symtabIdx % 2 ^ 32) false)) 1 (symtabIdx % 2 ^ 32)) 2
          (hash_bucket_count (symtabIdx % 2 ^ 32) false)) := by
    unfold emitDynNamePools.clearBuckets
    simp only
    rw [if_pos ⟨by omega, by omega⟩]
  unfold emitDynNamePools.emitHash
  rw [hclear]
  simp only
  exact emitDynNamePools.foldlM_hashSymbolIn_of_fit hash_func symtab strtab strtabsize _
    hash_size hnb (List.range symtabIdx) _
    (fun j hj => by rw [List.mem_range] at hj; omega)

/-- In a region that is too small for the header, the bucket array and the
chain array for `symtabIdx` indices, the emission of `.hash` stores outside
the region: it has no defined result. -/
theorem emitDynNamePools.emitHash_outside (hash_func : String → Nat)
    (symtab : Nat → ElfSym) (strtab : Nat → Char)
    (strtabsize symtabIdx hash_size : Nat) (word_array : Nat → Nat)
    (hpos : 1 ≤ symtabIdx)
    (hout : hash_size < (2 + hash_bucket_count (symtabIdx % 2 ^ 32) false + symtabIdx) * 4) :
    emitDynNamePools.emitHash hash_func symtab strtab strtabsize symtabIdx hash_size
        word_array = none := by
  unfold emitDynNamePools.emitHash
  cases emitDynNamePools.clearBuckets symtabIdx hash_size word_array with
  | none => rfl
  | some cleared =>
    simp only
    exact emitDynNamePools.foldlM_hashSymbolIn_outside hash_func symtab strtab strtabsize _
      hash_size (List.range symtabIdx) cleared
      ⟨symtabIdx - 1, by rw [List.mem_range]; omega, by omega⟩

/-- The header of an emitted `.hash`: `nbucket` is the bucket count for
`symtabIdx`, `nchain` is `symtabIdx`. -/
theorem emitDynNamePools.emitHash_header (hash_func : String → Nat)
    (symtab : Nat → ElfSym) (strtab : Nat → Char)
    (strtabsize symtabIdx hash_size : Nat) (word_array H : Nat → Nat)
    (h : emitDynNamePools.emitHash hash_func symtab strtab strtabsize symtabIdx hash_size
      word_array = some H) :
    H 0 = hash_bucket_count (symtabIdx % 2 ^ 32) false ∧ H 1 = symtabIdx % 2 ^ 32 := by
  by_cases hfit : (2 + hash_bucket_count (symtabIdx % 2 ^ 32) false + symtabIdx) * 4
      ≤ hash_size
  · rw [emitDynNamePools.emitHash_of_fit _ _ _ _ _ _ _ hfit] at h
    have hH := (Option.some.inj h).symm
    rw [hH, emitDynNamePools.foldl_hashSymbol_header _ _ _ _ _ _ _ 0 (by omega),
      emitDynNamePools.foldl_hashSymbol_header _ _ _ _ _ _ _ 1 (by omega)]
    simp [bzero]
  · by_cases hpos : 1 ≤ symtabIdx
    · rw [emitDynNamePools.emitHash_outside _ _ _ _ _ _ _ hpos (by omega)] at h
      exact Option.noConfusion h
    · have h0 : symtabIdx = 0 := by omega
      subst h0
      unfold emitDynNamePools.emitHash emitDynNamePools.clearBuckets at h
      simp only at h
      split_ifs at h with hc
      · simp only [List.range_zero, List.foldlM_nil] at h
        have hH := (Option.some.inj h).symm
        rw [hH]
        simp [bzero]

/-- Following the chain `n + 1` times from `s` is following it `n` times from
the successor of `s`. -/
theorem hashWalk_succ_front (H : Nat → Nat) (nb s : Nat) :
    ∀ n, hashWalk H nb s (n + 1) = hashWalk H nb (H (2 + nb + s)) n := by
  intro n
  induction n with
  | zero => rfl
  | succ n ih =>
    show H (2 + nb + hashWalk H nb s (n + 1)) = H (2 + nb + hashWalk H nb (H (2 + nb + s)) n)
    rw [ih]

/-- Two tables that agree on the chain words of the indices below `k` give
the same walk as long as the walk stays below `k`. -/
theorem hashWalk_congr (H H' : Nat → Nat) (nb k s : Nat)
    (hagree : ∀ j, j < k → H' (2 + nb + j) = H (2 + nb + j)) :
    ∀ n, (∀ m, m < n → hashWalk H nb s m < k) →
      ∀ m, m ≤ n → hashWalk H' nb s m = hashWalk H nb s m := by
  intro n hpath m
  induction m with
  | zero => intro _; rfl
  | succ m ih =>
    intro hm
    show H' (2 + nb + hashWalk H' nb s m) = H (2 + nb + hashWalk H nb s m)
    rw [ih (by omega), hagree _ (hpath m (by omega))]

/-- The invariant of the hash loop: after the indices below `k` have been
linked, the walk from the bucket of each of them meets it, and meets before
it only indices that are below `k` and are not 0. -/
theorem emitDynNamePools.foldl_hashSymbol_reach (hash_func : String → Nat)
    (symtab : Nat → ElfSym) (strtab : Nat → Char) (strtabsize nb : Nat) (hnb : 1 ≤ nb)
    (H0 : Nat → Nat) :
    ∀ k, k ≤ 2 ^ 32 → ∀ i, i < k →
      ∃ n,
        hashWalk
            ((List.range k).foldl
              (emitDynNamePools.hashSymbol hash_func symtab strtab strtabsize nb) H0) nb
            (((List.range k).foldl
              (emitDynNamePools.hashSymbol hash_func symtab strtab strtabsize nb) H0)
              (2 + hash_func (String.mk (readCStr strtab (symtab i).st_name
                (strtabsize - (symtab i).st_name))) % nb)) n = i ∧
        ∀ m, m < n →
          hashWalk
            ((List.range k).foldl
              (emitDynNamePools.hashSymbol hash_func symtab strtab strtabsize nb) H0) nb
            (((List.range k).foldl
              (emitDynNamePools.hashSymbol hash_func symtab strtab strtabsize nb) H0)
              (2 + hash_func (String.mk (readCStr strtab (symtab i).st_name
                (strtabsize - (symtab i).st_name))) % nb)) m ≠ 0 ∧
          hashWalk
            ((List.range k).foldl
              (emitDynNamePools.hashSymbol hash_func symtab strtab strtabsize nb) H0) nb
            (((List.range k).foldl
              (emitDynNamePools.hashSymbol hash_func symtab strtab strtabsize nb) H0)
              (2 + hash_func (String.mk (readCStr strtab (symtab i).st_name
                (strtabsize - (symtab i).st_name))) % nb)) m < k := by
  -- the bucket position of an index
  generalize hpos : (fun j => hash_func (String.mk (readCStr strtab (symtab j).st_name
    (strtabsize - (symtab j).st_name))) % nb) = pos
  have hposlt : ∀ j, pos j < nb := by
    intro j; rw [← hpos]; exact Nat.mod_lt _ (by omega)
  have hstep : ∀ (H : Nat → Nat) (j : Nat),
      emitDynNamePools.hashSymbol hash_func symtab strtab strtabsize nb H j
        = Function.update (Function.update H (2 + nb + j) (H (2 + pos j)))
            (2 + pos j) (j % 2 ^ 32) := by
    intro H j; rw [← hpos]; rfl
  have hgoal : ∀ k, k ≤ 2 ^ 32 → ∀ i, i < k →
      ∃ n,
        hashWalk
            ((List.range k).foldl
              (emitDynNamePools.hashSymbol hash_func symtab strtab strtabsize nb) H0) nb
            (((List.range k).foldl
              (emitDynNamePools.hashSymbol hash_func symtab strtab strtabsize nb) H0)
              (2 + pos i)) n = i ∧
        ∀ m, m < n →
          hashWalk
            ((List.range k).foldl
              (emitDynNamePools.hashSymbol hash_func symtab strtab strtabsize nb) H0) nb
            (((List.range k).foldl
              (emitDynNamePools.hashSymbol hash_func symtab strtab strtabsize nb) H0)
              (2 + pos i)) m ≠ 0 ∧
          hashWalk
            ((List.range k).foldl
              (emitDynNamePools.hashSymbol hash_func symtab strtab strtabsize nb) H0) nb
            (((List.range k).foldl
              (emitDynNamePools.hashSymbol hash_func symtab strtab strtabsize nb) H0)
              (2 + pos i)) m < k := by
    intro k
    induction k with
    | zero => intro _ i hi; omega
    | succ k ih =>
      intro hk i hi
      rw [List.range_succ, List.foldl_append, List.foldl_cons, List.foldl_nil]
      generalize (List.range k).foldl
        (emitDynNamePools.hashSymbol hash_func symtab strtab strtabsize nb) H0 = H at ih
      rw [hstep H k, Nat.mod_eq_of_lt (by omega : k < 2 ^ 32)]
      generalize hH' : Function.update (Function.update H (2 + nb + k) (H (2 + pos k)))
        (2 + pos k) k = H'
      have hk1 := hposlt k
      have f1 : ∀ w, w ≠ 2 + pos k → w ≠ 2 + nb + k → H' w = H w := by
        intro w h1 h2
        rw [← hH', Function.update_noteq h1, Function.update_noteq h2]
      have f2 : H' (2 + pos k) = k := by rw [← hH', Function.update_same]
      have f3 : H' (2 + nb + k) = H (2 + pos k) := by
        rw [← hH', Function.update_noteq (by omega), Function.update_same]
      have hagree : ∀ j, j < k → H' (2 + nb + j) = H (2 + nb + j) :=
        fun j hj => f1 _ (by omega) (by omega)
      by_cases hik : i = k
      · subst hik
        rw [f2]
        exact ⟨0, rfl, fun m hm => absurd hm (Nat.not_lt_zero m)⟩
      · have hilt : i < k := by omega
        obtain ⟨n, hn, hpath⟩ := ih (by omega) i hilt
        have hstable := hashWalk_congr H H' nb k (H (2 + pos i)) hagree n
          (fun m hm => (hpath m hm).2)
        by_cases hp : pos i = pos k
        · refine ⟨n + 1, ?_, ?_⟩
          · rw [hp, f2, hashWalk_succ_front, f3, ← hp, hstable n (le_refl n), hn]
          · intro m hm
            rw [hp, f2]
            cases m with
            | zero => exact ⟨by show k ≠ 0; omega, by show k < k + 1; omega⟩
            | succ m =>
              rw [hashWalk_succ_front, f3, ← hp, hstable m (by omega)]
              have := hpath m (by omega)
              exact ⟨this.1, by omega⟩
        · have hi1 := hposlt i
          have hhead : H' (2 + pos i) = H (2 + pos i) := f1 _ (by omega) (by omega)
          refine ⟨n, ?_, ?_⟩
          · rw [hhead, hstable n (le_refl n), hn]
          · intro m hm
            rw [hhead, hstable m (by omega)]
            have := hpath m hm
            exact ⟨this.1, by omega⟩
  subst hpos
  exact hgoal

/-- The shape of the result of `emitDynNamePools` for an Exec or DynObj
output and a supported bit class: the `.hash` region is the emission of the
hash table, in the region of `hash_size` bytes, over the `.dynsym` and
`.dynstr` that the result holds. -/
theorem emitDynNamePools_ok (bitclass : Nat) (pLayout : LDSymbol → Nat)
    (hash_func : String → Nat) (out : Output) (ldinfo : MCLDInfo)
    (symtab0 : Nat → ElfSym) (strtab0 : Nat → Char) (hash0 : Nat → Nat) (hash_size : Nat)
    (hty : out.type = Output.Type.Exec ∨ out.type = Output.Type.DynObj)
    (hbit : bitclass = 32 ∨ bitclass = 64) :
    ∃ pools,
      emitDynNamePools bitclass pLayout hash_func out ldinfo symtab0 strtab0 hash0 hash_size
        = .ok (some pools) ∧
      pools.hash = emitDynNamePools.emitHash hash_func pools.symtab pools.strtab
        pools.strtabsize pools.symtabIdx hash_size hash0 ∧
      pools.symtabIdx = 1 + (dynamicSymbols out out.symbols).length := by
  have hbit2 : 32 = bitclass ∨ 64 = bitclass := by omega
  obtain ⟨a1, _, _, _⟩ := emitDynNamePools.foldl_emitSymbol bitclass pLayout out
    out.symbols
    { symtab := Function.update symtab0 0 ⟨0, 0, 0, 0, 0, 0⟩,
      strtab := Function.update strtab0 0 NUL,
      symtabIdx := 1, strtabsize := 1, needs := [] }
  obtain ⟨_, n2⟩ := emitDynNamePools.foldl_emitNeeded_symtab ldinfo.inputs
    (out.symbols.foldl (emitDynNamePools.emitSymbol bitclass pLayout out)
      { symtab := Function.update symtab0 0 ⟨0, 0, 0, 0, 0, 0⟩,
        strtab := Function.update strtab0 0 NUL,
        symtabIdx := 1, strtabsize := 1, needs := [] })
  unfold emitDynNamePools
  rcases hty with h | h <;> simp only [h, hbit2, if_true] <;>
    exact ⟨_, rfl, rfl, by rw [n2, a1]⟩

/-- In a `.hash` region that holds the table that `emitDynNamePools` emits
(header, bucket array and chain array for the `.dynsym` entries with the zero
entry), for an Exec or DynObj output, with either bit class and any hash
function, for every index `i` of the emitted `.dynsym` the walk that starts at
`bucket[hash(name_i) mod nbucket]` and follows `chain[]` meets `i`, and meets
no index 0 before it. The indices are stored as 32-bit words, so the count of
`.dynsym` entries is taken to be at most `2 ^ 32`. -/
theorem emitDynNamePools_hash_walk_of_fit (bitclass : Nat) (pLayout : LDSymbol → Nat)
    (hash_func : String → Nat) (out : Output) (ldinfo : MCLDInfo)
    (symtab0 : Nat → ElfSym) (strtab0 : Nat → Char) (hash0 : Nat → Nat) (hash_size : Nat)
    (hty : out.type = Output.Type.Exec ∨ out.type = Output.Type.DynObj)
    (hbit : bitclass = 32 ∨ bitclass = 64)
    (hfit : 1 + (dynamicSymbols out out.symbols).length ≤ 2 ^ 32)
    (hsize : (2 + hash_bucket_count ((1 + (dynamicSymbols out out.symbols).length) % 2 ^ 32)
      false + (1 + (dynamicSymbols out out.symbols).length)) * 4 ≤ hash_size) :
    ∃ pools H,
      emitDynNamePools bitclass pLayout hash_func out ldinfo symtab0 strtab0 hash0 hash_size
        = .ok (some pools) ∧
      pools.hash = some H ∧
      pools.symtabIdx = 1 + (dynamicSymbols out out.symbols).length ∧
      ∀ i, i < pools.symtabIdx →
        ∃ n, ElfHash.walk H
            (ElfHash.bucket H (hash_func (pools.name i) % ElfHash.nbucket H)) n = i ∧
          ∀ m, m < n →
            ElfHash.walk H
              (ElfHash.bucket H (hash_func (pools.name i) % ElfHash.nbucket H)) m ≠ 0 := by
  obtain ⟨pools, h1, h2, h3⟩ := emitDynNamePools_ok bitclass pLayout hash_func out ldinfo
    symtab0 strtab0 hash0 hash_size hty hbit
  rw [← h3] at hsize
  rw [emitDynNamePools.emitHash_of_fit _ _ _ _ _ _ _ hsize] at h2
  refine ⟨pools, _, h1, h2, h3, ?_⟩
  intro i hi
  obtain ⟨n, hn, hpath⟩ := emitDynNamePools.foldl_hashSymbol_reach hash_func pools.symtab
    pools.strtab pools.strtabsize (hash_bucket_count (pools.symtabIdx % 2 ^ 32) false)
    (hash_bucket_count_pos _)
    (bzero (Function.update (Function.update hash0 0
      (hash_bucket_count (pools.symtabIdx % 2 ^ 32) false)) 1 (pools.symtabIdx % 2 ^ 32)) 2
      (hash_bucket_count (pools.symtabIdx % 2 ^ 32) false))
    pools.symtabIdx (by omega) i hi
  generalize hH : (List.range pools.symtabIdx).foldl
      (emitDynNamePools.hashSymbol hash_func pools.symtab pools.strtab pools.strtabsize
        (hash_bucket_count (pools.symtabIdx % 2 ^ 32) false))
      (bzero (Function.update (Function.update hash0 0
        (hash_bucket_count (pools.symtabIdx % 2 ^ 32) false)) 1 (pools.symtabIdx % 2 ^ 32)) 2
        (hash_bucket_count (pools.symtabIdx % 2 ^ 32) false)) = H at hn hpath h2
  have hnb : H 0 = hash_bucket_count (pools.symtabIdx % 2 ^ 32) false := by
    rw [← hH, emitDynNamePools.foldl_hashSymbol_header _ _ _ _ _ _ _ 0 (by omega)]
    simp [bzero]
  unfold ElfHash.walk ElfHash.bucket ElfHash.nbucket DynNamePools.name
  rw [hnb]
  exact ⟨n, hn, fun m hm => (hpath m hm).1⟩

/-- The size that `sizeNamePools` sets for `.hash` is at least one word short
of the table that `emitDynNamePools` emits: the size is taken for the dynamic
symbols alone, the table is emitted for them and the zero entry. In a region
of the reserved size, or smaller, the emission stores outside the region and
leaves no defined table. -/
theorem emitDynNamePools_hash_exceeds_reserved (bitclass : Nat) (pLayout : LDSymbol → Nat)
    (hash_func : String → Nat) (out : Output) (ldinfo : MCLDInfo)
    (symtab0 : Nat → ElfSym) (strtab0 : Nat → Char) (hash0 : Nat → Nat) (hash_size : Nat)
    (hty : out.type = Output.Type.Exec ∨ out.type = Output.Type.DynObj)
    (hbit : bitclass = 32 ∨ bitclass = 64)
    (hfit : 1 + (dynamicSymbols out out.symbols).length < 2 ^ 32) :
    ∃ sizes pools, sizeNamePools bitclass out ldinfo = some sizes ∧
      emitDynNamePools bitclass pLayout hash_func out ldinfo symtab0 strtab0 hash0 hash_size
        = .ok (some pools) ∧
      sizes.hash + 4
        ≤ (2 + hash_bucket_count (pools.symtabIdx % 2 ^ 32) false + pools.symtabIdx) * 4 ∧
      (hash_size ≤ sizes.hash → pools.hash = none) := by
  obtain ⟨pools, h1, h2, h3⟩ := emitDynNamePools_ok bitclass pLayout hash_func out ldinfo
    symtab0 strtab0 hash0 hash_size hty hbit
  have hc := sizeNamePools.foldl_countSymbol out out.symbols
    { symtab := 0, dynsym := 1, strtab := 0, dynstr := 1 }
  have hsize : ∃ sizes, sizeNamePools bitclass out ldinfo = some sizes ∧
      sizes.hash = (2 + hash_bucket_count (dynamicSymbols out out.symbols).length false
        + (dynamicSymbols out out.symbols).length) * 4 := by
    unfold sizeNamePools sizeNamePools.countSymbols
    rw [hc]
    have hmod : (dynamicSymbols out out.symbols).length % 2 ^ 32
        = (dynamicSymbols out out.symbols).length := Nat.mod_eq_of_lt (by omega)
    rcases hty with h | h <;>
      simp only [h, ELF.sizeof_Elf32_Word, Nat.add_sub_cancel_left, hmod] <;>
      exact ⟨_, rfl, rfl⟩
  obtain ⟨sizes, s1, s2⟩ := hsize
  have hmono := hash_bucket_count_mono (dynamicSymbols out out.symbols).length
  have hmod2 : pools.symtabIdx % 2 ^ 32 = (dynamicSymbols out out.symbols).length + 1 := by
    rw [h3]
    exact Nat.mod_eq_of_lt (by omega) |>.trans (Nat.add_comm _ _)
  have hle : sizes.hash + 4
      ≤ (2 + hash_bucket_count (pools.symtabIdx % 2 ^ 32) false + pools.symtabIdx) * 4 := by
    rw [s2, hmod2, h3]
    omega
  refine ⟨sizes, pools, s1, h1, hle, ?_⟩
  intro hsmall
  rw [h2]
  exact emitDynNamePools.emitHash_outside _ _ _ _ _ _ _ (by omega) (by omega)

/-- C14 at an input where the code departs from it: for the shared object of
the examples (three dynamic symbols) `sizeNamePools` sets 32 bytes for
`.hash`, `(2 + 3 + 3) * 4`, while `emitDynNamePools` emits `nbucket = 3` and
`nchain = 4`, a table of `(2 + 3 + 4) * 4 = 36` bytes: in a region of 36 bytes
the last chain word, word 8, is written, and in the region of the 32 reserved
bytes that store lies outside the region and no table results. -/
theorem emitDynNamePools_hash_size_mismatch :
    (sizeNamePools 32 Example.lib Example.info).map (fun z => z.hash) = some 32 ∧
    ((emitDynNamePools 32 (fun _ => 1) (fun _ => 0) Example.lib Example.info
        (fun _ => ⟨7, 7, 7, 7, 7, 7⟩) (fun _ => Char.ofNat 120)
        (fun _ => 3735928559) 36).toOption.join.bind (fun p => p.hash)).map
      (fun H => (ElfHash.nbucket H, ElfHash.nchain H, ElfHash.tableSize H, H 8))
      = some (3, 4, 36, 2) ∧
    (emitDynNamePools 32 (fun _ => 1) (fun _ => 0) Example.lib Example.info
        (fun _ => ⟨7, 7, 7, 7, 7, 7⟩) (fun _ => Char.ofNat 120)
        (fun _ => 3735928559) 32).toOption.join.map
      (fun p => (p.symtabIdx, p.hash.isSome))
      = some (4, false) := by
  refine ⟨by decide, by decide, by decide⟩

/-- C15 at an input where the code departs from it: for the shared object of
the examples (three dynamic symbols, so four `.dynsym` entries) and the hash
function that takes the length of the name, `sizeNamePools` reserves 32 bytes,
8 words, for `.hash`; the table has `nbucket = 3`, so `chain[]` starts at word
5 and `chain[3]` is word 8: the hash loop stores it outside the region, and
the emission leaves no defined table in which a walk could be followed. In a
region of 36 bytes, which holds the table, the table is emitted and the walk
from the bucket of each of the four entries meets it. -/
theorem emitDynNamePools_hash_chain_outside_region :
    (sizeNamePools 32 Example.lib Example.info).map (fun z => z.hash) = some 32 ∧
    hash_bucket_count (4 % 2 ^ 32) false = 3 ∧
    emitDynNamePools.inRegion 32 (2 + 3 + 3) = false ∧
    (emitDynNamePools 32 (fun _ => 1) (fun s => s.length) Example.lib Example.info
        (fun _ => ⟨7, 7, 7, 7, 7, 7⟩) (fun _ => Char.ofNat 120) (fun _ => 9)
        32).toOption.join.map
      (fun p => (p.symtabIdx, p.hash.isSome))
      = some (4, false) ∧
    ∃ pools H,
      emitDynNamePools 32 (fun _ => 1) (fun s => s.length) Example.lib Example.info
        (fun _ => ⟨7, 7, 7, 7, 7, 7⟩) (fun _ => Char.ofNat 120) (fun _ => 9) 36
        = .ok (some pools) ∧
      pools.hash = some H ∧
      ∀ i, i < 4 →
        ∃ n, ElfHash.walk H
            (ElfHash.bucket H ((pools.name i).length % ElfHash.nbucket H)) n = i ∧
          ∀ m, m < n →
            ElfHash.walk H
              (ElfHash.bucket H ((pools.name i).length % ElfHash.nbucket H)) m ≠ 0 := by
  refine ⟨by decide, by decide, by decide, by decide, ?_⟩
  obtain ⟨pools, H, h1, h2, h3, h4⟩ := emitDynNamePools_hash_walk_of_fit 32 (fun _ => 1)
    (fun s => s.length) Example.lib Example.info (fun _ => ⟨7, 7, 7, 7, 7, 7⟩)
    (fun _ => Char.ofNat 120) (fun _ => 9) 36 (Or.inr rfl) (Or.inl rfl) (by decide)
    (by decide)
  have hidx : pools.symtabIdx = 4 := by rw [h3]; decide
  rw [hidx] at h4
  exact ⟨pools, H, h1, h2, h4⟩

/-- C16 at an input where the code departs from it: for the shared object of
the examples, with a hash function that sends every name to bucket 0 and a
region that holds `0xdeadbeef` in every word, `nbucket` is 3 and
`bzero(bucket, nbucket)` clears 3 bytes, inside the region of the 32 reserved
bytes: after it the three bucket words are `0xde000000`, `0xdeadbeef`,
`0xdeadbeef`. In the table emitted in a region of 36 bytes, which holds it,
the buckets 1 and 2, to which no symbol hashes, read `0xdeadbeef`. -/
theorem emitDynNamePools_buckets_not_cleared :
    hash_bucket_count 4 false = 3 ∧
    [2, 3, 4].map (bzero (fun _ => 3735928559) 2 3)
      = [3724541952, 3735928559, 3735928559] ∧
    (emitDynNamePools.clearBuckets 4 32 (fun _ => 3735928559)).map
      (fun H => [2, 3, 4].map H)
      = some [3724541952, 3735928559, 3735928559] ∧
    ((emitDynNamePools 32 (fun _ => 1) (fun _ => 0) Example.lib Example.info
        (fun _ => ⟨7, 7, 7, 7, 7, 7⟩) (fun _ => Char.ofNat 120)
        (fun _ => 3735928559) 36).toOption.join.bind
      (fun p => p.hash.map (fun H => (ElfHash.nbucket H, p.symtabIdx, ElfHash.bucket H 0,
        ElfHash.bucket H 1, ElfHash.bucket H 2))))
      = some (3, 4, 3, 3735928559, 3735928559) := by
  refine ⟨by decide, by decide, by decide, by decide⟩

/-! ### Program headers: the section loop -/

theorem ELFSegmentFactory.modify_last (f : ELFSegment → ELFSegment) (seg : ELFSegment) :
    ∀ init : List ELFSegment,
      ELFSegmentFactory.modify f (init ++ [seg]) init.length = init ++ [f seg] := by
  intro init
  induction init with
  | nil => rfl
  | cons x init ih => simp [ELFSegmentFactory.modify, ih]

theorem createProgramHdrs.isPlaced_iff (sect : LDSection) :
    createProgramHdrs.isPlaced sect = true ↔
      ¬ ((sect.flag &&& ELF.SHF_ALLOC) = 0 ∧ LDFileFormat.Kind.Null ≠ sect.kind) := by
  unfold createProgramHdrs.isPlaced
  by_cases h1 : (sect.flag &&& ELF.SHF_ALLOC) = 0 <;>
    by_cases h2 : LDFileFormat.Kind.Null = sect.kind <;> simp [h1, h2]

/-- A section that is not placed leaves the state of the loop as it is. -/
theorem createProgramHdrs.placeSection_skip (B : GNULDBackend)
    (st : createProgramHdrs.State) (i : Nat) (sect : LDSection)
    (h : createProgramHdrs.isPlaced sect = false) :
    createProgramHdrs.placeSection B st i sect = some st := by
  unfold createProgramHdrs.isPlaced at h
  have h' : (sect.flag &&& ELF.SHF_ALLOC) = 0 ∧ LDFileFormat.Kind.Null ≠ sect.kind := by
    simpa using h
  unfold createProgramHdrs.placeSection
  rw [if_pos h']

/-- A placed section that opens a segment: a new `PT_LOAD` holding the section
is added to the factory and becomes the current one; the padding is set from
the offset of the section, and the address of the section from both. -/
theorem createProgramHdrs.placeSection_open (B : GNULDBackend)
    (st : createProgramHdrs.State) (i : Nat) (sect : LDSection)
    (hp : createProgramHdrs.isPlaced sect = true)
    (ho : createProgramHdrs.opensSegment B st.prev_seg_flag sect = true) :
    ∃ stn : createProgramHdrs.State,
      createProgramHdrs.placeSection B st i sect = some stn ∧
      stn.factory = st.factory ++
        [(({ ELFSegment.new ELF.PT_LOAD ELFSegment.defaultFlag with
             align := B.pagesize }).addSection i).updateFlag (B.getSegmentFlag sect.flag)] ∧
      stn.sections
        = st.sections.set i { sect with addr := (sect.offset + stn.padding) % 2 ^ 64 } ∧
      stn.padding =
        (if (sect.offset &&& ((B.pagesize + 2 ^ 64 - 1) % 2 ^ 64)) ≠ 0 then B.pagesize
         else 0) ∧
      stn.prev_seg_flag = B.getSegmentFlag sect.flag ∧
      stn.load_seg = some st.factory.length := by
  have hp' : ¬ ((sect.flag &&& ELF.SHF_ALLOC) = 0 ∧ LDFileFormat.Kind.Null ≠ sect.kind) :=
    (createProgramHdrs.isPlaced_iff sect).mp hp
  unfold createProgramHdrs.opensSegment at ho
  have ho' : ((st.prev_seg_flag &&& ELF.PF_W) ^^^ (B.getSegmentFlag sect.flag &&& ELF.PF_W)) ≠ 0
      ∨ LDFileFormat.Kind.Null = sect.kind := by
    simpa using ho
  unfold createProgramHdrs.placeSection
  rw [if_neg hp']
  simp only [if_pos ho', ELFSegmentFactory.modify_last]
  exact ⟨_, rfl, rfl, rfl, rfl, rfl, rfl⟩

/-- A placed section that does not open a segment goes into the current
segment, when there is one, and takes the padding of that segment. -/
theorem createProgramHdrs.placeSection_current (B : GNULDBackend)
    (st : createProgramHdrs.State) (i k : Nat) (sect : LDSection)
    (hp : createProgramHdrs.isPlaced sect = true)
    (ho : createProgramHdrs.opensSegment B st.prev_seg_flag sect = false)
    (hk : st.load_seg = some k) :
    ∃ stn : createProgramHdrs.State,
      createProgramHdrs.placeSection B st i sect = some stn ∧
      stn.factory = ELFSegmentFactory.modify
        (fun seg => (seg.addSection i).updateFlag (B.getSegmentFlag sect.flag))
        st.factory k ∧
      stn.sections
        = st.sections.set i { sect with addr := (sect.offset + st.padding) % 2 ^ 64 } ∧
      stn.padding = st.padding ∧
      stn.prev_seg_flag = B.getSegmentFlag sect.flag ∧
      stn.load_seg = some k := by
  have hp' : ¬ ((sect.flag &&& ELF.SHF_ALLOC) = 0 ∧ LDFileFormat.Kind.Null ≠ sect.kind) :=
    (createProgramHdrs.isPlaced_iff sect).mp hp
  unfold createProgramHdrs.opensSegment at ho
  have ho' : ¬ (((st.prev_seg_flag &&& ELF.PF_W) ^^^
      (B.getSegmentFlag sect.flag &&& ELF.PF_W)) ≠ 0 ∨ LDFileFormat.Kind.Null = sect.kind) := by
    simpa using ho
  unfold createProgramHdrs.placeSection
  rw [if_neg hp']
  simp only [if_neg ho', hk]
  exact ⟨_, rfl, rfl, rfl, rfl, rfl, rfl⟩

/-- A placed section that does not open a segment while there is no current
segment: `load_seg` is used without a value. -/
theorem createProgramHdrs.placeSection_undefined (B : GNULDBackend)
    (st : createProgramHdrs.State) (i : Nat) (sect : LDSection)
    (hp : createProgramHdrs.isPlaced sect = true)
    (ho : createProgramHdrs.opensSegment B st.prev_seg_flag sect = false)
    (hk : st.load_seg = none) :
    createProgramHdrs.placeSection B st i sect = none := by
  have hp' : ¬ ((sect.flag &&& ELF.SHF_ALLOC) = 0 ∧ LDFileFormat.Kind.Null ≠ sect.kind) :=
    (createProgramHdrs.isPlaced_iff sect).mp hp
  unfold createProgramHdrs.opensSegment at ho
  have ho' : ¬ (((st.prev_seg_flag &&& ELF.PF_W) ^^^
      (B.getSegmentFlag sect.flag &&& ELF.PF_W)) ≠ 0 ∨ LDFileFormat.Kind.Null = sect.kind) := by
    simpa using ho
  unfold createProgramHdrs.placeSection
  rw [if_neg hp']
  simp only [if_neg ho', hk]

theorem drop_set_succ {α : Type} (l : List α) (i : Nat) (x : α) :
    (l.set i x).drop (i + 1) = l.drop (i + 1) := by
  apply List.ext_getElem?
  intro j
  rw [List.getElem?_drop, List.getElem?_drop, List.getElem?_set_ne (by omega)]

theorem map_set_of_eq {α β : Type} (g : α → β) (l : List α) (i : Nat) (s x : α)
    (hs : l[i]? = some s) (hg : g x = g s) : (l.set i x).map g = l.map g := by
  apply List.ext_getElem?
  intro j
  rw [List.map_set, List.getElem?_set']
  by_cases hij : i = j
  · subst hij
    simp [hs, hg]
  · simp [hij]

theorem drop_eq_cons {α : Type} {l : List α} {i : Nat} {x : α} {rest : List α}
    (h : l.drop i = x :: rest) : i < l.length ∧ l[i]? = some x ∧ l.drop (i + 1) = rest := by
  have hlt : i < l.length := by
    by_contra hge
    rw [List.drop_eq_nil_of_le (by omega)] at h
    exact List.noConfusion h
  rw [List.drop_eq_getElem_cons hlt] at h
  obtain ⟨h1, h2⟩ := List.cons.inj h
  exact ⟨hlt, by rw [List.getElem?_eq_getElem hlt, h1], h2⟩

theorem createProgramHdrs.loadSections_append (a b : List ELFSegment) :
    createProgramHdrs.loadSections (a ++ b)
      = createProgramHdrs.loadSections a ++ createProgramHdrs.loadSections b := by
  induction a with
  | nil => rfl
  | cons x a ih =>
    simp only [List.cons_append, createProgramHdrs.loadSections]
    split_ifs <;> simp [ih]

/-- The section loop of `createProgramHdrs`, started in a state that has a
current segment or from which it is defined, runs to its end. It keeps the
segments that were there before it, adds `PT_LOAD` segments that hold, taken
together and in order, the positions of the placed sections, and changes
nothing in the section table but addresses. -/
theorem createProgramHdrs.loadLoop_spec (B : GNULDBackend) (base : List ELFSegment)
    (n : Nat) :
    ∀ (rest : List LDSection) (i : Nat) (st : createProgramHdrs.State)
      (loads : List ELFSegment),
      createProgramHdrs.LoadInv base n st loads →
      st.sections.drop i = rest →
      (st.load_seg ≠ none ∨
        createProgramHdrs.isDefinedFrom B st.prev_seg_flag rest = true) →
      ∃ (st' : createProgramHdrs.State) (loads' : List ELFSegment),
        createProgramHdrs.loadLoop B i rest st = some st' ∧
        createProgramHdrs.LoadInv base n st' loads' ∧
        createProgramHdrs.loadSections loads'
          = createProgramHdrs.loadSections loads ++ createProgramHdrs.placedFrom i rest ∧
        st'.sections.map (fun s => { s with addr := 0 })
          = st.sections.map (fun s => { s with addr := 0 }) := by
  intro rest
  induction rest with
  | nil =>
    intro i st loads hinv _ _
    exact ⟨st, loads, rfl, hinv, by simp [createProgramHdrs.placedFrom], rfl⟩
  | cons sect rest ih =>
    intro i st loads hinv hdrop hdef
    obtain ⟨hlt, hget, hdrop'⟩ := drop_eq_cons hdrop
    have hin : i < n := by rw [← hinv.length_eq]; exact hlt
    cases hp : createProgramHdrs.isPlaced sect with
    | false =>
      -- the section is skipped
      have hdef' : st.load_seg ≠ none ∨
          createProgramHdrs.isDefinedFrom B st.prev_seg_flag rest = true := by
        rcases hdef with h | h
        · exact Or.inl h
        · right
          unfold createProgramHdrs.isDefinedFrom at h ⊢
          rwa [List.find?_cons_of_neg _ (by simp [hp])] at h
      obtain ⟨st', loads', h1, h2, h3, h4⟩ := ih (i + 1) st loads hinv hdrop' hdef'
      refine ⟨st', loads', ?_, h2, ?_, h4⟩
      · simp only [createProgramHdrs.loadLoop,
          createProgramHdrs.placeSection_skip B st i sect hp, h1]
      · rw [h3]; simp [createProgramHdrs.placedFrom, hp]
    | true =>
      cases ho : createProgramHdrs.opensSegment B st.prev_seg_flag sect with
      | true =>
        -- a new PT_LOAD
        obtain ⟨stn, hstep, hfac, hsecs, _, _, hload⟩ :=
          createProgramHdrs.placeSection_open B st i sect hp ho
        generalize hseg : (({ ELFSegment.new ELF.PT_LOAD ELFSegment.defaultFlag with
            align := B.pagesize }).addSection i).updateFlag (B.getSegmentFlag sect.flag)
            = newseg at hfac
        have hty : newseg.type = ELF.PT_LOAD := by rw [← hseg]; rfl
        have hsec : newseg.sections = [i] := by rw [← hseg]; rfl
        have hinv' : createProgramHdrs.LoadInv base n stn (loads ++ [newseg]) := by
          refine ⟨?_, ?_, ?_, ?_, ?_, ?_⟩
          · rw [hfac, hinv.factory_eq, List.append_assoc]
          · intro seg hs
            rcases List.mem_append.mp hs with h | h
            · exact hinv.all_load seg h
            · rw [List.mem_singleton.mp h]; exact hty
          · intro seg hs
            rcases List.mem_append.mp hs with h | h
            · exact hinv.nonempty seg h
            · rw [List.mem_singleton.mp h, hsec]; simp
          · intro seg hs idx hidx
            rcases List.mem_append.mp hs with h | h
            · exact hinv.valid seg h idx hidx
            · rw [List.mem_singleton.mp h, hsec] at hidx
              rw [List.mem_singleton.mp hidx]; exact hin
          · right
            exact ⟨loads, newseg, rfl, by rw [hload, hinv.factory_eq, List.length_append]⟩
          · rw [hsecs, List.length_set, hinv.length_eq]
        have hdropn : stn.sections.drop (i + 1) = rest := by
          rw [hsecs, drop_set_succ, hdrop']
        have hdefn : stn.load_seg ≠ none ∨
            createProgramHdrs.isDefinedFrom B stn.prev_seg_flag rest = true := by
          left; rw [hload]; simp
        obtain ⟨st', loads', h1, h2, h3, h4⟩ :=
          ih (i + 1) stn (loads ++ [newseg]) hinv' hdropn hdefn
        refine ⟨st', loads', ?_, h2, ?_, ?_⟩
        · simp only [createProgramHdrs.loadLoop, hstep, h1]
        · rw [h3, createProgramHdrs.loadSections_append]
          simp [createProgramHdrs.loadSections, createProgramHdrs.placedFrom, hp, hty, hsec]
        · rw [h4, hsecs]
          exact map_set_of_eq _ _ i sect _ hget rfl
      | false =>
        -- the current PT_LOAD
        have hcur : ∃ init seg, loads = init ++ [seg] ∧
            st.load_seg = some (base.length + init.length) := by
          rcases hinv.current with ⟨hnone, _⟩ | h
          · exfalso
            rcases hdef with h | h
            · exact h hnone
            · unfold createProgramHdrs.isDefinedFrom at h
              rw [List.find?_cons_of_pos _ (by simp [hp])] at h
              simp only at h
              rw [ho] at h
              exact Bool.noConfusion h
          · exact h
        obtain ⟨init, seg, hloads, hk⟩ := hcur
        obtain ⟨stn, hstep, hfac, hsecs, _, _, hload⟩ :=
          createProgramHdrs.placeSection_current B st i _ sect hp ho hk
        have hfac0 : st.factory = (base ++ init) ++ [seg] := by
          rw [hinv.factory_eq, hloads, List.append_assoc]
        rw [hfac0, ← List.length_append, ELFSegmentFactory.modify_last] at hfac
        generalize hseg : (seg.addSection i).updateFlag (B.getSegmentFlag sect.flag)
          = newseg at hfac
        have hty : newseg.type = seg.type := by rw [← hseg]; rfl
        have hsec : newseg.sections = seg.sections ++ [i] := by rw [← hseg]; rfl
        have hsegmem : seg ∈ loads := by rw [hloads]; simp
        have hinv' : createProgramHdrs.LoadInv base n stn (init ++ [newseg]) := by
          refine ⟨?_, ?_, ?_, ?_, ?_, ?_⟩
          · rw [hfac, List.append_assoc]
          · intro s hs
            rcases List.mem_append.mp hs with h | h
            · exact hinv.all_load s (by rw [hloads]; exact List.mem_append_left _ h)
            · rw [List.mem_singleton.mp h, hty]; exact hinv.all_load seg hsegmem
          · intro s hs
            rcases List.mem_append.mp hs with h | h
            · exact hinv.nonempty s (by rw [hloads]; exact List.mem_append_left _ h)
            · rw [List.mem_singleton.mp h, hsec]; simp
          · intro s hs idx hidx
            rcases List.mem_append.mp hs with h | h
            · exact hinv.valid s (by rw [hloads]; exact List.mem_append_left _ h) idx hidx
            · rw [List.mem_singleton.mp h, hsec] at hidx
              rcases List.mem_append.mp hidx with h' | h'
              · exact hinv.valid seg hsegmem idx h'
              · rw [List.mem_singleton.mp h']; exact hin
          · right
            exact ⟨init, newseg, rfl, hload⟩
          · rw [hsecs, List.length_set, hinv.length_eq]
        have hdropn : stn.sections.drop (i + 1) = rest := by
          rw [hsecs, drop_set_succ, hdrop']
        have hdefn : stn.load_seg ≠ none ∨
            createProgramHdrs.isDefinedFrom B stn.prev_seg_flag rest = true := by
          left; rw [hload]; simp
        obtain ⟨st', loads', h1, h2, h3, h4⟩ :=
          ih (i + 1) stn (init ++ [newseg]) hinv' hdropn hdefn
        refine ⟨st', loads', ?_, h2, ?_, ?_⟩
        · simp only [createProgramHdrs.loadLoop, hstep, h1]
        · rw [h3, hloads, createProgramHdrs.loadSections_append,
            createProgramHdrs.loadSections_append]
          have hsegty : seg.type = ELF.PT_LOAD := hinv.all_load seg hsegmem
          simp [createProgramHdrs.loadSections, createProgramHdrs.placedFrom, hp, hty,
            hsec, hsegty]
        · rw [h4, hsecs]
          exact map_set_of_eq _ _ i sect _ hget rfl

/-! ### Program headers: the update pass -/

/-- What the update of one segment keeps and what it sets. -/
theorem createProgramHdrs.updateSegment_spec (B : GNULDBackend) (sections : List LDSection)
    (b b' : Bool) (seg seg' : ELFSegment)
    (h : createProgramHdrs.updateSegment B sections b seg = some (seg', b')) :
    seg'.type = seg.type ∧ seg'.flag = seg.flag ∧ seg'.sections = seg.sections ∧
    (seg.type = ELF.PT_PHDR → seg'.align = B.bitclass / 8) ∧
    (seg.type ≠ ELF.PT_PHDR → seg'.align = seg.align) ∧
    b' = (b && !decide (seg.type = ELF.PT_LOAD)) ∧
    (seg.type ≠ ELF.PT_PHDR →
      ∃ first last, seg.getFirstSection sections = some first ∧
        seg.getLastSection sections = some last ∧
        seg'.offset = first.offset ∧ seg'.vaddr = first.addr ∧ seg'.paddr = first.addr ∧
        seg'.memsz = sub64 (last.addr + last.size) first.addr ∧
        seg'.filesz =
          if seg.type = ELF.PT_LOAD ∧ b = true then sub64 (last.addr + last.size) first.addr
          else createProgramHdrs.fileSize sections seg.sections) := by
  unfold createProgramHdrs.updateSegment at h
  by_cases hph : ELF.PT_PHDR = seg.type
  · rw [if_pos hph] at h
    simp only [Option.some.injEq, Prod.mk.injEq] at h
    obtain ⟨rfl, rfl⟩ := h
    have hne : ¬ seg.type = ELF.PT_LOAD := by rw [← hph]; decide
    refine ⟨rfl, rfl, rfl, fun _ => rfl, fun hn => absurd hph.symm hn, ?_, fun hn => absurd hph.symm hn⟩
    simp [hne]
  · rw [if_neg hph] at h
    cases hf : seg.getFirstSection sections with
    | none => simp [hf] at h
    | some first =>
      cases hl : seg.getLastSection sections with
      | none => simp [hf, hl] at h
      | some last =>
        simp only [hf, hl, Option.some.injEq, Prod.mk.injEq] at h
        obtain ⟨rfl, rfl⟩ := h
        refine ⟨rfl, rfl, rfl, fun hp => absurd hp.symm hph, fun _ => rfl, ?_, ?_⟩
        · by_cases hld : seg.type = ELF.PT_LOAD
          · cases b <;> simp [hld]
          · have hld' : ¬ ELF.PT_LOAD = seg.type := fun e => hld e.symm
            simp [hld, hld']
        · intro _
          refine ⟨first, last, rfl, rfl, rfl, rfl, rfl, rfl, ?_⟩
          by_cases hld : seg.type = ELF.PT_LOAD
          · cases b <;> simp [hld]
          · have hld' : ¬ ELF.PT_LOAD = seg.type := fun e => hld e.symm
            simp [hld, hld']

/-- An updatable segment is updated. -/
theorem createProgramHdrs.updateSegment_some (B : GNULDBackend) (sections : List LDSection)
    (b : Bool) (seg : ELFSegment)
    (h : createProgramHdrs.Updatable sections.length seg) :
    ∃ r, createProgramHdrs.updateSegment B sections b seg = some r := by
  unfold createProgramHdrs.updateSegment
  by_cases hph : ELF.PT_PHDR = seg.type
  · rw [if_pos hph]; exact ⟨_, rfl⟩
  · rw [if_neg hph]
    rcases h with h | ⟨hne, hvalid⟩
    · exact absurd h.symm hph
    · obtain ⟨i, hi⟩ : ∃ i, seg.sections.head? = some i := by
        cases hs : seg.sections with
        | nil => exact absurd hs hne
        | cons x _ => exact ⟨x, rfl⟩
      obtain ⟨j, hj⟩ : ∃ j, seg.sections.getLast? = some j := by
        cases hs : seg.sections.getLast? with
        | none => exact absurd (List.getLast?_eq_none_iff.mp hs) hne
        | some j => exact ⟨j, rfl⟩
      have hi' : i < sections.length := hvalid i (List.mem_of_mem_head? hi)
      have hj' : j < sections.length := hvalid j (List.mem_of_mem_getLast? hj)
      simp only [ELFSegment.getFirstSection, ELFSegment.getLastSection, hi, hj,
        List.getElem?_eq_getElem hi', List.getElem?_eq_getElem hj']
      exact ⟨_, rfl⟩

/-- The update pass over updatable segments runs to its end. -/
theorem createProgramHdrs.updateLoop_some (B : GNULDBackend) (sections : List LDSection) :
    ∀ (segs : List ELFSegment) (b : Bool),
      (∀ seg ∈ segs, createProgramHdrs.Updatable sections.length seg) →
      ∃ segs', createProgramHdrs.updateLoop B sections b segs = some segs' := by
  intro segs
  induction segs with
  | nil => intro b _; exact ⟨[], rfl⟩
  | cons seg rest ih =>
    intro b h
    obtain ⟨⟨seg', b'⟩, hr⟩ := createProgramHdrs.updateSegment_some B sections b seg
      (h seg (List.mem_cons_self _ _))
    obtain ⟨rest', hrest⟩ := ih b' (fun s hs => h s (List.mem_cons_of_mem _ hs))
    exact ⟨seg' :: rest', by simp [createProgramHdrs.updateLoop, hr, hrest]⟩

/-- The update pass updates the segment at each position with the flag
`is_first_pt_load` that the segments before it leave: true until a `PT_LOAD`
has been met. -/
theorem createProgramHdrs.updateLoop_spec (B : GNULDBackend) (sections : List LDSection) :
    ∀ (segs segs' : List ELFSegment) (b : Bool),
      createProgramHdrs.updateLoop B sections b segs = some segs' →
      segs'.length = segs.length ∧
      ∀ (k : Nat) (seg' : ELFSegment), segs'[k]? = some seg' →
        ∃ seg b', segs[k]? = some seg ∧
          createProgramHdrs.updateSegment B sections
            (b && (segs.take k).all (fun s => !decide (s.type = ELF.PT_LOAD))) seg
            = some (seg', b') := by
  intro segs
  induction segs with
  | nil =>
    intro segs' b h
    simp only [createProgramHdrs.updateLoop, Option.some.injEq] at h
    subst h
    exact ⟨rfl, fun k seg' hk => by simp at hk⟩
  | cons seg rest ih =>
    intro segs' b h
    unfold createProgramHdrs.updateLoop at h
    cases hr : createProgramHdrs.updateSegment B sections b seg with
    | none => simp [hr] at h
    | some r =>
      obtain ⟨s1, b1⟩ := r
      simp only [hr, Option.map_eq_some'] at h
      obtain ⟨rest', hrest, rfl⟩ := h
      obtain ⟨hlen, hall⟩ := ih rest' b1 hrest
      have hb1 := (createProgramHdrs.updateSegment_spec B sections b b1 seg s1 hr).2.2.2.2.2.1
      refine ⟨by simp [hlen], ?_⟩
      intro k seg' hk
      cases k with
      | zero =>
        simp only [List.getElem?_cons_zero, Option.some.injEq] at hk
        subst hk
        exact ⟨seg, b1, by simp, by simpa using hr⟩
      | succ k =>
        simp only [List.getElem?_cons_succ] at hk
        obtain ⟨sg, b', h1, h2⟩ := hall k seg' hk
        refine ⟨sg, b', by simpa using h1, ?_⟩
        rw [hb1] at h2
        simpa [List.take_succ_cons, List.all_cons, Bool.and_assoc] using h2

/-! ### Program headers: `createProgramHdrs` as a whole -/

theorem LDContext.getSection_some {pName : String} :
    ∀ {sections : List LDSection} {i : Nat},
      LDContext.getSection pName sections = some i →
        i < sections.length ∧ ∃ s, sections[i]? = some s ∧ s.name = pName := by
  intro sections
  induction sections with
  | nil => intro i h; simp [LDContext.getSection] at h
  | cons x rest ih =>
    intro i h
    unfold LDContext.getSection at h
    by_cases hx : x.name = pName
    · simp only [hx, if_true, Option.some.injEq] at h
      subst h
      exact ⟨by simp, x, by simp, hx⟩
    · simp only [hx, if_false, Option.map_eq_some'] at h
      obtain ⟨j, hj, rfl⟩ := h
      obtain ⟨h1, s, h2, h3⟩ := ih hj
      exact ⟨by simp; omega, s, by simpa using h2, h3⟩

theorem LDContext.getSection_eq_none {pName : String} :
    ∀ {sections : List LDSection},
      LDContext.getSection pName sections = none ↔ ∀ s ∈ sections, s.name ≠ pName := by
  intro sections
  induction sections with
  | nil => simp [LDContext.getSection]
  | cons x rest ih =>
    unfold LDContext.getSection
    by_cases hx : x.name = pName
    · simp [hx]
    · simp [hx, ih]

/-- The lookup of a section by name reads nothing but the names. -/
theorem LDContext.getSection_congr (pName : String) :
    ∀ (l l' : List LDSection),
      l.map (fun s => { s with addr := 0 }) = l'.map (fun s => { s with addr := 0 }) →
      LDContext.getSection pName l = LDContext.getSection pName l' := by
  intro l
  induction l with
  | nil =>
    intro l' h
    cases l' with
    | nil => rfl
    | cons y l' => simp at h
  | cons x l ih =>
    intro l' h
    cases l' with
    | nil => simp at h
    | cons y l' =>
      simp only [List.map_cons, List.cons.injEq] at h
      obtain ⟨hxy, hrest⟩ := h
      have hname : x.name = y.name := (LDSection.mk.inj hxy).1
      simp only [LDContext.getSection, hname, ih l' hrest]

theorem createProgramHdrs.interpSegment_updatable (B : GNULDBackend)
    (sections : List LDSection) :
    ∀ seg ∈ createProgramHdrs.interpSegment B sections,
      seg.type = ELF.PT_INTERP ∧ seg.flag = ELF.PF_R ∧ seg.align = B.bitclass / 8 ∧
      createProgramHdrs.Updatable sections.length seg := by
  intro seg hseg
  unfold createProgramHdrs.interpSegment at hseg
  cases h : LDContext.getSection ".interp" sections with
  | none => simp [h] at hseg
  | some i =>
    simp only [h, List.mem_singleton] at hseg
    subst hseg
    refine ⟨rfl, rfl, rfl, Or.inr ⟨by simp [ELFSegment.addSection, ELFSegment.new], ?_⟩⟩
    intro idx hidx
    simp only [ELFSegment.addSection, ELFSegment.new, List.nil_append,
      List.mem_singleton] at hidx
    rw [hidx]
    exact (LDContext.getSection_some h).1

theorem createProgramHdrs.dynamicSegment_updatable (B : GNULDBackend)
    (sections : List LDSection) :
    ∀ seg ∈ createProgramHdrs.dynamicSegment B sections,
      seg.type = ELF.PT_DYNAMIC ∧ seg.flag = (ELF.PF_R ||| ELF.PF_W) ∧
      seg.align = B.bitclass / 8 ∧
      createProgramHdrs.Updatable sections.length seg := by
  intro seg hseg
  unfold createProgramHdrs.dynamicSegment at hseg
  cases h : LDContext.getSection ".dynamic" sections with
  | none => simp [h] at hseg
  | some i =>
    simp only [h, List.mem_singleton] at hseg
    subst hseg
    refine ⟨rfl, rfl, rfl, Or.inr ⟨by simp [ELFSegment.addSection, ELFSegment.new], ?_⟩⟩
    intro idx hidx
    simp only [ELFSegment.addSection, ELFSegment.new, List.nil_append,
      List.mem_singleton] at hidx
    rw [hidx]
    exact (LDContext.getSection_some h).1

/-- On a section table for which the section loop is defined, and from an
empty factory, `createProgramHdrs` runs to its end. The section table it
leaves differs from the one it got in addresses only. The factory it leaves
is the update, over that table, of: the `PT_PHDR`, the `PT_INTERP` if there is
one, `PT_LOAD` segments that hold together, in order, the positions of the
placed sections, and the `PT_DYNAMIC` if there is one. -/
theorem createProgramHdrs_spec (B : GNULDBackend) (sects : List LDSection)
    (hdef : createProgramHdrs.isDefined B sects = true) :
    ∃ (res : ProgramHdrs) (loads : List ELFSegment),
      createProgramHdrs B sects [] = some res ∧
      res.sections.map (fun s => { s with addr := 0 })
        = sects.map (fun s => { s with addr := 0 }) ∧
      (∀ seg ∈ loads, seg.type = ELF.PT_LOAD) ∧
      createProgramHdrs.loadSections loads = createProgramHdrs.placedFrom 0 sects ∧
      (∀ seg ∈ [ELFSegment.new ELF.PT_PHDR ELF.PF_R]
          ++ createProgramHdrs.interpSegment B sects ++ loads
          ++ createProgramHdrs.dynamicSegment B sects,
        createProgramHdrs.Updatable res.sections.length seg) ∧
      createProgramHdrs.updateLoop B res.sections true
        ([ELFSegment.new ELF.PT_PHDR ELF.PF_R] ++ createProgramHdrs.interpSegment B sects
          ++ loads ++ createProgramHdrs.dynamicSegment B sects) = some res.factory := by
  have hf2 : (match LDContext.getSection ".interp" sects with
      | some interp =>
        ([] ++ [ELFSegment.new ELF.PT_PHDR ELF.PF_R]) ++
          [{ (ELFSegment.new ELF.PT_INTERP ELF.PF_R).addSection interp with
             align := B.bitclass / 8 }]
      | none => [] ++ [ELFSegment.new ELF.PT_PHDR ELF.PF_R])
      = [ELFSegment.new ELF.PT_PHDR ELF.PF_R] ++ createProgramHdrs.interpSegment B sects := by
    unfold createProgramHdrs.interpSegment
    cases LDContext.getSection ".interp" sects <;> rfl
  have hinv0 : createProgramHdrs.LoadInv
      ([ELFSegment.new ELF.PT_PHDR ELF.PF_R] ++ createProgramHdrs.interpSegment B sects)
      sects.length
      { sections := sects,
        factory := [ELFSegment.new ELF.PT_PHDR ELF.PF_R]
          ++ createProgramHdrs.interpSegment B sects,
        prev_seg_flag := B.getSegmentFlag 0, padding := 0, load_seg := none } [] :=
    ⟨by simp, by simp, by simp, by simp, Or.inl ⟨rfl, rfl⟩, rfl⟩
  obtain ⟨st, loads, hloop, hinv, hsecs, herase⟩ :=
    createProgramHdrs.loadLoop_spec B _ sects.length sects 0 _ [] hinv0 rfl (Or.inr hdef)
  simp only [createProgramHdrs.loadSections, List.nil_append] at hsecs
  simp only at herase
  have hdyn : (match LDContext.getSection ".dynamic" st.sections with
      | some dynamic =>
        st.factory ++
          [{ (ELFSegment.new ELF.PT_DYNAMIC (ELF.PF_R ||| ELF.PF_W)).addSection dynamic with
             align := B.bitclass / 8 }]
      | none => st.factory)
      = [ELFSegment.new ELF.PT_PHDR ELF.PF_R] ++ createProgramHdrs.interpSegment B sects
          ++ loads ++ createProgramHdrs.dynamicSegment B sects := by
    rw [LDContext.getSection_congr ".dynamic" st.sections sects herase, hinv.factory_eq]
    unfold createProgramHdrs.dynamicSegment
    cases LDContext.getSection ".dynamic" sects <;> simp
  have hlen : st.sections.length = sects.length := hinv.length_eq
  have hupd : ∀ seg ∈ [ELFSegment.new ELF.PT_PHDR ELF.PF_R]
      ++ createProgramHdrs.interpSegment B sects ++ loads
      ++ createProgramHdrs.dynamicSegment B sects,
      createProgramHdrs.Updatable st.sections.length seg := by
    intro seg hseg
    rw [hlen]
    simp only [List.mem_append, List.mem_singleton] at hseg
    rcases hseg with ((h | h) | h) | h
    · left; rw [h]; rfl
    · exact (createProgramHdrs.interpSegment_updatable B sects seg h).2.2.2
    · exact Or.inr ⟨hinv.nonempty seg h, hinv.valid seg h⟩
    · exact (createProgramHdrs.dynamicSegment_updatable B sects seg h).2.2.2
  obtain ⟨f4, hf4⟩ := createProgramHdrs.updateLoop_some B st.sections _ true hupd
  refine ⟨⟨st.sections, f4⟩, loads, ?_, herase, hinv.all_load, hsecs, hupd, hf4⟩
  unfold createProgramHdrs
  simp only [hf2, hloop, hdyn, hf4]

/-- The update pass keeps the type and the sections of the segment at each
position. -/
theorem createProgramHdrs.updateLoop_map (B : GNULDBackend) (sections : List LDSection)
    (segs segs' : List ELFSegment) (b : Bool)
    (h : createProgramHdrs.updateLoop B sections b segs = some segs') :
    segs'.map (fun s => (s.type, s.sections)) = segs.map (fun s => (s.type, s.sections)) := by
  obtain ⟨hlen, hall⟩ := createProgramHdrs.updateLoop_spec B sections segs segs' b h
  apply List.ext_getElem?
  intro k
  rw [List.getElem?_map, List.getElem?_map]
  cases hk : segs'[k]? with
  | none =>
    have : segs.length ≤ k := by
      rw [← hlen]; exact List.getElem?_eq_none_iff.mp hk
    rw [List.getElem?_eq_none this]
  | some seg' =>
    obtain ⟨seg, b', h1, h2⟩ := hall k seg' hk
    obtain ⟨t1, _, t3, _⟩ := createProgramHdrs.updateSegment_spec B sections _ b' seg seg' h2
    simp [h1, t1, t3]

/-- Every segment that the update pass leaves is the update of a segment it
got. -/
theorem createProgramHdrs.updateLoop_mem (B : GNULDBackend) (sections : List LDSection)
    (segs segs' : List ELFSegment) (b : Bool)
    (h : createProgramHdrs.updateLoop B sections b segs = some segs') :
    ∀ seg' ∈ segs', ∃ seg ∈ segs,
      seg'.type = seg.type ∧ seg'.flag = seg.flag ∧ seg'.sections = seg.sections ∧
      (seg.type = ELF.PT_PHDR → seg'.align = B.bitclass / 8) ∧
      (seg.type ≠ ELF.PT_PHDR → seg'.align = seg.align) := by
  obtain ⟨_, hall⟩ := createProgramHdrs.updateLoop_spec B sections segs segs' b h
  intro seg' hmem
  obtain ⟨k, hk⟩ := List.mem_iff_getElem?.mp hmem
  obtain ⟨seg, b', h1, h2⟩ := hall k seg' hk
  obtain ⟨t1, t2, t3, t4, t5, _⟩ :=
    createProgramHdrs.updateSegment_spec B sections _ b' seg seg' h2
  exact ⟨seg, List.getElem?_mem h1, t1, t2, t3, t4, t5⟩

/-- The sections of the `PT_LOAD` segments of a factory are read off the types
and the sections of its segments. -/
theorem createProgramHdrs.loadSections_congr :
    ∀ (segs segs' : List ELFSegment),
      segs'.map (fun s => (s.type, s.sections)) = segs.map (fun s => (s.type, s.sections)) →
      createProgramHdrs.loadSections segs' = createProgramHdrs.loadSections segs ∧
      ∀ i, (segs'.filter (fun seg =>
              decide (seg.type = ELF.PT_LOAD) && decide (i ∈ seg.sections))).length
          = (segs.filter (fun seg =>
              decide (seg.type = ELF.PT_LOAD) && decide (i ∈ seg.sections))).length := by
  intro segs
  induction segs with
  | nil =>
    intro segs' h
    cases segs' with
    | nil => exact ⟨rfl, fun _ => rfl⟩
    | cons y l => simp at h
  | cons x l ih =>
    intro segs' h
    cases segs' with
    | nil => simp at h
    | cons y l' =>
      simp only [List.map_cons, List.cons.injEq, Prod.mk.injEq] at h
      obtain ⟨⟨hty, hsec⟩, hrest⟩ := h
      obtain ⟨h1, h2⟩ := ih l' hrest
      refine ⟨by simp [createProgramHdrs.loadSections, hty, hsec, h1], ?_⟩
      intro i
      simp only [List.filter_cons, hty, hsec]
      split_ifs <;> simp [h2 i]

theorem createProgramHdrs.loadSections_of_not_load :
    ∀ (segs : List ELFSegment), (∀ seg ∈ segs, seg.type ≠ ELF.PT_LOAD) →
      createProgramHdrs.loadSections segs = [] := by
  intro segs
  induction segs with
  | nil => intro _; rfl
  | cons x l ih =>
    intro h
    have hx := h x (List.mem_cons_self _ _)
    simp [createProgramHdrs.loadSections, hx, ih (fun s hs => h s (List.mem_cons_of_mem _ hs))]

theorem createProgramHdrs.loadSections_of_load :
    ∀ (segs : List ELFSegment), (∀ seg ∈ segs, seg.type = ELF.PT_LOAD) →
      ∀ seg ∈ segs, ∀ i ∈ seg.sections, i ∈ createProgramHdrs.loadSections segs := by
  intro segs
  induction segs with
  | nil => intro _ seg hseg; simp at hseg
  | cons x l ih =>
    intro h seg hseg i hi
    have hx := h x (List.mem_cons_self _ _)
    simp only [createProgramHdrs.loadSections, hx, if_true, List.mem_append]
    rcases List.mem_cons.mp hseg with rfl | hs
    · exact Or.inl hi
    · exact Or.inr (ih (fun s hs => h s (List.mem_cons_of_mem _ hs)) seg hs i hi)

/-- A position that occurs once among the sections of the `PT_LOAD` segments
lies in exactly one of them; one that does not occur lies in none. -/
theorem createProgramHdrs.count_loadSections (i : Nat) :
    ∀ (segs : List ELFSegment),
      ((createProgramHdrs.loadSections segs).count i = 0 →
        (segs.filter (fun seg =>
          decide (seg.type = ELF.PT_LOAD) && decide (i ∈ seg.sections))).length = 0) ∧
      ((createProgramHdrs.loadSections segs).count i = 1 →
        (segs.filter (fun seg =>
          decide (seg.type = ELF.PT_LOAD) && decide (i ∈ seg.sections))).length = 1) := by
  intro segs
  induction segs with
  | nil => simp [createProgramHdrs.loadSections]
  | cons x l ih =>
    obtain ⟨ih0, ih1⟩ := ih
    by_cases hx : x.type = ELF.PT_LOAD
    · by_cases hi : i ∈ x.sections
      · have hpos : 0 < x.sections.count i := List.count_pos_iff.mpr hi
        simp only [createProgramHdrs.loadSections, hx, if_true, List.count_append,
          List.filter_cons, hi, decide_True, Bool.and_self, List.length_cons]
        constructor
        · intro h; omega
        · intro h
          rw [ih0 (by omega)]
      · have hzero : x.sections.count i = 0 := List.count_eq_zero.mpr hi
        simp only [createProgramHdrs.loadSections, hx, if_true, List.count_append,
          List.filter_cons, hi, decide_True, decide_False, Bool.and_false, hzero,
          Nat.zero_add]
        exact ⟨ih0, ih1⟩
    · simp only [createProgramHdrs.loadSections, hx, if_false, List.filter_cons,
        decide_False, Bool.false_and]
      exact ⟨ih0, ih1⟩

/-- The positions of the placed sections of a list are at or above the start
position. -/
theorem createProgramHdrs.count_placedFrom_below (i : Nat) :
    ∀ (sects : List LDSection) (j : Nat), i < j →
      (createProgramHdrs.placedFrom j sects).count i = 0 := by
  intro sects
  induction sects with
  | nil => intro j _; rfl
  | cons x rest ih =>
    intro j hij
    unfold createProgramHdrs.placedFrom
    split_ifs
    · rw [List.count_cons, ih (j + 1) (by omega)]
      simp; omega
    · exact ih (j + 1) (by omega)

/-- The position of a section occurs once among the positions of the placed
sections if the section is placed, and not at all if it is not. -/
theorem createProgramHdrs.count_placedFrom :
    ∀ (sects : List LDSection) (j k : Nat) (s : LDSection), sects[k]? = some s →
      (createProgramHdrs.placedFrom j sects).count (j + k)
        = if createProgramHdrs.isPlaced s then 1 else 0 := by
  intro sects
  induction sects with
  | nil => intro j k s h; simp at h
  | cons x rest ih =>
    intro j k s h
    cases k with
    | zero =>
      simp only [List.getElem?_cons_zero, Option.some.injEq] at h
      subst h
      unfold createProgramHdrs.placedFrom
      have hb := createProgramHdrs.count_placedFrom_below j rest (j + 1) (by omega)
      split_ifs
      · rw [Nat.add_zero, List.count_cons, hb]; simp
      · rw [Nat.add_zero, hb]
    | succ k =>
      simp only [List.getElem?_cons_succ] at h
      have := ih (j + 1) k s h
      rw [show j + 1 + k = j + (k + 1) by omega] at this
      unfold createProgramHdrs.placedFrom
      split_ifs with hx hs
      · rw [List.count_cons, this]; simp [hs]
      · rw [List.count_cons, this]; simp [hs]
      · rw [this]; simp [*]
      · rw [this]; simp [*]

/-- On a defined run from an empty factory, the sections of the `PT_LOAD`
segments that `createProgramHdrs` leaves are, in order, the positions of the
placed sections. -/
theorem createProgramHdrs_loadSections (B : GNULDBackend) (sects : List LDSection)
    (hdef : createProgramHdrs.isDefined B sects = true) :
    ∃ res : ProgramHdrs, createProgramHdrs B sects [] = some res ∧
      createProgramHdrs.loadSections res.factory = createProgramHdrs.placedFrom 0 sects := by
  obtain ⟨res, loads, h1, _, h3, h4, _, h6⟩ := createProgramHdrs_spec B sects hdef
  refine ⟨res, h1, ?_⟩
  have hmap := createProgramHdrs.updateLoop_map B res.sections _ _ true h6
  rw [(createProgramHdrs.loadSections_congr _ _ hmap).1,
    createProgramHdrs.loadSections_append, createProgramHdrs.loadSections_append,
    createProgramHdrs.loadSections_append, h4]
  have hi : createProgramHdrs.loadSections (createProgramHdrs.interpSegment B sects) = [] :=
    createProgramHdrs.loadSections_of_not_load _ (fun seg hs => by
      rw [(createProgramHdrs.interpSegment_updatable B sects seg hs).1]; decide)
  have hd : createProgramHdrs.loadSections (createProgramHdrs.dynamicSegment B sects) = [] :=
    createProgramHdrs.loadSections_of_not_load _ (fun seg hs => by
      rw [(createProgramHdrs.dynamicSegment_updatable B sects seg hs).1]; decide)
  rw [hi, hd]
  simp [createProgramHdrs.loadSections, ELFSegment.new, ELF.PT_PHDR, ELF.PT_LOAD]

/-- C17, as the code has it: when the section loop is defined on the section
table (no section is placed before a `PT_LOAD` exists) and the factory starts
empty, `createProgramHdrs` runs to its end, and every section that has
`SHF_ALLOC` or is of Null kind belongs to exactly one `PT_LOAD` segment, once,
while every section that has no `SHF_ALLOC` and is not of Null kind belongs to
no `PT_LOAD` segment. -/
theorem createProgramHdrs_load_membership (B : GNULDBackend) (sects : List LDSection)
    (hdef : createProgramHdrs.isDefined B sects = true) :
    ∃ res : ProgramHdrs, createProgramHdrs B sects [] = some res ∧
      ∀ (i : Nat) (s : LDSection), sects[i]? = some s →
        (((s.flag &&& ELF.SHF_ALLOC) ≠ 0 ∨ s.kind = LDFileFormat.Kind.Null) →
          (res.factory.filter (fun seg =>
            decide (seg.type = ELF.PT_LOAD) && decide (i ∈ seg.sections))).length = 1 ∧
          (createProgramHdrs.loadSections res.factory).count i = 1) ∧
        (((s.flag &&& ELF.SHF_ALLOC) = 0 ∧ s.kind ≠ LDFileFormat.Kind.Null) →
          ∀ seg ∈ res.factory, seg.type = ELF.PT_LOAD → i ∉ seg.sections) := by
  obtain ⟨res, h1, h2⟩ := createProgramHdrs_loadSections B sects hdef
  refine ⟨res, h1, ?_⟩
  intro i s hs
  have hcount := createProgramHdrs.count_placedFrom sects 0 i s hs
  rw [Nat.zero_add, ← h2] at hcount
  obtain ⟨c0, c1⟩ := createProgramHdrs.count_loadSections i res.factory
  constructor
  · intro hplaced
    have hp : createProgramHdrs.isPlaced s = true := by
      rw [createProgramHdrs.isPlaced_iff]
      rintro ⟨ha, hk⟩
      rcases hplaced with h | h
      · exact h ha
      · exact hk h.symm
    rw [hp] at hcount
    exact ⟨c1 hcount, hcount⟩
  · rintro ⟨ha, hk⟩ seg hseg hty hmem
    have hp : createProgramHdrs.isPlaced s = false := by
      cases hpl : createProgramHdrs.isPlaced s with
      | false => rfl
      | true =>
        exact absurd ⟨ha, fun e => hk e.symm⟩ ((createProgramHdrs.isPlaced_iff s).mp hpl)
    rw [hp] at hcount
    have hlen := c0 hcount
    have hin : seg ∈ res.factory.filter (fun seg =>
        decide (seg.type = ELF.PT_LOAD) && decide (i ∈ seg.sections)) := by
      rw [List.mem_filter]
      exact ⟨hseg, by simp [hty, hmem]⟩
    rw [List.length_eq_zero.mp hlen] at hin
    exact List.not_mem_nil _ hin

/-- The section table Null, `.text`, `.rodata`, `.data`, `.bss`, `.symtab` on
the example backend: `.data` (position 3) lies in exactly one `PT_LOAD`. -/
theorem createProgramHdrs_load_membership_witness :
    createProgramHdrs.isDefined Example.backend
      [Example.nullSection, Example.text, Example.rodata, Example.data, Example.bss,
        Example.symtabSection] = true ∧
    ∃ res : ProgramHdrs,
      createProgramHdrs Example.backend
        [Example.nullSection, Example.text, Example.rodata, Example.data, Example.bss,
          Example.symtabSection] [] = some res ∧
      (res.factory.filter (fun seg =>
        decide (seg.type = ELF.PT_LOAD) && decide (3 ∈ seg.sections))).length = 1 ∧
      ∀ seg ∈ res.factory, seg.type = ELF.PT_LOAD → 5 ∉ seg.sections := by
  obtain ⟨res, h1, h2⟩ := createProgramHdrs_load_membership Example.backend
    [Example.nullSection, Example.text, Example.rodata, Example.data, Example.bss,
      Example.symtabSection] (by decide)
  exact ⟨by decide, res, h1, ((h2 3 Example.data rfl).1 (Or.inl (by decide))).1,
    (h2 5 Example.symtabSection rfl).2 ⟨by decide, by decide⟩⟩

/-- C17 fails as stated: the null section that heads the table Null, `.text`
has no `SHF_ALLOC` (its flags are 0), and `createProgramHdrs` puts it, at
position 0, into the `PT_LOAD` that it opens for it. -/
theorem createProgramHdrs_null_section_in_load :
    Example.nullSection.flag &&& ELF.SHF_ALLOC = 0 ∧
    (createProgramHdrs Example.backend [Example.nullSection, Example.text] []).map
      (fun res => res.factory.map (fun seg => (seg.type, seg.sections)))
      = some [(ELF.PT_PHDR, []), (ELF.PT_LOAD, [0, 1])] := by
  constructor <;> decide

/-- A section table that is not headed by the Null section: on `.text` (AX),
`.rodata` (A), `.data` (AW), `.bss` (AW, BSS kind) and the example backend, the
first section neither is of Null kind nor differs in the write flag from
`getSegmentFlag(0)`, so no `PT_LOAD` is allocated for it and `load_seg` is used
without a value: the section loop is not defined on this table. With the Null
section in front of the four sections, two `PT_LOAD` segments are made, holding
the positions 0, 1, 2 (Null, `.text`, `.rodata`) and 3, 4 (`.data`, `.bss`). -/
theorem createProgramHdrs_first_section_without_segment :
    createProgramHdrs.opensSegment Example.backend (Example.backend.getSegmentFlag 0)
      Example.text = false ∧
    createProgramHdrs.placeSection Example.backend
      { sections := [Example.text, Example.rodata, Example.data, Example.bss],
        factory := [ELFSegment.new ELF.PT_PHDR ELF.PF_R],
        prev_seg_flag := Example.backend.getSegmentFlag 0, padding := 0, load_seg := none }
      0 Example.text = none ∧
    createProgramHdrs Example.backend
      [Example.text, Example.rodata, Example.data, Example.bss] [] = none ∧
    (createProgramHdrs Example.backend
      [Example.nullSection, Example.text, Example.rodata, Example.data, Example.bss] []).map
      (fun res => (res.factory.filter (fun seg => decide (seg.type = ELF.PT_LOAD))).map
        (fun seg => seg.sections))
      = some [[0, 1, 2], [3, 4]] := by
  refine ⟨by decide, by decide, by decide, by decide⟩

/-- The inner loop of the update pass, started from a file size below
`2 ^ 64`, adds up the sizes of the sections that are not of BSS kind,
modulo `2 ^ 64`. -/
theorem createProgramHdrs.fileSize_foldl (sections : List LDSection) :
    ∀ (segSections : List Nat) (acc : Nat), acc < 2 ^ 64 →
      segSections.foldl
        (fun file_size i =>
          match sections[i]? with
          | some sect =>
            if LDFileFormat.Kind.BSS ≠ sect.kind then (file_size + sect.size) % 2 ^ 64
            else file_size
          | none => file_size) acc
        = (acc + (((segSections.filterMap (fun i => sections[i]?)).filter
            (fun s => decide (s.kind ≠ LDFileFormat.Kind.BSS))).map (fun s => s.size)).sum)
          % 2 ^ 64 := by
  intro segSections
  induction segSections with
  | nil =>
    intro acc hacc
    simp only [List.foldl_nil, List.filterMap_nil, List.filter_nil, List.map_nil,
      List.sum_nil, Nat.add_zero]
    exact (Nat.mod_eq_of_lt hacc).symm
  | cons i rest ih =>
    intro acc hacc
    rw [List.foldl_cons]
    cases hs : sections[i]? with
    | none =>
      simp only [List.filterMap_cons, hs]
      exact ih acc hacc
    | some sect =>
      by_cases hk : sect.kind = LDFileFormat.Kind.BSS
      · have hk' : ¬ LDFileFormat.Kind.BSS ≠ sect.kind := fun h => h hk.symm
        simp only [List.filterMap_cons, hs, hk', if_false, List.filter_cons, hk, ne_eq,
          not_true_eq_false, decide_False]
        exact ih acc hacc
      · have hk' : LDFileFormat.Kind.BSS ≠ sect.kind := fun h => hk h.symm
        simp only [List.filterMap_cons, hs, hk', if_true, List.filter_cons, hk, ne_eq,
          not_false_eq_true, decide_True, List.map_cons, List.sum_cons]
        rw [ih _ (Nat.mod_lt _ (by norm_num)), Nat.add_mod, Nat.mod_mod, ← Nat.add_mod,
          Nat.add_assoc]

theorem createProgramHdrs.fileSize_eq (sections : List LDSection) (segSections : List Nat) :
    createProgramHdrs.fileSize sections segSections
      = (((segSections.filterMap (fun i => sections[i]?)).filter
          (fun s => decide (s.kind ≠ LDFileFormat.Kind.BSS))).map (fun s => s.size)).sum
        % 2 ^ 64 := by
  unfold createProgramHdrs.fileSize
  rw [createProgramHdrs.fileSize_foldl sections segSections 0 (by norm_num), Nat.zero_add]

/-- The difference of 64-bit unsigned integers is the difference of the
numbers when it does not wrap. -/
theorem sub64_eq (a b : Nat) (hba : b ≤ a) (ha : a < 2 ^ 64) : sub64 a b = a - b := by
  unfold sub64
  have h64 : (2 : Nat) ^ 64 = 18446744073709551616 := by norm_num
  rw [h64] at ha ⊢
  omega

/-- C19: on a defined run from an empty factory, after the update pass of
`createProgramHdrs` every `PT_LOAD` other than the first has `filesz` equal to
the sum of the sizes of its sections that are not of BSS kind, and `memsz`
equal to `lastSection.addr + lastSection.size - segment.vaddr`, both as 64-bit
unsigned integers; `memsz` is that difference of numbers when it does not
wrap. So the size of a BSS section at the end is in `memsz` and not in
`filesz`. -/
theorem createProgramHdrs_load_sizes (B : GNULDBackend) (sects : List LDSection)
    (hdef : createProgramHdrs.isDefined B sects = true) :
    ∃ res : ProgramHdrs, createProgramHdrs B sects [] = some res ∧
      ∀ (k : Nat) (seg : ELFSegment), res.factory[k]? = some seg →
        seg.type = ELF.PT_LOAD →
        (∃ j seg0, j < k ∧ res.factory[j]? = some seg0 ∧ seg0.type = ELF.PT_LOAD) →
        ∃ first last,
          seg.getFirstSection res.sections = some first ∧
          seg.getLastSection res.sections = some last ∧
          seg.vaddr = first.addr ∧
          (∀ i ∈ seg.sections, i < res.sections.length) ∧
          seg.filesz
            = (((seg.sections.filterMap (fun i => res.sections[i]?)).filter
                (fun s => decide (s.kind ≠ LDFileFormat.Kind.BSS))).map
                (fun s => s.size)).sum % 2 ^ 64 ∧
          seg.memsz = sub64 (last.addr + last.size) seg.vaddr ∧
          (seg.vaddr ≤ last.addr + last.size → last.addr + last.size < 2 ^ 64 →
            seg.memsz = last.addr + last.size - seg.vaddr) := by
  obtain ⟨res, loads, h1, _, _, _, h5, h6⟩ := createProgramHdrs_spec B sects hdef
  refine ⟨res, h1, ?_⟩
  obtain ⟨_, hall⟩ := createProgramHdrs.updateLoop_spec B res.sections _ _ true h6
  intro k seg hk hty hprev
  obtain ⟨pre, b', p1, p2⟩ := hall k seg hk
  obtain ⟨t1, _, t3, _, _, _, t7⟩ :=
    createProgramHdrs.updateSegment_spec B res.sections _ b' pre seg p2
  have hpre : pre.type = ELF.PT_LOAD := by rw [← t1]; exact hty
  have hnp : pre.type ≠ ELF.PT_PHDR := by rw [hpre]; decide
  -- a PT_LOAD comes before: the flag is_first_pt_load is false
  obtain ⟨j, seg0, hj, hj0, hty0⟩ := hprev
  obtain ⟨pre0, b0, q1, q2⟩ := hall j seg0 hj0
  have hpre0 : pre0.type = ELF.PT_LOAD := by
    rw [← (createProgramHdrs.updateSegment_spec B res.sections _ b0 pre0 seg0 q2).1]
    exact hty0
  generalize hf3 : [ELFSegment.new ELF.PT_PHDR ELF.PF_R]
    ++ createProgramHdrs.interpSegment B sects ++ loads
    ++ createProgramHdrs.dynamicSegment B sects = f3 at h5 p1 p2 q1 t7
  have hflag : (true && (f3.take k).all (fun s => !decide (s.type = ELF.PT_LOAD))) = false := by
    rw [Bool.true_and, Bool.eq_false_iff]
    intro hallb
    rw [List.all_eq_true] at hallb
    have hmem : pre0 ∈ f3.take k := by
      rw [List.mem_iff_getElem?]
      exact ⟨j, by rw [List.getElem?_take_of_lt hj]; exact q1⟩
    have := hallb pre0 hmem
    simp [hpre0] at this
  obtain ⟨first, last, f1, f2, _, f4, _, f6, f7⟩ := t7 hnp
  rw [hflag] at f7
  have hvalid : ∀ i ∈ seg.sections, i < res.sections.length := by
    rw [t3]
    rcases h5 pre (List.getElem?_mem p1) with h | h
    · exact absurd h hnp
    · exact h.2
  have hfirst : seg.getFirstSection res.sections = some first := by
    unfold ELFSegment.getFirstSection at f1 ⊢
    rw [t3]; exact f1
  have hlast : seg.getLastSection res.sections = some last := by
    unfold ELFSegment.getLastSection at f2 ⊢
    rw [t3]; exact f2
  have hmem : seg.memsz = sub64 (last.addr + last.size) seg.vaddr := by rw [f6, f4]
  refine ⟨first, last, hfirst, hlast, f4, hvalid, ?_, hmem, ?_⟩
  · rw [f7, t3]
    simp only [Bool.false_eq_true, and_false, if_false]
    exact createProgramHdrs.fileSize_eq _ _
  · intro hle hlt
    rw [hmem]
    exact sub64_eq _ _ hle hlt

/-- The table Null, `.text`, `.rodata`, `.data`, `.bss`, `.symtab`: the second
`PT_LOAD`, at position 2 of the factory, holds `.data` and `.bss`; its `filesz`
is the 24 bytes of `.data` and its `memsz`, 88, reaches the end of `.bss`. -/
theorem createProgramHdrs_load_sizes_witness :
    createProgramHdrs.isDefined Example.backend
      [Example.nullSection, Example.text, Example.rodata, Example.data, Example.bss,
        Example.symtabSection] = true ∧
    (createProgramHdrs Example.backend
      [Example.nullSection, Example.text, Example.rodata, Example.data, Example.bss,
        Example.symtabSection] []).map
      (fun res => res.factory.map (fun seg => (seg.type, seg.sections, seg.filesz, seg.memsz)))
      = some [(ELF.PT_PHDR, [], 128, 128), (ELF.PT_LOAD, [0, 1, 2], 512, 512),
              (ELF.PT_LOAD, [3, 4], 24, 88)] ∧
    ∃ res : ProgramHdrs,
      createProgramHdrs Example.backend
        [Example.nullSection, Example.text, Example.rodata, Example.data, Example.bss,
          Example.symtabSection] [] = some res ∧
      ∀ (seg : ELFSegment), res.factory[2]? = some seg → seg.type = ELF.PT_LOAD →
        (∃ j seg0, j < 2 ∧ res.factory[j]? = some seg0 ∧ seg0.type = ELF.PT_LOAD) →
        ∃ first last,
          seg.getFirstSection res.sections = some first ∧
          seg.getLastSection res.sections = some last ∧
          seg.vaddr = first.addr ∧
          (∀ i ∈ seg.sections, i < res.sections.length) ∧
          seg.filesz
            = (((seg.sections.filterMap (fun i => res.sections[i]?)).filter
                (fun s => decide (s.kind ≠ LDFileFormat.Kind.BSS))).map
                (fun s => s.size)).sum % 2 ^ 64 ∧
          seg.memsz = sub64 (last.addr + last.size) seg.vaddr ∧
          (seg.vaddr ≤ last.addr + last.size → last.addr + last.size < 2 ^ 64 →
            seg.memsz = last.addr + last.size - seg.vaddr) := by
  obtain ⟨res, h1, h2⟩ := createProgramHdrs_load_sizes Example.backend
    [Example.nullSection, Example.text, Example.rodata, Example.data, Example.bss,
      Example.symtabSection] (by decide)
  exact ⟨by decide, by decide, res, h1, fun seg => h2 2 seg⟩

theorem createProgramHdrs.interpSegment_types (B : GNULDBackend) (sects : List LDSection) :
    (createProgramHdrs.interpSegment B sects).map (fun seg => seg.type)
      = if (∃ s ∈ sects, s.name = ".interp") then [ELF.PT_INTERP] else [] := by
  unfold createProgramHdrs.interpSegment
  cases h : LDContext.getSection ".interp" sects with
  | none =>
    have hno : ¬ ∃ s ∈ sects, s.name = ".interp" := by
      rintro ⟨s, hs, hn⟩
      exact LDContext.getSection_eq_none.mp h s hs hn
    rw [if_neg hno]; rfl
  | some i =>
    obtain ⟨_, s, hs, hn⟩ := LDContext.getSection_some h
    rw [if_pos ⟨s, List.getElem?_mem hs, hn⟩]; rfl

theorem createProgramHdrs.dynamicSegment_types (B : GNULDBackend) (sects : List LDSection) :
    (createProgramHdrs.dynamicSegment B sects).map (fun seg => seg.type)
      = if (∃ s ∈ sects, s.name = ".dynamic") then [ELF.PT_DYNAMIC] else [] := by
  unfold createProgramHdrs.dynamicSegment
  cases h : LDContext.getSection ".dynamic" sects with
  | none =>
    have hno : ¬ ∃ s ∈ sects, s.name = ".dynamic" := by
      rintro ⟨s, hs, hn⟩
      exact LDContext.getSection_eq_none.mp h s hs hn
    rw [if_neg hno]; rfl
  | some i =>
    obtain ⟨_, s, hs, hn⟩ := LDContext.getSection_some h
    rw [if_pos ⟨s, List.getElem?_mem hs, hn⟩]; rfl

theorem createProgramHdrs.load_types :
    ∀ loads : List ELFSegment, (∀ seg ∈ loads, seg.type = ELF.PT_LOAD) →
      loads.map (fun seg => seg.type) = List.replicate loads.length ELF.PT_LOAD := by
  intro loads
  induction loads with
  | nil => intro _; rfl
  | cons x l ih =>
    intro h
    simp [List.replicate_succ, h x (List.mem_cons_self _ _),
      ih (fun s hs => h s (List.mem_cons_of_mem _ hs))]

/-- C20: starting from an empty segment factory, on a section table for which
the section loop is defined, `createProgramHdrs` leaves the segments in the
order `PT_PHDR`, then `PT_INTERP`, then the `PT_LOAD` segments, then
`PT_DYNAMIC`; there is a `PT_INTERP` if and only if a section is named
`.interp` and a `PT_DYNAMIC` if and only if a section is named `.dynamic`; the
`PT_PHDR` has the flags R, the `PT_DYNAMIC` the flags R|W, and `PT_INTERP` and
`PT_DYNAMIC` have the alignment `bitclass / 8`. -/
theorem createProgramHdrs_segment_order (B : GNULDBackend) (sects : List LDSection)
    (hdef : createProgramHdrs.isDefined B sects = true) :
    ∃ (res : ProgramHdrs) (nLoads : Nat), createProgramHdrs B sects [] = some res ∧
      res.factory.map (fun seg => seg.type)
        = [ELF.PT_PHDR]
          ++ (if (∃ s ∈ sects, s.name = ".interp") then [ELF.PT_INTERP] else [])
          ++ List.replicate nLoads ELF.PT_LOAD
          ++ (if (∃ s ∈ sects, s.name = ".dynamic") then [ELF.PT_DYNAMIC] else []) ∧
      ∀ seg ∈ res.factory,
        (seg.type = ELF.PT_PHDR → seg.flag = ELF.PF_R) ∧
        (seg.type = ELF.PT_INTERP → seg.align = B.bitclass / 8) ∧
        (seg.type = ELF.PT_DYNAMIC →
          seg.flag = (ELF.PF_R ||| ELF.PF_W) ∧ seg.align = B.bitclass / 8) := by
  obtain ⟨res, loads, h1, _, h3, _, _, h6⟩ := createProgramHdrs_spec B sects hdef
  refine ⟨res, loads.length, h1, ?_, ?_⟩
  · have hmap := createProgramHdrs.updateLoop_map B res.sections _ _ true h6
    have htypes := congrArg (List.map Prod.fst) hmap
    simp only [List.map_map] at htypes
    have hcomp : (Prod.fst ∘ fun s : ELFSegment => (s.type, s.sections))
        = fun seg => seg.type := rfl
    rw [hcomp] at htypes
    rw [htypes, List.map_append, List.map_append, List.map_append,
      createProgramHdrs.interpSegment_types, createProgramHdrs.dynamicSegment_types,
      createProgramHdrs.load_types loads h3]
    rfl
  · intro seg hseg
    obtain ⟨pre, hpre, t1, t2, _, _, t5⟩ :=
      createProgramHdrs.updateLoop_mem B res.sections _ _ true h6 seg hseg
    simp only [List.mem_append, List.mem_singleton] at hpre
    rcases hpre with ((h | h) | h) | h
    · -- the PT_PHDR
      subst h
      refine ⟨fun _ => t2, ?_, ?_⟩
      · intro hty; rw [t1] at hty; exact absurd hty (by decide)
      · intro hty; rw [t1] at hty; exact absurd hty (by decide)
    · -- the PT_INTERP
      obtain ⟨i1, _, i3, _⟩ := createProgramHdrs.interpSegment_updatable B sects pre h
      have hnp : pre.type ≠ ELF.PT_PHDR := by rw [i1]; decide
      refine ⟨?_, fun _ => (t5 hnp).trans i3, ?_⟩
      · intro hty; rw [t1, i1] at hty; exact absurd hty (by decide)
      · intro hty; rw [t1, i1] at hty; exact absurd hty (by decide)
    · -- a PT_LOAD
      have hl := h3 pre h
      refine ⟨?_, ?_, ?_⟩
      · intro hty; rw [t1, hl] at hty; exact absurd hty (by decide)
      · intro hty; rw [t1, hl] at hty; exact absurd hty (by decide)
      · intro hty; rw [t1, hl] at hty; exact absurd hty (by decide)
    · -- the PT_DYNAMIC
      obtain ⟨d1, d2, d3, _⟩ := createProgramHdrs.dynamicSegment_updatable B sects pre h
      have hnp : pre.type ≠ ELF.PT_PHDR := by rw [d1]; decide
      refine ⟨?_, ?_, fun _ => ⟨t2.trans d2, (t5 hnp).trans d3⟩⟩
      · intro hty; rw [t1, d1] at hty; exact absurd hty (by decide)
      · intro hty; rw [t1, d1] at hty; exact absurd hty (by decide)

/-- The table Null, `.interp`, `.text`, `.dynamic`, `.data` on the example
backend of bit class 32: `PT_PHDR`, `PT_INTERP`, two `PT_LOAD`, `PT_DYNAMIC`,
with the flags 4, 4, 5, 6, 6 and the alignments 4, 4, 4096, 4096, 4. -/
theorem createProgramHdrs_segment_order_witness :
    createProgramHdrs.isDefined Example.backend
      [Example.nullSection, Example.interp, Example.text, Example.dynamic, Example.data]
      = true ∧
    (createProgramHdrs Example.backend
      [Example.nullSection, Example.interp, Example.text, Example.dynamic, Example.data]
      []).map (fun res => res.factory.map (fun seg => (seg.type, seg.flag, seg.align)))
      = some [(ELF.PT_PHDR, 4, 4), (ELF.PT_INTERP, 4, 4), (ELF.PT_LOAD, 5, 4096),
              (ELF.PT_LOAD, 6, 4096), (ELF.PT_DYNAMIC, 6, 4)] ∧
    ∃ (res : ProgramHdrs) (nLoads : Nat),
      createProgramHdrs Example.backend
        [Example.nullSection, Example.interp, Example.text, Example.dynamic, Example.data]
        [] = some res ∧
      res.factory.map (fun seg => seg.type)
        = [ELF.PT_PHDR] ++ [ELF.PT_INTERP] ++ List.replicate nLoads ELF.PT_LOAD
          ++ [ELF.PT_DYNAMIC] := by
  obtain ⟨res, nLoads, h1, h2, _⟩ := createProgramHdrs_segment_order Example.backend
    [Example.nullSection, Example.interp, Example.text, Example.dynamic, Example.data]
    (by decide)
  refine ⟨by decide, by decide, res, nLoads, h1, ?_⟩
  rw [h2, if_pos (by decide), if_pos (by decide)]

/-! ### `getSectionOrder` -/

/-- C22: `getSectionOrder` returns `SHO_UNDEFINED` for every section that lacks
`SHF_ALLOC` and is not of Null kind, whatever its kind, type and name, and
returns 0 for every section of Null kind whatever its flags; 0 is the smallest
order: no section gets a smaller one. -/
theorem getSectionOrder_non_alloc_and_null (SHO : SectionOrder)
    (getTargetSectionOrder : LDSection → Nat) (s : LDSection) :
    (s.kind ≠ LDFileFormat.Kind.Null → (s.flag &&& ELF.SHF_ALLOC) = 0 →
      getSectionOrder SHO getTargetSectionOrder s = SHO.SHO_UNDEFINED) ∧
    (s.kind = LDFileFormat.Kind.Null →
      getSectionOrder SHO getTargetSectionOrder s = 0 ∧
      ∀ s2 : LDSection, getSectionOrder SHO getTargetSectionOrder s
        ≤ getSectionOrder SHO getTargetSectionOrder s2) := by
  constructor
  · intro hk hf
    have hk2 : ¬ LDFileFormat.Kind.Null = s.kind := fun h => hk h.symm
    simp [getSectionOrder, hk2, hf]
  · intro hk
    have h0 : getSectionOrder SHO getTargetSectionOrder s = 0 := by
      simp [getSectionOrder, hk]
    exact ⟨h0, fun s2 => by rw [h0]; exact Nat.zero_le _⟩

/-- The symbol table section, a name pool without `SHF_ALLOC`, gets
`SHO_UNDEFINED`; the Null section gets 0. -/
theorem getSectionOrder_non_alloc_and_null_witness :
    getSectionOrder Example.orders Example.targetOrder Example.symtabSection
      = 4294967295 ∧
    getSectionOrder Example.orders Example.targetOrder Example.nullSection = 0 :=
  ⟨(getSectionOrder_non_alloc_and_null Example.orders Example.targetOrder
      Example.symtabSection).1 (by decide) (by decide),
   ((getSectionOrder_non_alloc_and_null Example.orders Example.targetOrder
      Example.nullSection).2 rfl).1⟩

/-- C23: for a section with `SHF_ALLOC` whose kind is not Target, the
enumerators being pairwise different and different from 0, `getSectionOrder`
returns `SHO_RELRO` if and only if the section is of NamePool kind and named
`.dynamic`, or of Regular kind, writable, not executable, and of type
`SHT_INIT_ARRAY`, `SHT_FINI_ARRAY` or `SHT_PREINIT_ARRAY` or named `.ctors` or
`.dtors`; every other writable non-executable Regular section gets `SHO_DATA`
and every non-writable non-executable Regular section gets `SHO_RO`. -/
theorem getSectionOrder_relro_iff (SHO : SectionOrder)
    (getTargetSectionOrder : LDSection → Nat) (s : LDSection)
    (hdistinct : SHO.Distinct)
    (halloc : (s.flag &&& ELF.SHF_ALLOC) ≠ 0)
    (hkind : s.kind ≠ LDFileFormat.Kind.Target) :
    (getSectionOrder SHO getTargetSectionOrder s = SHO.SHO_RELRO ↔
      (s.kind = LDFileFormat.Kind.NamePool ∧ s.name = ".dynamic") ∨
      (s.kind = LDFileFormat.Kind.Regular ∧ (s.flag &&& ELF.SHF_WRITE) ≠ 0 ∧
        (s.flag &&& ELF.SHF_EXECINSTR) = 0 ∧
        (s.type = ELF.SHT_INIT_ARRAY ∨ s.type = ELF.SHT_FINI_ARRAY ∨
          s.type = ELF.SHT_PREINIT_ARRAY ∨ s.name = ".ctors" ∨ s.name = ".dtors"))) ∧
    (s.kind = LDFileFormat.Kind.Regular → (s.flag &&& ELF.SHF_WRITE) ≠ 0 →
      (s.flag &&& ELF.SHF_EXECINSTR) = 0 →
      ¬ (s.type = ELF.SHT_INIT_ARRAY ∨ s.type = ELF.SHT_FINI_ARRAY ∨
          s.type = ELF.SHT_PREINIT_ARRAY ∨ s.name = ".ctors" ∨ s.name = ".dtors") →
      getSectionOrder SHO getTargetSectionOrder s = SHO.SHO_DATA) ∧
    (s.kind = LDFileFormat.Kind.Regular → (s.flag &&& ELF.SHF_WRITE) = 0 →
      (s.flag &&& ELF.SHF_EXECINSTR) = 0 →
      getSectionOrder SHO getTargetSectionOrder s = SHO.SHO_RO) := by
  have halloc2 : ¬ 0 = (s.flag &&& ELF.SHF_ALLOC) := fun h => halloc h.symm
  have hmem : SHO.SHO_RELRO ∉
      [0, SHO.SHO_INTERP, SHO.SHO_INIT, SHO.SHO_TEXT, SHO.SHO_FINI, SHO.SHO_RO] ++
        [SHO.SHO_DATA, SHO.SHO_BSS, SHO.SHO_NAMEPOOL, SHO.SHO_REL_PLT,
          SHO.SHO_RELOCATION, SHO.SHO_UNDEFINED] :=
    (List.nodup_cons.1 (List.nodup_middle.1
      (show ([0, SHO.SHO_INTERP, SHO.SHO_INIT, SHO.SHO_TEXT, SHO.SHO_FINI, SHO.SHO_RO] ++
        SHO.SHO_RELRO :: [SHO.SHO_DATA, SHO.SHO_BSS, SHO.SHO_NAMEPOOL, SHO.SHO_REL_PLT,
          SHO.SHO_RELOCATION, SHO.SHO_UNDEFINED]).Nodup from hdistinct))).1
  simp only [List.cons_append, List.nil_append, List.mem_cons, List.mem_singleton,
    not_or, List.not_mem_nil, not_false_eq_true, and_true] at hmem
  obtain ⟨h0, hINTERP, hINIT, hTEXT, hFINI, hRO, hDATA, hBSS, hNAMEPOOL, hREL_PLT,
    hRELOCATION, hUNDEFINED⟩ := hmem
  have h0s := Ne.symm h0
  have hINTERPs := Ne.symm hINTERP
  have hINITs := Ne.symm hINIT
  have hTEXTs := Ne.symm hTEXT
  have hFINIs := Ne.symm hFINI
  have hROs := Ne.symm hRO
  have hDATAs := Ne.symm hDATA
  have hBSSs := Ne.symm hBSS
  have hNAMEPOOLs := Ne.symm hNAMEPOOL
  have hREL_PLTs := Ne.symm hREL_PLT
  have hRELOCATIONs := Ne.symm hRELOCATION
  have hUNDEFINEDs := Ne.symm hUNDEFINED
  obtain ⟨name, kind, type, flag, addr, offset, size, align, index⟩ := s
  simp only at halloc2 hkind ⊢
  cases kind
  case Target => exact absurd rfl hkind
  case Regular =>
    by_cases hx : (flag &&& ELF.SHF_EXECINSTR) = 0
    · by_cases hw : (flag &&& ELF.SHF_WRITE) = 0
      · simp [getSectionOrder, halloc2, hx, hw, hROs]
      · by_cases hc : (type = ELF.SHT_PREINIT_ARRAY ∨ type = ELF.SHT_INIT_ARRAY ∨
            type = ELF.SHT_FINI_ARRAY ∨ name = ".ctors" ∨ name = ".dtors")
        · have hv : getSectionOrder SHO getTargetSectionOrder
              ⟨name, .Regular, type, flag, addr, offset, size, align, index⟩
              = SHO.SHO_RELRO := by
            simp [getSectionOrder, halloc2, hx, hw, hc]
          rw [hv]
          refine ⟨⟨fun _ => Or.inr ⟨rfl, hw, hx, by tauto⟩, fun _ => rfl⟩, ?_, ?_⟩
          · intro _ _ _ hn
            exact absurd (by tauto) hn
          · intro _ h
            exact absurd h hw
        · have hv : getSectionOrder SHO getTargetSectionOrder
              ⟨name, .Regular, type, flag, addr, offset, size, align, index⟩
              = SHO.SHO_DATA := by
            simp [getSectionOrder, halloc2, hx, hw, hc]
          rw [hv]
          refine ⟨⟨fun h => absurd h hDATAs, ?_⟩, fun _ _ _ _ => rfl, ?_⟩
          · rintro (⟨h, _⟩ | ⟨_, _, _, h⟩)
            · exact absurd h (by decide)
            · exact absurd (by tauto) hc
          · intro _ h
            exact absurd h hw
    · by_cases hi : name = ".init" <;> by_cases hf : name = ".fini" <;>
        simp [getSectionOrder, halloc2, hx, hi, hf, hINITs, hFINIs, hTEXTs]
  case NamePool =>
    by_cases hd : name = ".dynamic" <;>
      simp [getSectionOrder, halloc2, hd, hNAMEPOOLs]
  case Relocation =>
    by_cases hp : hasSubstring name "plt" = true <;>
      simp [getSectionOrder, halloc2, hp, hREL_PLTs, hRELOCATIONs]
  all_goals
    simp [getSectionOrder, halloc2, h0s, hINTERPs, hBSSs, hUNDEFINEDs]

/-- The section `.init_array` of the examples gets `SHO_RELRO`, `.data` gets
`SHO_DATA` and `.rodata` gets `SHO_RO`. -/
theorem getSectionOrder_relro_iff_witness :
    Example.orders.Distinct ∧
    getSectionOrder Example.orders Example.targetOrder Example.initArray
      = Example.orders.SHO_RELRO ∧
    getSectionOrder Example.orders Example.targetOrder Example.data
      = Example.orders.SHO_DATA ∧
    getSectionOrder Example.orders Example.targetOrder Example.rodata
      = Example.orders.SHO_RO :=
  ⟨by decide,
   (getSectionOrder_relro_iff Example.orders Example.targetOrder Example.initArray
      (by decide) (by decide) (by decide)).1.2
      (Or.inr ⟨rfl, by decide, by decide, Or.inl rfl⟩),
   (getSectionOrder_relro_iff Example.orders Example.targetOrder Example.data
      (by decide) (by decide) (by decide)).2.1 rfl (by decide) (by decide) (by decide),
   (getSectionOrder_relro_iff Example.orders Example.targetOrder Example.rodata
      (by decide) (by decide) (by decide)).2.2 rfl (by decide) (by decide)⟩

/-! ### `sectionStartOffset` -/

/-- C24, the code on a 32-bit backend: `sectionStartOffset` is 624 on the
32-bit backend of the examples, where the header types of the bit class give
`52 + 10 * 32 = 372`. -/
theorem sectionStartOffset_32bit_backend :
    Example.backend.bitclass = 32 ∧
    ELF.sizeof_Elf32_Ehdr + 10 * ELF.sizeof_Elf32_Phdr = 372 ∧
    sectionStartOffset Example.backend = 624 ∧
    sectionStartOffset Example.backend
      ≠ ELF.sizeof_Elf32_Ehdr + 10 * ELF.sizeof_Elf32_Phdr := by
  decide

/-- C24, amended: `sectionStartOffset` equals
`sizeof(Elf64_Ehdr) + 10 * sizeof(Elf64_Phdr) = 64 + 10 * 56 = 624` for every
backend, whatever its bit class; this is the sum for the header types of the
bit class on a 64-bit backend only. -/
theorem sectionStartOffset_fixed (B : GNULDBackend) :
    sectionStartOffset B = ELF.sizeof_Elf64_Ehdr + 10 * ELF.sizeof_Elf64_Phdr ∧
    sectionStartOffset B = 624 ∧
    (sectionStartOffset B =
      (if 32 = B.bitclass then ELF.sizeof_Elf32_Ehdr else ELF.sizeof_Elf64_Ehdr) +
        10 * (if 32 = B.bitclass then ELF.sizeof_Elf32_Phdr else ELF.sizeof_Elf64_Phdr)
      ↔ 32 ≠ B.bitclass) := by
  refine ⟨rfl, rfl, ?_⟩
  by_cases h : 32 = B.bitclass
  · have hb : B.bitclass = 32 := h.symm
    simp [hb, sectionStartOffset, ELF.sizeof_Elf64_Ehdr, ELF.sizeof_Elf64_Phdr,
      ELF.sizeof_Elf32_Ehdr, ELF.sizeof_Elf32_Phdr]
  · simp [h, sectionStartOffset]

/-! ### `getSymbolInfo` -/

/-- The packing of a type code below 16 and a binding code below 16 into one
byte can be undone. -/
theorem getSymbolInfo.pack_unpack :
    ∀ t, t < 16 → ∀ b, b < 16 →
      (t ||| (b <<< 4)) < 256 ∧ (t ||| (b <<< 4)) &&& 0xf = t ∧
        (t ||| (b <<< 4)) >>> 4 = b := by
  decide

/-- C29: for every symbol whose type code is below 16, `getSymbolInfo` packs
binding and type into one byte that decodes back: the value is below 256,
`info & 0xf` is the symbol type, and `info >> 4` is `STB_LOCAL` (0) for a
local symbol, `STB_GLOBAL` (1) for a global symbol and `STB_WEAK` (2) for a
weak symbol. -/
theorem getSymbolInfo_decodes (s : LDSymbol) (htype : s.type < 16) :
    getSymbolInfo s < 256 ∧
    getSymbolInfo s &&& 0xf = s.type ∧
    (s.resolveInfo.isLocal = true → getSymbolInfo s >>> 4 = ELF.STB_LOCAL) ∧
    (s.resolveInfo.isGlobal = true → getSymbolInfo s >>> 4 = ELF.STB_GLOBAL) ∧
    (s.resolveInfo.isWeak = true → getSymbolInfo s >>> 4 = ELF.STB_WEAK) ∧
    ELF.STB_LOCAL = 0 ∧ ELF.STB_GLOBAL = 1 ∧ ELF.STB_WEAK = 2 := by
  obtain ⟨⟨name, isSymbol, isDyn, desc, binding, visibility, value, size, type, reserved⟩,
    v⟩ := s
  simp only [LDSymbol.type] at htype
  cases binding
  case Local =>
    obtain ⟨h1, h2, h3⟩ := getSymbolInfo.pack_unpack type htype 0 (by decide)
    simp [getSymbolInfo, ResolveInfo.isLocal, ResolveInfo.isGlobal, ResolveInfo.isWeak,
      LDSymbol.type, ELF.STB_LOCAL, ELF.STB_GLOBAL, ELF.STB_WEAK] at h1 h2 h3 ⊢
    exact ⟨h1, h2, h3⟩
  case Global =>
    obtain ⟨h1, h2, h3⟩ := getSymbolInfo.pack_unpack type htype 1 (by decide)
    simp [getSymbolInfo, ResolveInfo.isLocal, ResolveInfo.isGlobal, ResolveInfo.isWeak,
      LDSymbol.type, ELF.STB_LOCAL, ELF.STB_GLOBAL, ELF.STB_WEAK] at h1 h2 h3 ⊢
    exact ⟨h1, h2, h3⟩
  case Weak =>
    obtain ⟨h1, h2, h3⟩ := getSymbolInfo.pack_unpack type htype 2 (by decide)
    simp [getSymbolInfo, ResolveInfo.isLocal, ResolveInfo.isGlobal, ResolveInfo.isWeak,
      LDSymbol.type, ELF.STB_LOCAL, ELF.STB_GLOBAL, ELF.STB_WEAK] at h1 h2 h3 ⊢
    exact ⟨h1, h2, h3⟩
  case Absolute =>
    obtain ⟨h1, h2, h3⟩ := getSymbolInfo.pack_unpack type htype 0 (by decide)
    simp [getSymbolInfo, ResolveInfo.isLocal, ResolveInfo.isGlobal, ResolveInfo.isWeak,
      LDSymbol.type, ELF.STB_LOCAL, ELF.STB_GLOBAL, ELF.STB_WEAK] at h1 h2 h3 ⊢
    exact ⟨h1, h2⟩

/-- A local and a weak function of the examples: the packed bytes are `0x02`
and `0x22`. -/
theorem getSymbolInfo_decodes_witness :
    Example.localFunc.type < 16 ∧ Example.weakFunc.type < 16 ∧
    getSymbolInfo Example.localFunc = 2 ∧
    getSymbolInfo Example.localFunc &&& 0xf = 2 ∧
    getSymbolInfo Example.localFunc >>> 4 = 0 ∧
    getSymbolInfo Example.weakFunc = 34 ∧
    getSymbolInfo Example.weakFunc &&& 0xf = 2 ∧
    getSymbolInfo Example.weakFunc >>> 4 = 2 :=
  ⟨by decide, by decide, by decide,
   (getSymbolInfo_decodes Example.localFunc (by decide)).2.1,
   (getSymbolInfo_decodes Example.localFunc (by decide)).2.2.1 rfl,
   by decide,
   (getSymbolInfo_decodes Example.weakFunc (by decide)).2.1,
   (getSymbolInfo_decodes Example.weakFunc (by decide)).2.2.2.2.1 rfl⟩

/-! ### `TernaryOp::appendOperand` -/

/-- With a fill counter `c` below 3 the call stores the operand in slot `c`
and leaves the counter at `(c + 1) mod 3`. -/
theorem TernaryOp.appendOperand_of_size (c : Nat) (slots : List (Option Nat)) (p : Nat)
    (hc : c < 3) :
    TernaryOp.appendOperand ⟨some c, slots⟩ p
      = some ⟨some ((c + 1) % 3), slots.set c (some p)⟩ := by
  have h : c = 0 ∨ c = 1 ∨ c = 2 := by omega
  rcases h with rfl | rfl | rfl <;> simp [TernaryOp.appendOperand]

/-- From a fill counter below 3 every sequence of calls is defined, and the
counter ends at the count of calls added to it, modulo 3. -/
theorem TernaryOp.appendOperands_of_size (ps : List Nat) :
    ∀ (c : Nat) (slots : List (Option Nat)), c < 3 →
      ∃ op, TernaryOp.appendOperands ⟨some c, slots⟩ ps = some op ∧
        op.m_Size = some ((c + ps.length) % 3) ∧
        op.m_pOperand.length = slots.length := by
  induction ps with
  | nil =>
    intro c slots hc
    exact ⟨_, rfl, by simp [Nat.mod_eq_of_lt hc], rfl⟩
  | cons p ps ih =>
    intro c slots hc
    obtain ⟨op, h1, h2, h3⟩ := ih ((c + 1) % 3) (slots.set c (some p))
      (Nat.mod_lt _ (by decide))
    refine ⟨op, ?_, ?_, ?_⟩
    · simp [TernaryOp.appendOperands, TernaryOp.appendOperand_of_size c slots p hc, h1]
    · rw [h2, List.length_cons]
      congr 1
      omega
    · rw [h3, List.length_set]

/-- From a zero fill counter, the call number `k + 1` stores its operand in
slot `k mod 3`, and the counter is then `(k + 1) mod 3`: 0 after every third
call. -/
theorem TernaryOp.appendOperands_from_zero (pre : List Nat) (p : Nat) :
    ∃ op1 op2, TernaryOp.appendOperands ⟨some 0, [none, none, none]⟩ pre = some op1 ∧
      op1.appendOperand p = some op2 ∧
      TernaryOp.appendOperands ⟨some 0, [none, none, none]⟩ (pre ++ [p]) = some op2 ∧
      op2.m_pOperand = op1.m_pOperand.set (pre.length % 3) (some p) ∧
      op2.m_pOperand[pre.length % 3]? = some (some p) ∧
      op2.m_Size = some ((pre.length + 1) % 3) := by
  have happ : ∀ (l : List Nat) (a b : TernaryOp),
      TernaryOp.appendOperands a l = some b →
      TernaryOp.appendOperands a (l ++ [p]) = b.appendOperand p := by
    intro l
    induction l with
    | nil =>
      intro a b h
      simp only [TernaryOp.appendOperands, Option.some.injEq] at h
      subst h
      cases hq : a.appendOperand p <;> simp [TernaryOp.appendOperands, hq]
    | cons x l ih =>
      intro a b h
      cases hx : a.appendOperand x with
      | none => simp [TernaryOp.appendOperands, hx] at h
      | some a1 =>
        simp only [TernaryOp.appendOperands, hx, Option.some_bind] at h
        simp only [List.cons_append, TernaryOp.appendOperands, hx, Option.some_bind]
        exact ih a1 b h
  obtain ⟨op1, h1, h2, h3⟩ := TernaryOp.appendOperands_of_size pre 0 [none, none, none]
    (by decide)
  obtain ⟨size, slots⟩ := op1
  simp only [Nat.zero_add] at h2
  simp only at h2 h3
  subst h2
  have hlt : pre.length % 3 < 3 := Nat.mod_lt _ (by decide)
  have hstep := TernaryOp.appendOperand_of_size (pre.length % 3) slots p hlt
  refine ⟨_, _, h1, hstep, ?_, rfl, ?_, ?_⟩
  · rw [happ pre _ _ h1, hstep]
  · simp only [List.getElem?_set_self (by rw [h3]; exact hlt)]
  · simp only [Option.some.injEq]
    omega

/-- C30, the code on a newly constructed `TernaryOp`: the constructor leaves
`m_Size` without a value, so the first call of `appendOperand`, which reads
it to index the operand array, has no defined result, and neither has any
non-empty sequence of calls; no slot `(k - 1) mod 3` is determined. -/
theorem TernaryOp.appendOperand_new_undefined (pOperand : Nat) (ps : List Nat) :
    TernaryOp.new.m_Size = none ∧
    TernaryOp.new.m_pOperand = [none, none, none] ∧
    TernaryOp.new.appendOperand pOperand = none ∧
    TernaryOp.new.appendOperands (pOperand :: ps) = none := by
  refine ⟨rfl, rfl, rfl, ?_⟩
  simp [TernaryOp.appendOperands, TernaryOp.appendOperand, TernaryOp.new]

/-! ### `emitDynNamePools` against `sizeNamePools` -/

/-- The input loop of `emitDynNamePools` follows the rule `needsEntry`. -/
theorem emitDynNamePools.emitNeeded_eq (st : emitDynNamePools.State) (input : Input) :
    emitDynNamePools.emitNeeded st input =
      if needsEntry input then emitDynNamePools.writeNeeded st input else st := by
  unfold emitDynNamePools.emitNeeded needsEntry
  by_cases h1 : input.type = Input.Type.DynObj <;>
    cases h2 : input.attr.isAddNeeded <;>
    cases h3 : input.attr.isAsNeeded <;>
    cases h4 : input.isNeeded <;> simp [h1]

/-- The input loop of `emitDynNamePools` advances the offset by the bytes of
the names of the inputs that get an entry, and gives a value to one entry for
each of them. -/
theorem emitDynNamePools.foldl_emitNeeded_counters (l : List Input) :
    ∀ st : emitDynNamePools.State,
      (l.foldl emitDynNamePools.emitNeeded st).strtabsize
        = st.strtabsize + inputNameBytes (l.filter needsEntry) ∧
      (l.foldl emitDynNamePools.emitNeeded st).needs.length
        = st.needs.length + (l.filter needsEntry).length := by
  induction l with
  | nil => intro st; simp [inputNameBytes]
  | cons x l ih =>
    intro st
    rw [List.foldl_cons, emitDynNamePools.emitNeeded_eq]
    by_cases hx : needsEntry x = true
    · obtain ⟨h1, h2⟩ := ih (emitDynNamePools.writeNeeded st x)
      simp only [hx, if_true, List.filter_cons_of_pos]
      rw [h1, h2]
      simp only [emitDynNamePools.writeNeeded, inputNameBytes, List.map_cons,
        List.sum_cons, List.length_append, List.length_cons, List.length_nil]
      omega
    · have hxf : needsEntry x = false := by simpa using hx
      obtain ⟨h1, h2⟩ := ih st
      simp only [hxf, Bool.false_eq_true, if_false]
      rw [List.filter_cons_of_neg (by simp [hxf])]
      exact ⟨h1, h2⟩

/-- The result of `emitDynNamePools` for an Exec or DynObj output and a
supported bit class, in terms of the state after the two loops. -/
theorem emitDynNamePools_pools (bitclass : Nat) (pLayout : LDSymbol → Nat)
    (hash_func : String → Nat) (out : Output) (ldinfo : MCLDInfo)
    (symtab0 : Nat → ElfSym) (strtab0 : Nat → Char) (hash0 : Nat → Nat) (hash_size : Nat)
    (hty : out.type = Output.Type.Exec ∨ out.type = Output.Type.DynObj)
    (hbit : bitclass = 32 ∨ bitclass = 64) :
    ∃ pools,
      emitDynNamePools bitclass pLayout hash_func out ldinfo symtab0 strtab0 hash0 hash_size
        = .ok (some pools) ∧
      pools.symtab
        = (emitDynNamePools.afterNeeded bitclass pLayout out ldinfo symtab0 strtab0).symtab ∧
      pools.strtab
        = strcpy
          (emitDynNamePools.afterNeeded bitclass pLayout out ldinfo symtab0 strtab0).strtab
          (emitDynNamePools.afterNeeded bitclass pLayout out ldinfo symtab0
            strtab0).strtabsize out.name.toList ∧
      pools.symtabIdx
        = (emitDynNamePools.afterNeeded bitclass pLayout out ldinfo symtab0
            strtab0).symtabIdx ∧
      pools.strtabsize
        = (emitDynNamePools.afterNeeded bitclass pLayout out ldinfo symtab0
            strtab0).strtabsize + (out.name.length + 1) ∧
      pools.needs
        = (emitDynNamePools.afterNeeded bitclass pLayout out ldinfo symtab0 strtab0).needs ∧
      pools.soname
        = (emitDynNamePools.afterNeeded bitclass pLayout out ldinfo symtab0
            strtab0).strtabsize := by
  have hbit' : 32 = bitclass ∨ 64 = bitclass := by omega
  unfold emitDynNamePools emitDynNamePools.afterNeeded emitDynNamePools.afterSymbols
  rcases hty with h | h <;> simp only [h, hbit', if_true] <;>
    exact ⟨_, rfl, rfl, rfl, rfl, rfl, rfl, rfl⟩

/-- The counters of `emitDynNamePools` after its two loops. -/
theorem emitDynNamePools.afterNeeded_counters (bitclass : Nat) (pLayout : LDSymbol → Nat)
    (out : Output) (ldinfo : MCLDInfo) (symtab0 : Nat → ElfSym) (strtab0 : Nat → Char) :
    (emitDynNamePools.afterNeeded bitclass pLayout out ldinfo symtab0 strtab0).symtabIdx
      = 1 + (dynamicSymbols out out.symbols).length ∧
    (emitDynNamePools.afterNeeded bitclass pLayout out ldinfo symtab0 strtab0).strtabsize
      = 1 + nameBytes (dynamicSymbols out out.symbols)
          + inputNameBytes (neededInputs ldinfo) ∧
    (emitDynNamePools.afterNeeded bitclass pLayout out ldinfo symtab0 strtab0).needs.length
      = (neededInputs ldinfo).length ∧
    (emitDynNamePools.afterSymbols bitclass pLayout out symtab0 strtab0).strtabsize
      = 1 + nameBytes (dynamicSymbols out out.symbols) ∧
    (emitDynNamePools.afterSymbols bitclass pLayout out symtab0 strtab0).needs = [] := by
  obtain ⟨a1, a2, a3, _⟩ := emitDynNamePools.foldl_emitSymbol bitclass pLayout out
    out.symbols
    { symtab := Function.update symtab0 0 ⟨0, 0, 0, 0, 0, 0⟩,
      strtab := Function.update strtab0 0 NUL,
      symtabIdx := 1, strtabsize := 1, needs := [] }
  obtain ⟨_, n2⟩ := emitDynNamePools.foldl_emitNeeded_symtab ldinfo.inputs
    (emitDynNamePools.afterSymbols bitclass pLayout out symtab0 strtab0)
  obtain ⟨c1, c2⟩ := emitDynNamePools.foldl_emitNeeded_counters ldinfo.inputs
    (emitDynNamePools.afterSymbols bitclass pLayout out symtab0 strtab0)
  unfold emitDynNamePools.afterNeeded neededInputs
  rw [n2, c1, c2]
  unfold emitDynNamePools.afterSymbols
  rw [a1, a2, a3]
  simp

/-- The call `strcpy` of a source without NUL leaves the source and a NUL at
the destination. -/
theorem strcpy_content (src : List Char) :
    ∀ (mem : Nat → Char) (dst : Nat), NUL ∉ src →
      (List.range (src.length + 1)).map (fun j => strcpy mem dst src (dst + j))
        = src ++ [NUL] := by
  induction src with
  | nil =>
    intro mem dst _
    simp [strcpy, List.range_succ]
  | cons c cs ih =>
    intro mem dst hnul
    have hc : c ≠ NUL := fun h => hnul (by rw [h]; exact List.mem_cons_self _ _)
    have hcs : NUL ∉ cs := fun h => hnul (List.mem_cons_of_mem _ h)
    have hstep : ∀ i, strcpy mem dst (c :: cs) i
        = strcpy (Function.update mem dst c) (dst + 1) cs i := by
      intro i
      simp [strcpy, hc]
    rw [List.length_cons, List.range_succ_eq_map, List.map_cons, List.map_map,
      List.cons_append]
    congr 1
    · show strcpy mem dst (c :: cs) dst = c
      rw [hstep, strcpy_below _ _ _ _ (Nat.lt_succ_self dst)]
      simp
    · rw [← ih (Function.update mem dst c) (dst + 1) hcs]
      apply List.map_congr_left
      intro j _
      simp only [Function.comp_apply, hstep]
      congr 1
      omega

theorem cstringAt_strcpy (mem : Nat → Char) (dst : Nat) (name : String)
    (hnul : NUL ∉ name.toList) : cstringAt (strcpy mem dst name.toList) dst name :=
  strcpy_content name.toList mem dst hnul

/-- A string of a region is found in every region that has the same bytes
below a bound above the string. -/
theorem cstringAt_congr (mem mem2 : Nat → Char) (off bound : Nat) (name : String)
    (h : cstringAt mem off name) (hbound : off + name.length < bound)
    (hsame : ∀ i, i < bound → mem2 i = mem i) : cstringAt mem2 off name := by
  unfold cstringAt at h ⊢
  rw [← h]
  apply List.map_congr_left
  intro j hj
  rw [List.mem_range] at hj
  exact hsame _ (by omega)

/-- The characters read from the offset of a string without NUL up to the
next NUL are the string. -/
theorem readCStr_of_cstringAt (mem : Nat → Char) (name : List Char) :
    ∀ (off fuel : Nat), NUL ∉ name →
      (List.range (name.length + 1)).map (fun j => mem (off + j)) = name ++ [NUL] →
      name.length < fuel → readCStr mem off fuel = name := by
  induction name with
  | nil =>
    intro off fuel _ h hfuel
    obtain ⟨f, rfl⟩ : ∃ f, fuel = f + 1 := ⟨fuel - 1, by simp at hfuel; omega⟩
    simp [List.range_succ] at h
    simp [readCStr, h]
  | cons c cs ih =>
    intro off fuel hnul h hfuel
    have hc : c ≠ NUL := fun h => hnul (by rw [h]; exact List.mem_cons_self _ _)
    have hcs : NUL ∉ cs := fun h => hnul (List.mem_cons_of_mem _ h)
    obtain ⟨f, rfl⟩ : ∃ f, fuel = f + 1 := ⟨fuel - 1, by simp at hfuel; omega⟩
    rw [List.length_cons, List.range_succ_eq_map, List.map_cons, List.map_map,
      List.cons_append, List.cons.injEq] at h
    obtain ⟨h0, hrest⟩ := h
    rw [Nat.add_zero] at h0
    have hrest2 : (List.range (cs.length + 1)).map (fun j => mem (off + 1 + j))
        = cs ++ [NUL] := by
      rw [← hrest]
      apply List.map_congr_left
      intro j _
      simp only [Function.comp_apply]
      congr 1
      omega
    simp only [readCStr, h0, hc, if_false]
    rw [ih (off + 1) f hcs hrest2 (by simp at hfuel; omega)]

/-- The symbol loop of `emitDynNamePools` leaves the name of the `k`-th dynamic
symbol of the list, if it has no NUL, at the offset that the names of the
dynamic symbols before it leave, below the final offset. -/
theorem emitDynNamePools.foldl_emitSymbol_names (bitclass : Nat)
    (pLayout : LDSymbol → Nat) (out : Output) (l : List LDSymbol) :
    ∀ (st : emitDynNamePools.State) (k : Nat) (s : LDSymbol),
      (dynamicSymbols out l)[k]? = some s → NUL ∉ s.name.toList →
      cstringAt (l.foldl (emitDynNamePools.emitSymbol bitclass pLayout out) st).strtab
        (st.strtabsize + nameBytes ((dynamicSymbols out l).take k)) s.name ∧
      st.strtabsize + nameBytes ((dynamicSymbols out l).take k) + s.name.length
        < (l.foldl (emitDynNamePools.emitSymbol bitclass pLayout out) st).strtabsize := by
  induction l with
  | nil => intro st k s h; simp [dynamicSymbols] at h
  | cons x l ih =>
    intro st k s h hnul
    rw [List.foldl_cons]
    by_cases hx : isDynamicSymbol x out = true
    · have hd : dynamicSymbols out (x :: l) = x :: dynamicSymbols out l := by
        simp [dynamicSymbols, hx]
      have hst : emitDynNamePools.emitSymbol bitclass pLayout out st x =
          { st with
            symtab := Function.update st.symtab st.symtabIdx
              (symbolEntry bitclass pLayout st.strtabsize x),
            strtab := strcpy st.strtab st.strtabsize x.name.toList,
            symtabIdx := st.symtabIdx + 1,
            strtabsize := st.strtabsize + (x.nameSize + 1) } := by
        simp [emitDynNamePools.emitSymbol, hx]
      rw [hd] at h ⊢
      rw [hst]
      cases k with
      | zero =>
        simp only [List.getElem?_cons_zero, Option.some.injEq] at h
        subst h
        obtain ⟨_, h2, _, _⟩ := emitDynNamePools.foldl_emitSymbol bitclass pLayout out l
          { st with
            symtab := Function.update st.symtab st.symtabIdx
              (symbolEntry bitclass pLayout st.strtabsize x),
            strtab := strcpy st.strtab st.strtabsize x.name.toList,
            symtabIdx := st.symtabIdx + 1,
            strtabsize := st.strtabsize + (x.nameSize + 1) }
        have h5 := emitDynNamePools.foldl_emitSymbol_strtab bitclass pLayout out l
          { st with
            symtab := Function.update st.symtab st.symtabIdx
              (symbolEntry bitclass pLayout st.strtabsize x),
            strtab := strcpy st.strtab st.strtabsize x.name.toList,
            symtabIdx := st.symtabIdx + 1,
            strtabsize := st.strtabsize + (x.nameSize + 1) }
        simp only at h2 h5
        have hlen : x.nameSize = x.name.length := rfl
        simp only [List.take_zero, nameBytes, List.map_nil, List.sum_nil, Nat.add_zero]
        refine ⟨?_, by rw [h2]; omega⟩
        exact cstringAt_congr _ _ _ (st.strtabsize + (x.nameSize + 1)) _
          (cstringAt_strcpy st.strtab st.strtabsize x.name hnul) (by omega) h5
      | succ j =>
        simp only [List.getElem?_cons_succ] at h
        have := ih
          { st with
            symtab := Function.update st.symtab st.symtabIdx
              (symbolEntry bitclass pLayout st.strtabsize x),
            strtab := strcpy st.strtab st.strtabsize x.name.toList,
            symtabIdx := st.symtabIdx + 1,
            strtabsize := st.strtabsize + (x.nameSize + 1) } j s h hnul
        simp only at this
        rw [List.take_succ_cons, nameBytes_cons]
        rw [show st.strtabsize + (x.nameSize + 1 + nameBytes (List.take j (dynamicSymbols out l)))
          = st.strtabsize + (x.nameSize + 1) + nameBytes (List.take j (dynamicSymbols out l))
          by omega]
        exact this
    · have hd : dynamicSymbols out (x :: l) = dynamicSymbols out l := by
        simp [dynamicSymbols, hx]
      have hst : emitDynNamePools.emitSymbol bitclass pLayout out st x = st := by
        simp [emitDynNamePools.emitSymbol, hx]
      rw [hd] at h ⊢
      rw [hst]
      exact ih st k s h hnul

/-- The input loop of `emitDynNamePools` only adds values after those already
given. -/
theorem emitDynNamePools.foldl_emitNeeded_needs (l : List Input) :
    ∀ st : emitDynNamePools.State,
      ∃ tail, (l.foldl emitDynNamePools.emitNeeded st).needs = st.needs ++ tail := by
  induction l with
  | nil => intro st; exact ⟨[], by simp⟩
  | cons x l ih =>
    intro st
    rw [List.foldl_cons, emitDynNamePools.emitNeeded_eq]
    by_cases hx : needsEntry x = true
    · obtain ⟨tail, ht⟩ := ih (emitDynNamePools.writeNeeded st x)
      simp only [hx, if_true]
      exact ⟨st.strtabsize :: tail, by rw [ht]; simp [emitDynNamePools.writeNeeded]⟩
    · have hxf : needsEntry x = false := by simpa using hx
      simp only [hxf, Bool.false_eq_true, if_false]
      exact ih st

/-- The input loop of `emitDynNamePools` gives the `k`-th entry the offset that
the names of the inputs before it leave, and leaves the name of the `k`-th
input that gets an entry, if it has no NUL, at that offset. -/
theorem emitDynNamePools.foldl_emitNeeded_names (l : List Input) :
    ∀ (st : emitDynNamePools.State) (k : Nat) (input : Input),
      (l.filter needsEntry)[k]? = some input →
      (l.foldl emitDynNamePools.emitNeeded st).needs[st.needs.length + k]?
        = some (st.strtabsize + inputNameBytes ((l.filter needsEntry).take k)) ∧
      (NUL ∉ input.name.toList →
        cstringAt (l.foldl emitDynNamePools.emitNeeded st).strtab
          (st.strtabsize + inputNameBytes ((l.filter needsEntry).take k)) input.name) ∧
      st.strtabsize + inputNameBytes ((l.filter needsEntry).take k) + input.name.length
        < (l.foldl emitDynNamePools.emitNeeded st).strtabsize := by
  induction l with
  | nil => intro st k input h; simp at h
  | cons x l ih =>
    intro st k input h
    rw [List.foldl_cons, emitDynNamePools.emitNeeded_eq]
    by_cases hx : needsEntry x = true
    · rw [List.filter_cons_of_pos hx] at h ⊢
      simp only [hx, if_true]
      cases k with
      | zero =>
        simp only [List.getElem?_cons_zero, Option.some.injEq] at h
        subst h
        obtain ⟨tail, ht⟩ := emitDynNamePools.foldl_emitNeeded_needs l
          (emitDynNamePools.writeNeeded st x)
        obtain ⟨n1, n2⟩ := emitDynNamePools.foldl_emitNeeded_strtab l
          (emitDynNamePools.writeNeeded st x)
        have hsz : (emitDynNamePools.writeNeeded st x).strtabsize
            = st.strtabsize + (x.name.length + 1) := rfl
        rw [hsz] at n1 n2
        simp only [List.take_zero, inputNameBytes, List.map_nil, List.sum_nil, Nat.add_zero]
        refine ⟨?_, ?_, by omega⟩
        · rw [ht]
          show ((st.needs ++ [st.strtabsize]) ++ tail)[st.needs.length + 0]? = _
          rw [List.append_assoc, Nat.add_zero, List.getElem?_append_right (le_refl _)]
          simp
        · intro hnul
          exact cstringAt_congr _ _ _ (st.strtabsize + (x.name.length + 1)) _
            (cstringAt_strcpy st.strtab st.strtabsize x.name hnul) (by omega) n2
      | succ j =>
        simp only [List.getElem?_cons_succ] at h
        have := ih (emitDynNamePools.writeNeeded st x) j input h
        have hsz : (emitDynNamePools.writeNeeded st x).strtabsize
            = st.strtabsize + (x.name.length + 1) := rfl
        have hnd : (emitDynNamePools.writeNeeded st x).needs.length
            = st.needs.length + 1 := by
          simp [emitDynNamePools.writeNeeded]
        rw [hsz, hnd] at this
        have hoff : st.strtabsize
            + inputNameBytes (List.take (j + 1) (x :: List.filter needsEntry l))
            = st.strtabsize + (x.name.length + 1)
              + inputNameBytes (List.take j (List.filter needsEntry l)) := by
          simp only [List.take_succ_cons, inputNameBytes, List.map_cons, List.sum_cons]
          omega
        rw [hoff, show st.needs.length + (j + 1) = st.needs.length + 1 + j by omega]
        exact this
    · have hxf : needsEntry x = false := by simpa using hx
      rw [List.filter_cons_of_neg (by simp [hxf])] at h ⊢
      simp only [hxf, Bool.false_eq_true, if_false]
      exact ih st k input h

/-- C25: for an Exec or DynObj output and either bit class, every name offset
that `emitDynNamePools` records is the `.dynstr` offset at which the bytes of
that name, followed by a NUL, start, the name having no embedded NUL: the
`st_name` of the `k`-th dynamic symbol (an offset below `2 ^ 32`, the width of
`st_name`), from which the name is read back; the value of the `k`-th
`DT_NEEDED` entry, for the `k`-th input that passes the add-needed/as-needed
rule; and the `DT_SONAME` offset, which is the running string-table size just
before the output name is written. -/
theorem emitDynNamePools_name_offsets (bitclass : Nat) (pLayout : LDSymbol → Nat)
    (hash_func : String → Nat) (out : Output) (ldinfo : MCLDInfo)
    (symtab0 : Nat → ElfSym) (strtab0 : Nat → Char) (hash0 : Nat → Nat) (hash_size : Nat)
    (hty : out.type = Output.Type.Exec ∨ out.type = Output.Type.DynObj)
    (hbit : bitclass = 32 ∨ bitclass = 64) :
    ∃ pools,
      emitDynNamePools bitclass pLayout hash_func out ldinfo symtab0 strtab0 hash0 hash_size
        = .ok (some pools) ∧
      (∀ (k : Nat) (s : LDSymbol), (dynamicSymbols out out.symbols)[k]? = some s →
        NUL ∉ s.name.toList →
        1 + nameBytes ((dynamicSymbols out out.symbols).take k) < 2 ^ 32 →
        (pools.symtab (1 + k)).st_name
          = 1 + nameBytes ((dynamicSymbols out out.symbols).take k) ∧
        cstringAt pools.strtab (pools.symtab (1 + k)).st_name s.name ∧
        pools.name (1 + k) = s.name) ∧
      (∀ (k : Nat) (input : Input), (neededInputs ldinfo)[k]? = some input →
        NUL ∉ input.name.toList →
        pools.needs[k]? = some (1 + nameBytes (dynamicSymbols out out.symbols)
          + inputNameBytes ((neededInputs ldinfo).take k)) ∧
        cstringAt pools.strtab (1 + nameBytes (dynamicSymbols out out.symbols)
          + inputNameBytes ((neededInputs ldinfo).take k)) input.name) ∧
      pools.needs.length = (neededInputs ldinfo).length ∧
      pools.soname + (out.name.length + 1) = pools.strtabsize ∧
      pools.soname = 1 + nameBytes (dynamicSymbols out out.symbols)
        + inputNameBytes (neededInputs ldinfo) ∧
      (NUL ∉ out.name.toList → cstringAt pools.strtab pools.soname out.name) := by
  obtain ⟨pools, e1, e2, e3, _, e5, e6, e7⟩ := emitDynNamePools_pools bitclass pLayout
    hash_func out ldinfo symtab0 strtab0 hash0 hash_size hty hbit
  obtain ⟨_, c2, c3, c4, c5⟩ := emitDynNamePools.afterNeeded_counters bitclass pLayout out
    ldinfo symtab0 strtab0
  have hS2 : emitDynNamePools.afterNeeded bitclass pLayout out ldinfo symtab0 strtab0
      = ldinfo.inputs.foldl emitDynNamePools.emitNeeded
          (emitDynNamePools.afterSymbols bitclass pLayout out symtab0 strtab0) := rfl
  have hS1 : emitDynNamePools.afterSymbols bitclass pLayout out symtab0 strtab0
      = out.symbols.foldl (emitDynNamePools.emitSymbol bitclass pLayout out)
          { symtab := Function.update symtab0 0 ⟨0, 0, 0, 0, 0, 0⟩,
            strtab := Function.update strtab0 0 NUL,
            symtabIdx := 1, strtabsize := 1, needs := [] } := rfl
  obtain ⟨n1, _⟩ := emitDynNamePools.foldl_emitNeeded_symtab ldinfo.inputs
    (emitDynNamePools.afterSymbols bitclass pLayout out symtab0 strtab0)
  obtain ⟨n3, n4⟩ := emitDynNamePools.foldl_emitNeeded_strtab ldinfo.inputs
    (emitDynNamePools.afterSymbols bitclass pLayout out symtab0 strtab0)
  rw [← hS2] at n1 n3 n4
  generalize emitDynNamePools.afterNeeded bitclass pLayout out ldinfo symtab0 strtab0
    = S2 at e2 e3 e5 e6 e7 c2 c3 hS2 n1 n3 n4
  generalize emitDynNamePools.afterSymbols bitclass pLayout out symtab0 strtab0
    = S1 at c4 c5 hS1 hS2 n1 n3 n4
  have hpools : ∀ i, i < S2.strtabsize → pools.strtab i = S2.strtab i := by
    intro i hi
    rw [e3]
    exact strcpy_below _ _ _ _ hi
  refine ⟨pools, e1, ?_, ?_, ?_, ?_, ?_, ?_⟩
  · intro k s hs hnul hfit
    have hentry := emitDynNamePools.foldl_emitSymbol_entry bitclass pLayout out
      out.symbols
      { symtab := Function.update symtab0 0 ⟨0, 0, 0, 0, 0, 0⟩,
        strtab := Function.update strtab0 0 NUL,
        symtabIdx := 1, strtabsize := 1, needs := [] } k s hs
    obtain ⟨hname, hlt⟩ := emitDynNamePools.foldl_emitSymbol_names bitclass pLayout out
      out.symbols
      { symtab := Function.update symtab0 0 ⟨0, 0, 0, 0, 0, 0⟩,
        strtab := Function.update strtab0 0 NUL,
        symtabIdx := 1, strtabsize := 1, needs := [] } k s hs hnul
    rw [← hS1] at hentry hname hlt
    simp only at hentry hname hlt
    have hst : (pools.symtab (1 + k)).st_name
        = 1 + nameBytes ((dynamicSymbols out out.symbols).take k) := by
      rw [e2, n1, hentry]
      exact Nat.mod_eq_of_lt hfit
    have hcs : cstringAt pools.strtab
        (1 + nameBytes ((dynamicSymbols out out.symbols).take k)) s.name :=
      cstringAt_congr _ _ _ S1.strtabsize _ hname hlt
        (fun i hi => by rw [hpools i (by omega), n4 i hi])
    refine ⟨hst, by rw [hst]; exact hcs, ?_⟩
    have hlen : s.name.toList.length = s.name.length := rfl
    have hread := readCStr_of_cstringAt pools.strtab s.name.toList
      (1 + nameBytes ((dynamicSymbols out out.symbols).take k))
      (pools.strtabsize - (1 + nameBytes ((dynamicSymbols out out.symbols).take k)))
      hnul hcs (by rw [e5]; omega)
    unfold DynNamePools.name
    rw [hst, hread]
    generalize s.name = nm
    cases nm
    rfl
  · intro k input hk hnul
    obtain ⟨h1, h2, h3⟩ := emitDynNamePools.foldl_emitNeeded_names ldinfo.inputs S1 k
      input hk
    rw [← hS2, c4, c5] at h1
    rw [← hS2, c4] at h2 h3
    simp only [List.length_nil, Nat.zero_add] at h1
    refine ⟨by rw [e6]; exact h1, ?_⟩
    exact cstringAt_congr _ _ _ S2.strtabsize _ (h2 hnul) h3 hpools
  · rw [e6, c3]
  · rw [e7, e5]
  · rw [e7, c2]
  · intro hnul
    rw [e7, e3]
    exact cstringAt_strcpy _ _ _ hnul

/-- The shared object of the examples: `environ` has `st_name` 5, the entry of
`libm.so` has the value 17 and the soname offset is 25; the bytes found at
these offsets of `.dynstr` are the three names. -/
theorem emitDynNamePools_name_offsets_witness :
    Example.lib.type = Output.Type.DynObj ∧
    ∃ pools, emitDynNamePools 64 (fun _ => 1) (fun _ => 0) Example.lib Example.info
        (fun _ => ⟨7, 7, 7, 7, 7, 7⟩) (fun _ => Char.ofNat 120) (fun _ => 9) 32
        = .ok (some pools) ∧
      (pools.symtab 2).st_name = 5 ∧
      cstringAt pools.strtab (pools.symtab 2).st_name "environ" ∧
      pools.name 2 = "environ" ∧
      pools.needs = [17] ∧
      cstringAt pools.strtab 17 "libm.so" ∧
      pools.soname = 25 ∧
      cstringAt pools.strtab 25 "libfoo.so" := by
  obtain ⟨pools, h1, h2, h3, h4, h5, h6, h7⟩ :=
    emitDynNamePools_name_offsets 64 (fun _ => 1) (fun _ => 0) Example.lib Example.info
      (fun _ => ⟨7, 7, 7, 7, 7, 7⟩) (fun _ => Char.ofNat 120) (fun _ => 9) 32
      (Or.inr rfl) (Or.inr rfl)
  have hd : dynamicSymbols Example.lib Example.lib.symbols
      = [Example.sin, Example.environ, Example.marked] := by decide
  have hn : neededInputs Example.info = [Example.libm] := by decide
  rw [hd] at h2 h3 h6
  rw [hn] at h3 h4 h6
  obtain ⟨a1, a2, a3⟩ := h2 1 Example.environ rfl (by decide) (by decide)
  obtain ⟨b1, b2⟩ := h3 0 Example.libm rfl (by decide)
  have hs : pools.soname = 25 := by rw [h6]; decide
  have hneeds : pools.needs = [17] := by
    have hlen : pools.needs.length = 1 := h4
    have h0 : pools.needs[0]? = some 17 := b1
    match hp : pools.needs, hlen, h0 with
    | [x], _, h0 =>
      simp only [List.getElem?_cons_zero, Option.some.injEq] at h0
      rw [h0]
  refine ⟨rfl, pools, h1, a1, a2, a3, hneeds, b2, hs, ?_⟩
  have := h7 (by decide)
  rwa [hs] at this

/-! ### Program headers: a Null first section -/

theorem createProgramHdrs.mem_loadSections (idx : Nat) :
    ∀ segs : List ELFSegment,
      idx ∈ createProgramHdrs.loadSections segs ↔
        ∃ seg ∈ segs, seg.type = ELF.PT_LOAD ∧ idx ∈ seg.sections := by
  intro segs
  induction segs with
  | nil => simp [createProgramHdrs.loadSections]
  | cons x l ih =>
    by_cases hx : x.type = ELF.PT_LOAD
    · simp [createProgramHdrs.loadSections, hx, ih]
    · simp [createProgramHdrs.loadSections, hx, ih]

/-- A section table headed by a section of Null kind: the section loop is
defined on it, the first placed section being the Null section, which opens
a segment. -/
theorem createProgramHdrs.isDefined_of_null (B : GNULDBackend) (first : LDSection)
    (rest : List LDSection) (hnull : first.kind = LDFileFormat.Kind.Null) :
    createProgramHdrs.isDefined B (first :: rest) = true := by
  have hp : createProgramHdrs.isPlaced first = true := by
    simp [createProgramHdrs.isPlaced, hnull]
  unfold createProgramHdrs.isDefined createProgramHdrs.isDefinedFrom
  rw [List.find?_cons_of_pos _ hp]
  simp [createProgramHdrs.opensSegment, hnull]

/-- A segment with sections that are positions of the table has a first and a
last section. -/
theorem createProgramHdrs.first_last_of_updatable (sections : List LDSection)
    (seg : ELFSegment) (hne : seg.sections ≠ [])
    (hvalid : ∀ idx ∈ seg.sections, idx < sections.length) :
    ∃ first last, seg.getFirstSection sections = some first ∧
      seg.getLastSection sections = some last := by
  obtain ⟨i, hi⟩ : ∃ i, seg.sections.head? = some i := by
    cases hs : seg.sections with
    | nil => exact absurd hs hne
    | cons x _ => exact ⟨x, rfl⟩
  obtain ⟨j, hj⟩ : ∃ j, seg.sections.getLast? = some j := by
    cases hs : seg.sections.getLast? with
    | none => exact absurd (List.getLast?_eq_none_iff.mp hs) hne
    | some j => exact ⟨j, rfl⟩
  have hi2 : i < sections.length := hvalid i (List.mem_of_mem_head? hi)
  have hj2 : j < sections.length := hvalid j (List.mem_of_mem_getLast? hj)
  simp only [ELFSegment.getFirstSection, ELFSegment.getLastSection, hi, hj,
    List.getElem?_eq_getElem hi2, List.getElem?_eq_getElem hj2]
  exact ⟨_, _, rfl, rfl⟩

/-- C28: if the first section of the output context is of Null kind, the
section loop of `createProgramHdrs` runs to its end whatever the factory
holds before it, so the current-segment reference is never used before a
`PT_LOAD` has been created; starting from an empty factory the whole function
runs to its end, every placed section is in a `PT_LOAD` of the factory, hence
in one created in this pass, and every segment other than the `PT_PHDR` has a
first and a last section in the section table that the update pass reads. -/
theorem createProgramHdrs_null_first (B : GNULDBackend) (first : LDSection)
    (rest : List LDSection) (hnull : first.kind = LDFileFormat.Kind.Null) :
    (∀ factory0 : List ELFSegment, ∃ st,
      createProgramHdrs.loadLoop B 0 (first :: rest)
        { sections := first :: rest, factory := factory0,
          prev_seg_flag := B.getSegmentFlag 0, padding := 0, load_seg := none }
        = some st ∧ st.load_seg ≠ none) ∧
    ∃ res : ProgramHdrs, createProgramHdrs B (first :: rest) [] = some res ∧
      (∀ idx ∈ createProgramHdrs.placedFrom 0 (first :: rest),
        ∃ seg ∈ res.factory, seg.type = ELF.PT_LOAD ∧ idx ∈ seg.sections) ∧
      (∀ seg ∈ res.factory, seg.type ≠ ELF.PT_PHDR →
        ∃ f l, seg.getFirstSection res.sections = some f ∧
          seg.getLastSection res.sections = some l) := by
  have hdef := createProgramHdrs.isDefined_of_null B first rest hnull
  constructor
  · intro factory0
    have hinv0 : createProgramHdrs.LoadInv factory0 (first :: rest).length
        { sections := first :: rest, factory := factory0,
          prev_seg_flag := B.getSegmentFlag 0, padding := 0, load_seg := none } [] :=
      ⟨by simp, by simp, by simp, by simp, Or.inl ⟨rfl, rfl⟩, rfl⟩
    obtain ⟨st, loads, hloop, hinv, hsecs, _⟩ :=
      createProgramHdrs.loadLoop_spec B factory0 (first :: rest).length (first :: rest) 0 _ []
        hinv0 rfl (Or.inr hdef)
    refine ⟨st, hloop, ?_⟩
    rcases hinv.current with ⟨_, hnil⟩ | ⟨init, seg, _, hk⟩
    · exfalso
      rw [hnil] at hsecs
      have hp : createProgramHdrs.isPlaced first = true := by
        simp [createProgramHdrs.isPlaced, hnull]
      simp [createProgramHdrs.loadSections, createProgramHdrs.placedFrom, hp] at hsecs
    · rw [hk]; simp
  · obtain ⟨res, loads, h1, _, _, _, h5, h6⟩ := createProgramHdrs_spec B (first :: rest) hdef
    obtain ⟨res2, g1, g2⟩ := createProgramHdrs_loadSections B (first :: rest) hdef
    have hres : res2 = res := by
      rw [g1] at h1
      exact Option.some.inj h1
    subst hres
    refine ⟨res2, g1, ?_, ?_⟩
    · intro idx hidx
      rw [← g2] at hidx
      exact (createProgramHdrs.mem_loadSections idx res2.factory).mp hidx
    · intro seg hseg hty
      obtain ⟨seg0, hmem0, t1, _, t3, _⟩ :=
        createProgramHdrs.updateLoop_mem B res2.sections _ _ true h6 seg hseg
      rcases h5 seg0 hmem0 with h | ⟨hne, hvalid⟩
      · exact absurd (t1.trans h) hty
      · exact createProgramHdrs.first_last_of_updatable res2.sections seg
          (by rw [t3]; exact hne) (by rw [t3]; exact hvalid)

/-- The section table of the examples headed by the Null section: the text and
the data sections are in `PT_LOAD` segments, and the second `PT_LOAD` has a
first and a last section. -/
theorem createProgramHdrs_null_first_witness :
    Example.nullSection.kind = LDFileFormat.Kind.Null ∧
    ∃ res : ProgramHdrs,
      createProgramHdrs Example.backend
        [Example.nullSection, Example.text, Example.rodata, Example.data, Example.bss] []
        = some res ∧
      (∃ seg ∈ res.factory, seg.type = ELF.PT_LOAD ∧ 1 ∈ seg.sections) ∧
      (∃ seg ∈ res.factory, seg.type = ELF.PT_LOAD ∧ 3 ∈ seg.sections) ∧
      ∀ seg ∈ res.factory, seg.type ≠ ELF.PT_PHDR →
        ∃ f l, seg.getFirstSection res.sections = some f ∧
          seg.getLastSection res.sections = some l := by
  obtain ⟨_, res, h1, h2, h3⟩ := createProgramHdrs_null_first Example.backend
    Example.nullSection [Example.text, Example.rodata, Example.data, Example.bss] rfl
  exact ⟨rfl, res, h1, h2 1 (by decide), h2 3 (by decide), h3⟩

/-! ### Program headers: the addresses of the sections -/

theorem ELFSegment.getFirstSection_set (seg : ELFSegment) (sections : List LDSection)
    (i : Nat) (x : LDSection) (h : ∀ idx ∈ seg.sections, idx < i) :
    seg.getFirstSection (sections.set i x) = seg.getFirstSection sections := by
  unfold ELFSegment.getFirstSection
  cases hh : seg.sections.head? with
  | none => rfl
  | some f =>
    have hf : f < i := h f (List.mem_of_mem_head? hh)
    simp only
    rw [List.getElem?_set_ne (by omega)]

theorem ELFSegment.getFirstSection_append (seg seg2 : ELFSegment)
    (sections : List LDSection) (i : Nat) (h : seg2.sections = seg.sections ++ [i])
    (hne : seg.sections ≠ []) :
    seg2.getFirstSection sections = seg.getFirstSection sections := by
  unfold ELFSegment.getFirstSection
  rw [h]
  cases hs : seg.sections with
  | nil => exact absurd hs hne
  | cons a l => rfl

/-- The addresses of a segment whose sections are below `i` are not touched by
a write to the section at position `i`. -/
theorem createProgramHdrs.HasSegmentAddrs_set (B : GNULDBackend)
    (sections : List LDSection) (seg : ELFSegment) (i : Nat) (x : LDSection)
    (h : ∀ idx ∈ seg.sections, idx < i)
    (ha : createProgramHdrs.HasSegmentAddrs B sections seg) :
    createProgramHdrs.HasSegmentAddrs B (sections.set i x) seg := by
  obtain ⟨first, h1, h2⟩ := ha
  refine ⟨first, by rw [ELFSegment.getFirstSection_set seg sections i x h, h1], ?_⟩
  intro idx hidx
  obtain ⟨s, hs1, hs2⟩ := h2 idx hidx
  have hlt : idx < i := h idx hidx
  exact ⟨s, by rw [List.getElem?_set_ne (by omega), hs1], hs2⟩

theorem createProgramHdrs.last_of_append_singleton {α : Type} {l1 l2 : List α} {a b : α}
    (h : l1 ++ [a] = l2 ++ [b]) : a = b := by
  have := List.append_inj_right' h rfl
  exact List.head_eq_of_cons_eq this

/-- One iteration of the section loop keeps both invariants. A skipped section
leaves the state as it is; a placed one leaves a current segment. -/
theorem createProgramHdrs.placeSection_inv (B : GNULDBackend) (base : List ELFSegment)
    (n i : Nat) (st : createProgramHdrs.State) (loads : List ELFSegment) (sect : LDSection)
    (hinv : createProgramHdrs.LoadInv base n st loads)
    (haddr : createProgramHdrs.AddrInv B i st loads)
    (hget : st.sections[i]? = some sect) (hin : i < n)
    (hcur : createProgramHdrs.isPlaced sect = true →
      createProgramHdrs.opensSegment B st.prev_seg_flag sect = false →
      st.load_seg ≠ none) :
    ∃ (stn : createProgramHdrs.State) (loads2 : List ELFSegment),
      createProgramHdrs.placeSection B st i sect = some stn ∧
      createProgramHdrs.LoadInv base n stn loads2 ∧
      createProgramHdrs.AddrInv B (i + 1) stn loads2 ∧
      stn.sections.drop (i + 1) = st.sections.drop (i + 1) ∧
      (createProgramHdrs.isPlaced sect = true → stn.load_seg ≠ none) ∧
      (createProgramHdrs.isPlaced sect = false → stn = st) ∧
      stn.sections.map (fun s => { s with addr := 0 })
        = st.sections.map (fun s => { s with addr := 0 }) ∧
      stn.prev_seg_flag
        = (if createProgramHdrs.isPlaced sect then B.getSegmentFlag sect.flag
           else st.prev_seg_flag) ∧
      loads2.map (fun seg => seg.sections)
        = (if createProgramHdrs.isPlaced sect then
            if createProgramHdrs.opensSegment B st.prev_seg_flag sect then
              loads.map (fun seg => seg.sections) ++ [[i]]
            else createProgramHdrs.addToLast (loads.map (fun seg => seg.sections)) i
           else loads.map (fun seg => seg.sections)) := by
  have hlen : i < st.sections.length := by rw [hinv.length_eq]; exact hin
  cases hp : createProgramHdrs.isPlaced sect with
  | false =>
    refine ⟨st, loads, createProgramHdrs.placeSection_skip B st i sect hp, hinv, ?_, rfl,
      fun h => Bool.noConfusion h, fun _ => rfl, rfl, by simp, by simp⟩
    exact ⟨fun seg hs idx hidx => Nat.lt_succ_of_lt (haddr.below seg hs idx hidx),
      haddr.addrs, haddr.padding⟩
  | true =>
    cases ho : createProgramHdrs.opensSegment B st.prev_seg_flag sect with
    | true =>
      obtain ⟨stn, hstep, hfac, hsecs, hpad, hprev, hload⟩ :=
        createProgramHdrs.placeSection_open B st i sect hp ho
      generalize hseg : (({ ELFSegment.new ELF.PT_LOAD ELFSegment.defaultFlag with
          align := B.pagesize }).addSection i).updateFlag (B.getSegmentFlag sect.flag)
          = newseg at hfac
      have hty : newseg.type = ELF.PT_LOAD := by rw [← hseg]; rfl
      have hsec : newseg.sections = [i] := by rw [← hseg]; rfl
      generalize hx : ({ sect with addr := (sect.offset + stn.padding) % 2 ^ 64 } : LDSection)
        = x at hsecs
      have hxoff : x.offset = sect.offset := by rw [← hx]
      have hxerase : ({ x with addr := 0 } : LDSection) = { sect with addr := 0 } := by
        rw [← hx]
      have hxaddr : x.addr = (sect.offset + stn.padding) % 2 ^ 64 := by rw [← hx]
      have hgetx : stn.sections[i]? = some x := by
        rw [hsecs, List.getElem?_set_self hlen]
      have hpadx : stn.padding = createProgramHdrs.segmentPadding B x := by
        rw [hpad]; unfold createProgramHdrs.segmentPadding; rw [hxoff]
      have hfirst : newseg.getFirstSection stn.sections = some x := by
        unfold ELFSegment.getFirstSection
        rw [hsec]
        exact hgetx
      refine ⟨stn, loads ++ [newseg], hstep, ?_, ?_, ?_, ?_, ?_, ?_, ?_, ?_⟩
      · refine ⟨?_, ?_, ?_, ?_, ?_, ?_⟩
        · rw [hfac, hinv.factory_eq, List.append_assoc]
        · intro seg hs
          rcases List.mem_append.mp hs with h | h
          · exact hinv.all_load seg h
          · rw [List.mem_singleton.mp h]; exact hty
        · intro seg hs
          rcases List.mem_append.mp hs with h | h
          · exact hinv.nonempty seg h
          · rw [List.mem_singleton.mp h, hsec]; simp
        · intro seg hs idx hidx
          rcases List.mem_append.mp hs with h | h
          · exact hinv.valid seg h idx hidx
          · rw [List.mem_singleton.mp h, hsec] at hidx
            rw [List.mem_singleton.mp hidx]; exact hin
        · right
          exact ⟨loads, newseg, rfl, by rw [hload, hinv.factory_eq, List.length_append]⟩
        · rw [hsecs, List.length_set, hinv.length_eq]
      · refine ⟨?_, ?_, ?_⟩
        · intro seg hs idx hidx
          rcases List.mem_append.mp hs with h | h
          · exact Nat.lt_succ_of_lt (haddr.below seg h idx hidx)
          · rw [List.mem_singleton.mp h, hsec] at hidx
            rw [List.mem_singleton.mp hidx]; exact Nat.lt_succ_self i
        · intro seg hs
          rcases List.mem_append.mp hs with h | h
          · rw [hsecs]
            exact createProgramHdrs.HasSegmentAddrs_set B st.sections seg i x
              (haddr.below seg h) (haddr.addrs seg h)
          · rw [List.mem_singleton.mp h]
            refine ⟨x, hfirst, ?_⟩
            intro idx hidx
            rw [hsec] at hidx
            rw [List.mem_singleton.mp hidx]
            exact ⟨x, hgetx, by rw [hxaddr, hxoff, hpadx]⟩
        · intro init seg hl
          rw [← createProgramHdrs.last_of_append_singleton hl]
          exact ⟨x, hfirst, hpadx⟩
      · rw [hsecs, drop_set_succ]
      · intro _; rw [hload]; simp
      · intro h; exact Bool.noConfusion h
      · rw [hsecs]
        exact map_set_of_eq _ _ i sect x hget hxerase
      · rw [hprev]; simp
      · simp [hsec]
    | false =>
      have hsome : st.load_seg ≠ none := hcur hp ho
      obtain ⟨init, seg, hloads, hk⟩ : ∃ init seg, loads = init ++ [seg] ∧
          st.load_seg = some (base.length + init.length) := by
        rcases hinv.current with ⟨hnone, _⟩ | h
        · exact absurd hnone hsome
        · exact h
      obtain ⟨stn, hstep, hfac, hsecs, hpad, hprev, hload⟩ :=
        createProgramHdrs.placeSection_current B st i _ sect hp ho hk
      have hfac0 : st.factory = (base ++ init) ++ [seg] := by
        rw [hinv.factory_eq, hloads, List.append_assoc]
      rw [hfac0, ← List.length_append, ELFSegmentFactory.modify_last] at hfac
      generalize hseg : (seg.addSection i).updateFlag (B.getSegmentFlag sect.flag)
        = newseg at hfac
      have hty : newseg.type = seg.type := by rw [← hseg]; rfl
      have hsec : newseg.sections = seg.sections ++ [i] := by rw [← hseg]; rfl
      have hsegmem : seg ∈ loads := by rw [hloads]; simp
      generalize hx : ({ sect with addr := (sect.offset + st.padding) % 2 ^ 64 } : LDSection)
        = x at hsecs
      have hxoff : x.offset = sect.offset := by rw [← hx]
      have hxerase : ({ x with addr := 0 } : LDSection) = { sect with addr := 0 } := by
        rw [← hx]
      have hxaddr : x.addr = (sect.offset + st.padding) % 2 ^ 64 := by rw [← hx]
      have hgetx : stn.sections[i]? = some x := by
        rw [hsecs, List.getElem?_set_self hlen]
      obtain ⟨first, hf1, hf2⟩ := haddr.padding init seg hloads
      have hbelow : ∀ idx ∈ seg.sections, idx < i := haddr.below seg hsegmem
      have hfirst : newseg.getFirstSection stn.sections = some first := by
        rw [ELFSegment.getFirstSection_append seg newseg stn.sections i hsec
          (hinv.nonempty seg hsegmem), hsecs,
          ELFSegment.getFirstSection_set seg st.sections i x hbelow, hf1]
      have hnew : createProgramHdrs.HasSegmentAddrs B stn.sections newseg := by
        refine ⟨first, hfirst, ?_⟩
        intro idx hidx
        rw [hsec] at hidx
        rcases List.mem_append.mp hidx with h | h
        · obtain ⟨first2, g1, g2⟩ := haddr.addrs seg hsegmem
          have hsame : first2 = first := by
            rw [g1] at hf1
            exact Option.some.inj hf1
          obtain ⟨s, hs1, hs2⟩ := g2 idx h
          have hlt : idx < i := hbelow idx h
          refine ⟨s, by rw [hsecs, List.getElem?_set_ne (by omega), hs1], ?_⟩
          rw [hs2, hsame]
        · rw [List.mem_singleton.mp h]
          exact ⟨x, hgetx, by rw [hxaddr, hxoff, hf2]⟩
      refine ⟨stn, init ++ [newseg], hstep, ?_, ?_, ?_, ?_, ?_, ?_, ?_, ?_⟩
      · refine ⟨?_, ?_, ?_, ?_, ?_, ?_⟩
        · rw [hfac, List.append_assoc]
        · intro s hs
          rcases List.mem_append.mp hs with h | h
          · exact hinv.all_load s (by rw [hloads]; exact List.mem_append_left _ h)
          · rw [List.mem_singleton.mp h, hty]; exact hinv.all_load seg hsegmem
        · intro s hs
          rcases List.mem_append.mp hs with h | h
          · exact hinv.nonempty s (by rw [hloads]; exact List.mem_append_left _ h)
          · rw [List.mem_singleton.mp h, hsec]; simp
        · intro s hs idx hidx
          rcases List.mem_append.mp hs with h | h
          · exact hinv.valid s (by rw [hloads]; exact List.mem_append_left _ h) idx hidx
          · rw [List.mem_singleton.mp h, hsec] at hidx
            rcases List.mem_append.mp hidx with h2 | h2
            · exact hinv.valid seg hsegmem idx h2
            · rw [List.mem_singleton.mp h2]; exact hin
        · right
          exact ⟨init, newseg, rfl, hload⟩
        · rw [hsecs, List.length_set, hinv.length_eq]
      · refine ⟨?_, ?_, ?_⟩
        · intro s hs idx hidx
          rcases List.mem_append.mp hs with h | h
          · exact Nat.lt_succ_of_lt
              (haddr.below s (by rw [hloads]; exact List.mem_append_left _ h) idx hidx)
          · rw [List.mem_singleton.mp h, hsec] at hidx
            rcases List.mem_append.mp hidx with h2 | h2
            · exact Nat.lt_succ_of_lt (hbelow idx h2)
            · rw [List.mem_singleton.mp h2]; exact Nat.lt_succ_self i
        · intro s hs
          rcases List.mem_append.mp hs with h | h
          · have hmem : s ∈ loads := by rw [hloads]; exact List.mem_append_left _ h
            rw [hsecs]
            exact createProgramHdrs.HasSegmentAddrs_set B st.sections s i x
              (haddr.below s hmem) (haddr.addrs s hmem)
          · rw [List.mem_singleton.mp h]; exact hnew
        · intro init2 seg2 hl
          rw [← createProgramHdrs.last_of_append_singleton hl]
          exact ⟨first, hfirst, by rw [hpad, hf2]⟩
      · rw [hsecs, drop_set_succ]
      · intro _; rw [hload]; simp
      · intro h; exact Bool.noConfusion h
      · rw [hsecs]
        exact map_set_of_eq _ _ i sect x hget hxerase
      · rw [hprev]; simp
      · rw [hloads]
        simp [hsec, createProgramHdrs.addToLast]

/-- The section loop of `createProgramHdrs`, started in a state that has a
current segment or from which it is defined, runs to its end and leaves every
`PT_LOAD` segment it made with the addresses of its sections set; the sections
of these segments are the groups that the rule `loadGroups` gives. -/
theorem createProgramHdrs.loadLoop_addr (B : GNULDBackend) (base : List ELFSegment)
    (n : Nat) :
    ∀ (rest : List LDSection) (i : Nat) (st : createProgramHdrs.State)
      (loads : List ELFSegment),
      createProgramHdrs.LoadInv base n st loads →
      createProgramHdrs.AddrInv B i st loads →
      st.sections.drop i = rest →
      (st.load_seg ≠ none ∨
        createProgramHdrs.isDefinedFrom B st.prev_seg_flag rest = true) →
      ∃ (st2 : createProgramHdrs.State) (loads2 : List ELFSegment),
        createProgramHdrs.loadLoop B i rest st = some st2 ∧
        createProgramHdrs.LoadInv base n st2 loads2 ∧
        (∀ seg ∈ loads2, createProgramHdrs.HasSegmentAddrs B st2.sections seg) ∧
        st2.sections.map (fun s => { s with addr := 0 })
          = st.sections.map (fun s => { s with addr := 0 }) ∧
        loads2.map (fun seg => seg.sections)
          = createProgramHdrs.loadGroups B st.prev_seg_flag i rest
              (loads.map (fun seg => seg.sections)) := by
  intro rest
  induction rest with
  | nil =>
    intro i st loads hinv haddr _ _
    exact ⟨st, loads, rfl, hinv, haddr.addrs, rfl, rfl⟩
  | cons sect rest ih =>
    intro i st loads hinv haddr hdrop hdef
    obtain ⟨hlt, hget, hdrop2⟩ := drop_eq_cons hdrop
    have hin : i < n := by rw [← hinv.length_eq]; exact hlt
    have hcur : createProgramHdrs.isPlaced sect = true →
        createProgramHdrs.opensSegment B st.prev_seg_flag sect = false →
        st.load_seg ≠ none := by
      intro hp ho
      rcases hdef with h | h
      · exact h
      · exfalso
        unfold createProgramHdrs.isDefinedFrom at h
        rw [List.find?_cons_of_pos _ (by simp [hp])] at h
        simp only at h
        rw [ho] at h
        exact Bool.noConfusion h
    obtain ⟨stn, loadsn, hstep, hinvn, haddrn, hdropn, hplaced, hskipped, herase, hprev,
        hgroups⟩ :=
      createProgramHdrs.placeSection_inv B base n i st loads sect hinv haddr hget hin hcur
    have hdefn : stn.load_seg ≠ none ∨
        createProgramHdrs.isDefinedFrom B stn.prev_seg_flag rest = true := by
      cases hp : createProgramHdrs.isPlaced sect with
      | true => exact Or.inl (hplaced hp)
      | false =>
        rw [hskipped hp]
        rcases hdef with h | h
        · exact Or.inl h
        · right
          unfold createProgramHdrs.isDefinedFrom at h ⊢
          rwa [List.find?_cons_of_neg _ (by simp [hp])] at h
    obtain ⟨st2, loads2, h1, h2, h3, h4, h5⟩ :=
      ih (i + 1) stn loadsn hinvn haddrn (by rw [hdropn, hdrop2]) hdefn
    refine ⟨st2, loads2, ?_, h2, h3, by rw [h4, herase], ?_⟩
    · simp only [createProgramHdrs.loadLoop, hstep, h1]
    · rw [h5, hprev, hgroups]
      have hcons : createProgramHdrs.loadGroups B st.prev_seg_flag i (sect :: rest)
          (loads.map (fun seg => seg.sections))
          = if createProgramHdrs.isPlaced sect then
              if createProgramHdrs.opensSegment B st.prev_seg_flag sect then
                createProgramHdrs.loadGroups B (B.getSegmentFlag sect.flag) (i + 1) rest
                  (loads.map (fun seg => seg.sections) ++ [[i]])
              else createProgramHdrs.loadGroups B (B.getSegmentFlag sect.flag) (i + 1) rest
                (createProgramHdrs.addToLast (loads.map (fun seg => seg.sections)) i)
            else createProgramHdrs.loadGroups B st.prev_seg_flag (i + 1) rest
              (loads.map (fun seg => seg.sections)) := rfl
      rw [hcons]
      cases hp : createProgramHdrs.isPlaced sect with
      | false => simp
      | true =>
        cases ho : createProgramHdrs.opensSegment B st.prev_seg_flag sect <;> simp

/-- With a page size that is a power of two below `2 ^ 64`, the padding of a
segment is the page size if the offset of its first section is not a multiple
of the page size, and 0 otherwise. -/
theorem createProgramHdrs.segmentPadding_pow2 (B : GNULDBackend) (first : LDSection)
    (k : Nat) (hk : k < 64) (hpage : B.pagesize = 2 ^ k) :
    createProgramHdrs.segmentPadding B first
      = if first.offset % B.pagesize ≠ 0 then B.pagesize else 0 := by
  have hpos : 0 < 2 ^ k := Nat.two_pow_pos k
  have hlt : 2 ^ k < 2 ^ 64 := Nat.pow_lt_pow_right (by decide) hk
  have hmask : (2 ^ k + 2 ^ 64 - 1) % 2 ^ 64 = 2 ^ k - 1 := by
    rw [show 2 ^ k + 2 ^ 64 - 1 = (2 ^ k - 1) + 2 ^ 64 by omega, Nat.add_mod_right]
    exact Nat.mod_eq_of_lt (by omega)
  unfold createProgramHdrs.segmentPadding
  rw [hpage, hmask, Nat.and_pow_two_sub_one_eq_mod]

theorem createProgramHdrs.loadSegments_append (a b : List ELFSegment) :
    createProgramHdrs.loadSegments (a ++ b)
      = createProgramHdrs.loadSegments a ++ createProgramHdrs.loadSegments b := by
  simp [createProgramHdrs.loadSegments, List.filterMap_append]

theorem createProgramHdrs.loadSegments_of_load :
    ∀ loads : List ELFSegment, (∀ seg ∈ loads, seg.type = ELF.PT_LOAD) →
      createProgramHdrs.loadSegments loads = loads.map (fun seg => seg.sections) := by
  intro loads
  induction loads with
  | nil => intro _; rfl
  | cons x l ih =>
    intro h
    have hx : x.type = ELF.PT_LOAD := h x (List.mem_cons_self _ _)
    have hl := ih (fun s hs => h s (List.mem_cons_of_mem _ hs))
    unfold createProgramHdrs.loadSegments at hl ⊢
    simp [List.filterMap_cons, hx, hl]

theorem createProgramHdrs.loadSegments_of_not_load :
    ∀ segs : List ELFSegment, (∀ seg ∈ segs, seg.type ≠ ELF.PT_LOAD) →
      createProgramHdrs.loadSegments segs = [] := by
  intro segs
  induction segs with
  | nil => intro _; rfl
  | cons x l ih =>
    intro h
    have hx : x.type ≠ ELF.PT_LOAD := h x (List.mem_cons_self _ _)
    have hl := ih (fun s hs => h s (List.mem_cons_of_mem _ hs))
    unfold createProgramHdrs.loadSegments at hl ⊢
    simp [List.filterMap_cons, hx, hl]

/-- The sections of the `PT_LOAD` segments of a factory are read off the types
and the sections of its segments. -/
theorem createProgramHdrs.loadSegments_congr :
    ∀ (segs segs2 : List ELFSegment),
      segs2.map (fun s => (s.type, s.sections)) = segs.map (fun s => (s.type, s.sections)) →
      createProgramHdrs.loadSegments segs2 = createProgramHdrs.loadSegments segs := by
  intro segs segs2 h
  have hf : ∀ l : List ELFSegment, createProgramHdrs.loadSegments l
      = (l.map (fun s => (s.type, s.sections))).filterMap
          (fun p => if p.1 = ELF.PT_LOAD then some p.2 else none) := by
    intro l
    unfold createProgramHdrs.loadSegments
    rw [List.filterMap_map]
    rfl
  rw [hf, hf, h]

/-- On a section table for which the section loop is defined, and from an
empty factory, `createProgramHdrs` runs to its end, every section of every
`PT_LOAD` segment it leaves has the address `offset + padding` for the padding
of its segment, and the sections of the `PT_LOAD` segments are the groups of
the rule `loadGroups`. -/
theorem createProgramHdrs_addrs (B : GNULDBackend) (sects : List LDSection)
    (hdef : createProgramHdrs.isDefined B sects = true) :
    ∃ res : ProgramHdrs, createProgramHdrs B sects [] = some res ∧
      res.sections.map (fun s => { s with addr := 0 })
        = sects.map (fun s => { s with addr := 0 }) ∧
      (∀ seg ∈ res.factory, seg.type = ELF.PT_LOAD →
        createProgramHdrs.HasSegmentAddrs B res.sections seg) ∧
      createProgramHdrs.loadSegments res.factory
        = createProgramHdrs.loadGroups B (B.getSegmentFlag 0) 0 sects [] := by
  have hf2 : (match LDContext.getSection ".interp" sects with
      | some interp =>
        ([] ++ [ELFSegment.new ELF.PT_PHDR ELF.PF_R]) ++
          [{ (ELFSegment.new ELF.PT_INTERP ELF.PF_R).addSection interp with
             align := B.bitclass / 8 }]
      | none => [] ++ [ELFSegment.new ELF.PT_PHDR ELF.PF_R])
      = [ELFSegment.new ELF.PT_PHDR ELF.PF_R] ++ createProgramHdrs.interpSegment B sects := by
    unfold createProgramHdrs.interpSegment
    cases LDContext.getSection ".interp" sects <;> rfl
  have hinv0 : createProgramHdrs.LoadInv
      ([ELFSegment.new ELF.PT_PHDR ELF.PF_R] ++ createProgramHdrs.interpSegment B sects)
      sects.length
      { sections := sects,
        factory := [ELFSegment.new ELF.PT_PHDR ELF.PF_R]
          ++ createProgramHdrs.interpSegment B sects,
        prev_seg_flag := B.getSegmentFlag 0, padding := 0, load_seg := none } [] :=
    ⟨by simp, by simp, by simp, by simp, Or.inl ⟨rfl, rfl⟩, rfl⟩
  have haddr0 : createProgramHdrs.AddrInv B 0
      { sections := sects,
        factory := [ELFSegment.new ELF.PT_PHDR ELF.PF_R]
          ++ createProgramHdrs.interpSegment B sects,
        prev_seg_flag := B.getSegmentFlag 0, padding := 0, load_seg := none } [] :=
    ⟨by simp, by simp, fun init seg h => by simp at h⟩
  obtain ⟨st, loads, hloop, hinv, haddrs, herase, hgroups⟩ :=
    createProgramHdrs.loadLoop_addr B _ sects.length sects 0 _ [] hinv0 haddr0 rfl
      (Or.inr hdef)
  simp only at herase
  simp only [List.map_nil] at hgroups
  have hdyn : (match LDContext.getSection ".dynamic" st.sections with
      | some dynamic =>
        st.factory ++
          [{ (ELFSegment.new ELF.PT_DYNAMIC (ELF.PF_R ||| ELF.PF_W)).addSection dynamic with
             align := B.bitclass / 8 }]
      | none => st.factory)
      = [ELFSegment.new ELF.PT_PHDR ELF.PF_R] ++ createProgramHdrs.interpSegment B sects
          ++ loads ++ createProgramHdrs.dynamicSegment B sects := by
    rw [LDContext.getSection_congr ".dynamic" st.sections sects herase, hinv.factory_eq]
    unfold createProgramHdrs.dynamicSegment
    cases LDContext.getSection ".dynamic" sects <;> simp
  have hlen : st.sections.length = sects.length := hinv.length_eq
  have hupd : ∀ seg ∈ [ELFSegment.new ELF.PT_PHDR ELF.PF_R]
      ++ createProgramHdrs.interpSegment B sects ++ loads
      ++ createProgramHdrs.dynamicSegment B sects,
      createProgramHdrs.Updatable st.sections.length seg := by
    intro seg hseg
    rw [hlen]
    simp only [List.mem_append, List.mem_singleton] at hseg
    rcases hseg with ((h | h) | h) | h
    · left; rw [h]; rfl
    · exact (createProgramHdrs.interpSegment_updatable B sects seg h).2.2.2
    · exact Or.inr ⟨hinv.nonempty seg h, hinv.valid seg h⟩
    · exact (createProgramHdrs.dynamicSegment_updatable B sects seg h).2.2.2
  obtain ⟨f4, hf4⟩ := createProgramHdrs.updateLoop_some B st.sections _ true hupd
  refine ⟨⟨st.sections, f4⟩, ?_, herase, ?_, ?_⟩
  · unfold createProgramHdrs
    simp only [hf2, hloop, hdyn, hf4]
  rotate_left
  · have hmap := createProgramHdrs.updateLoop_map B st.sections _ _ true hf4
    show createProgramHdrs.loadSegments f4 = _
    rw [createProgramHdrs.loadSegments_congr _ _ hmap,
      createProgramHdrs.loadSegments_append, createProgramHdrs.loadSegments_append,
      createProgramHdrs.loadSegments_append,
      createProgramHdrs.loadSegments_of_load loads hinv.all_load,
      createProgramHdrs.loadSegments_of_not_load (createProgramHdrs.interpSegment B sects)
        (fun seg hs => by
          rw [(createProgramHdrs.interpSegment_updatable B sects seg hs).1]; decide),
      createProgramHdrs.loadSegments_of_not_load (createProgramHdrs.dynamicSegment B sects)
        (fun seg hs => by
          rw [(createProgramHdrs.dynamicSegment_updatable B sects seg hs).1]; decide),
      createProgramHdrs.loadSegments_of_not_load [ELFSegment.new ELF.PT_PHDR ELF.PF_R]
        (fun seg hs => by rw [List.mem_singleton.mp hs]; decide),
      hgroups]
    simp
  · intro seg hseg hty
    obtain ⟨seg0, hmem0, t1, _, t3, _⟩ :=
      createProgramHdrs.updateLoop_mem B st.sections _ _ true hf4 seg hseg
    have hty0 : seg0.type = ELF.PT_LOAD := by rw [← t1]; exact hty
    have hload : seg0 ∈ loads := by
      simp only [List.mem_append, List.mem_singleton] at hmem0
      rcases hmem0 with ((h | h) | h) | h
      · rw [h] at hty0; exact absurd hty0 (by decide)
      · rw [(createProgramHdrs.interpSegment_updatable B sects seg0 h).1] at hty0
        exact absurd hty0 (by decide)
      · exact h
      · rw [(createProgramHdrs.dynamicSegment_updatable B sects seg0 h).1] at hty0
        exact absurd hty0 (by decide)
    obtain ⟨first, g1, g2⟩ := haddrs seg0 hload
    refine ⟨first, ?_, ?_⟩
    · unfold ELFSegment.getFirstSection at g1 ⊢
      rw [t3]; exact g1
    · intro idx hidx
      rw [t3] at hidx
      exact g2 idx hidx

/-- C21, the code on a segment of several sections: with the page size 4096,
the Null section at offset 0 opens the first `PT_LOAD` with the padding 0, and
`.text` at offset 372, which is not a multiple of 4096, is placed in that
segment with the address 372, not `372 + 4096`. -/
theorem createProgramHdrs_text_addr_without_padding :
    Example.backend.pagesize = 4096 ∧
    Example.text.offset = 372 ∧ 372 % 4096 ≠ 0 ∧
    (createProgramHdrs Example.backend
      [Example.nullSection, Example.text, Example.rodata, Example.data, Example.bss] []).map
      (fun res => (res.factory.map (fun seg => (seg.type, seg.sections)),
        res.sections.map (fun s => (s.offset, s.addr))))
      = some ([(ELF.PT_PHDR, []), (ELF.PT_LOAD, [0, 1, 2]), (ELF.PT_LOAD, [3, 4])],
              [(0, 0), (372, 372), (472, 472), (4096, 4096), (4120, 4120)]) := by
  decide

/-- C21, amended: on a section table for which the section loop is defined, and
from an empty factory, the table that `createProgramHdrs` leaves differs from
the one it got in addresses only, and for every section of a `PT_LOAD` segment
the address is `offset + padding` modulo `2 ^ 64`, where the padding is that
of the segment: the one computed from the offset of the first section of the
segment when the segment is opened. With a page size that is a power of two
below `2 ^ 64`, that padding is the page size if the offset of the first
section is not a multiple of the page size, and 0 otherwise. -/
theorem createProgramHdrs_section_addr (B : GNULDBackend) (sects : List LDSection)
    (hdef : createProgramHdrs.isDefined B sects = true) :
    ∃ res : ProgramHdrs, createProgramHdrs B sects [] = some res ∧
      res.sections.map (fun s => { s with addr := 0 })
        = sects.map (fun s => { s with addr := 0 }) ∧
      (∀ seg ∈ res.factory, seg.type = ELF.PT_LOAD →
        ∃ first, seg.getFirstSection res.sections = some first ∧
          ∀ idx ∈ seg.sections, ∃ s, res.sections[idx]? = some s ∧
            s.addr = (s.offset + createProgramHdrs.segmentPadding B first) % 2 ^ 64) ∧
      (∀ (first : LDSection) (k : Nat), k < 64 → B.pagesize = 2 ^ k →
        createProgramHdrs.segmentPadding B first
          = if first.offset % B.pagesize ≠ 0 then B.pagesize else 0) := by
  obtain ⟨res, h1, h2, h3, _⟩ := createProgramHdrs_addrs B sects hdef
  exact ⟨res, h1, h2, h3,
    fun first k hk hpage => createProgramHdrs.segmentPadding_pow2 B first k hk hpage⟩

/-- The section table of the examples headed by the Null section, with the
page size `4096 = 2 ^ 12`. -/
theorem createProgramHdrs_section_addr_witness :
    createProgramHdrs.isDefined Example.backend
      [Example.nullSection, Example.text, Example.rodata, Example.data, Example.bss]
      = true ∧
    ∃ res : ProgramHdrs,
      createProgramHdrs Example.backend
        [Example.nullSection, Example.text, Example.rodata, Example.data, Example.bss] []
        = some res ∧
      (∀ seg ∈ res.factory, seg.type = ELF.PT_LOAD →
        ∃ first, seg.getFirstSection res.sections = some first ∧
          ∀ idx ∈ seg.sections, ∃ s, res.sections[idx]? = some s ∧
            s.addr = (s.offset + createProgramHdrs.segmentPadding Example.backend first)
              % 2 ^ 64) ∧
      createProgramHdrs.segmentPadding Example.backend Example.nullSection = 0 ∧
      createProgramHdrs.segmentPadding Example.backend Example.text = 4096 := by
  obtain ⟨res, h1, _, h3, h4⟩ := createProgramHdrs_section_addr Example.backend
    [Example.nullSection, Example.text, Example.rodata, Example.data, Example.bss]
    (by decide)
  refine ⟨by decide, res, h1, h3, ?_, ?_⟩
  · rw [h4 Example.nullSection 12 (by decide) (by decide)]; decide
  · rw [h4 Example.text 12 (by decide) (by decide)]; decide

/-! ### Program headers: where a `PT_LOAD` starts -/

/-- C18, the code on the section table of the claim: the table that holds
`.text` (AX), `.rodata` (A), `.data` (AW) and `.bss` (AW, BSS kind) is headed by
the Null section, at position 0; `createProgramHdrs` makes two `PT_LOAD`
segments, and the first holds the positions 0, 1, 2: the Null section with
`.text` and `.rodata`, not `.text` and `.rodata` alone. -/
theorem createProgramHdrs_first_load_holds_null :
    [Example.nullSection, Example.text, Example.rodata, Example.data, Example.bss].map
      (fun s => (s.name, s.kind, s.flag))
      = [("", .Null, 0), (".text", .Regular, 6), (".rodata", .Regular, 2),
         (".data", .Regular, 3), (".bss", .BSS, 3)] ∧
    (createProgramHdrs Example.backend
      [Example.nullSection, Example.text, Example.rodata, Example.data, Example.bss] []).map
      (fun res => createProgramHdrs.loadSegments res.factory)
      = some [[0, 1, 2], [3, 4]] := by
  constructor <;> decide

/-- C18, amended: on a section table for which the section loop is defined (no
section is placed before a `PT_LOAD` exists, as when the table is headed by the
Null section), and from an empty factory, `createProgramHdrs` runs to its end
and the `PT_LOAD` segments it leaves hold, segment after segment, the groups of
the rule: a new `PT_LOAD` starts exactly at a placed section that is of Null
kind or whose segment write flag differs from that of the placed section
before it (from `getSegmentFlag(0)` for the first), and every other placed
section goes into the current `PT_LOAD`. A table whose first placed section is
of Null kind is such a table. -/
theorem createProgramHdrs_load_groups (B : GNULDBackend) (sects : List LDSection)
    (hdef : createProgramHdrs.isDefined B sects = true) :
    ∃ res : ProgramHdrs, createProgramHdrs B sects [] = some res ∧
      createProgramHdrs.loadSegments res.factory
        = createProgramHdrs.loadGroups B (B.getSegmentFlag 0) 0 sects [] ∧
      (∀ (first : LDSection) (rest : List LDSection),
        first.kind = LDFileFormat.Kind.Null →
        createProgramHdrs.isDefined B (first :: rest) = true) := by
  obtain ⟨res, h1, _, _, h4⟩ := createProgramHdrs_addrs B sects hdef
  exact ⟨res, h1, h4,
    fun first rest hnull => createProgramHdrs.isDefined_of_null B first rest hnull⟩

/-- The table Null, `.text` (AX), `.rodata` (A), `.data` (AW), `.bss` (AW, BSS
kind) on the example backend: exactly two `PT_LOAD` segments, holding Null,
`.text`, `.rodata` and `.data`, `.bss`. -/
theorem createProgramHdrs_load_groups_witness :
    createProgramHdrs.isDefined Example.backend
      [Example.nullSection, Example.text, Example.rodata, Example.data, Example.bss]
      = true ∧
    ∃ res : ProgramHdrs,
      createProgramHdrs Example.backend
        [Example.nullSection, Example.text, Example.rodata, Example.data, Example.bss] []
        = some res ∧
      createProgramHdrs.loadSegments res.factory = [[0, 1, 2], [3, 4]] := by
  obtain ⟨res, h1, h2, _⟩ := createProgramHdrs_load_groups Example.backend
    [Example.nullSection, Example.text, Example.rodata, Example.data, Example.bss]
    (by decide)
  refine ⟨by decide, res, h1, ?_⟩
  rw [h2]
  decide

end mcld
